import Mathlib

/-!
# llvm-autotuner: a shallow embedding of `autotune.go`

The repository holds two versions of the tuner:

* `src/autotune.go`      (simulated annealing and the genetic algorithm), namespace `Primary`;
* `src/src/autotune.go`  (simulated annealing with the replay server), namespace `Secondary`.

What both share is in namespace `Autotune`.

Modelling conventions.

* Go `int`, `time.Duration` are `Int`; arithmetic that can overflow goes through `int64`,
  conversions to `int32` through `int32`.
* A Go slice of ints is a `Slice` header over a memory `Mem` of backing arrays, so that
  aliasing and in-place writes are visible.
* Finite `float64`/`float32` values are rationals; `round64` is round-to-nearest-even onto
  binary64.
* `math/rand` is a tape of rationals: every call consumes one entry `x` and sees the draw
  `Int.fract x`, a number in `[0, 1)`.
* A Go panic (index out of range, `Int31n` with a non-positive bound) is `none`.
-/

namespace Autotune

/-! ## Machine integers -/

/-- Two's-complement wrap of an integer to 64 bits (Go `int`, `time.Duration`). -/
def int64 (x : Int) : Int := (x + 2 ^ 63) % 2 ^ 64 - 2 ^ 63

/-- Conversion `int32(x)`: two's-complement wrap to 32 bits. -/
def int32 (x : Int) : Int := (x + 2 ^ 31) % 2 ^ 32 - 2 ^ 31

/-- The constant `maxElapsed = time.Duration(math.MaxInt64)`. -/
def maxElapsed : Int := 2 ^ 63 - 1

/-- The values a `time.Duration` (an `int64`) can hold. -/
def IsDuration (d : Int) : Prop := -(2 : Int) ^ 63 ≤ d ∧ d ≤ 2 ^ 63 - 1

instance (d : Int) : Decidable (IsDuration d) := by
  unfold IsDuration; exact inferInstance

/-- Decimal rendering of an integer, `strconv.Itoa`: a minus sign for negative numbers,
then the decimal digits without leading zeros. -/
def itoa (n : Int) : String :=
  if n < 0 then "-" ++ Nat.repr n.natAbs else Nat.repr n.toNat

/-! ## Floating point -/

/-- Nearest integer to a rational, ties to the even neighbour. -/
def roundHalfEven (q : ℚ) : ℤ :=
  let f := ⌊q⌋
  let r := q - f
  if r < 1 / 2 then f else if 1 / 2 < r then f + 1 else if f % 2 = 0 then f else f + 1

/-- Rounding of a rational to the nearest binary64 number (53 bits of precision, smallest
exponent `-1074`), ties to even. Overflow to infinity is not represented. -/
def round64 (q : ℚ) : ℚ :=
  if q = 0 then 0 else
  let e : ℤ := max (Int.log 2 |q| - 52) (-1074)
  (roundHalfEven (q / 2 ^ e) : ℚ) * 2 ^ e

/-- The constant `0.05` as a `float64`. -/
def f64_0_05 : ℚ := 3602879701896397 / 2 ^ 56

/-- The constant `0.2` as a `float64`. -/
def f64_0_2 : ℚ := 3602879701896397 / 2 ^ 54

/-- The constant `0.5*2.0/3.0` as a `float32`. -/
def f32_third : ℚ := 11184811 / 2 ^ 25

/-- The constant `0.5*1.0/3.0` as a `float32`. -/
def f32_sixth : ℚ := 11184811 / 2 ^ 26

/-! ## Memory and slices -/

/-- Backing arrays of `[]int` slices, addressed by their position. -/
abbrev Mem := List (List Int)

/-- A slice header: backing array, offset into it, length and capacity. -/
structure Slice where
  arr : Nat
  off : Nat
  len : Nat
  cap : Nat
deriving DecidableEq, Repr

/-- The backing array at an address (empty when nothing is allocated there). -/
def Mem.array (m : Mem) (a : Nat) : List Int := m.getD a []

/-- The elements a slice denotes in a memory. -/
def Slice.toList (s : Slice) (m : Mem) : List Int :=
  ((m.array s.arr).drop s.off).take s.len

/-- A slice header is valid in a memory when its capacity lies inside its backing array. -/
def Slice.Valid (s : Slice) (m : Mem) : Prop :=
  s.len ≤ s.cap ∧ s.off + s.cap ≤ (m.array s.arr).length

instance (s : Slice) (m : Mem) : Decidable (s.Valid m) := by
  unfold Slice.Valid; exact inferInstance

/-- Overwrite the cells `off, off+1, ...` of an array by `data`. -/
def writeAt (l : List Int) (off : Nat) (data : List Int) : List Int :=
  l.take off ++ data ++ l.drop (off + data.length)

/-- Store `data` at offset `off` of the backing array `a`. -/
def Mem.store (m : Mem) (a off : Nat) (data : List Int) : Mem :=
  m.set a (writeAt (m.array a) off data)

/-- The allocation `make([]int, len, cap)`: a fresh zeroed backing array; panics unless
`0 ≤ len ≤ cap`. -/
def makeSlice (m : Mem) (len cap : Int) : Option (Slice × Mem) :=
  if 0 ≤ len ∧ len ≤ cap then
    some ({ arr := m.length, off := 0, len := len.toNat, cap := cap.toNat },
          m ++ [List.replicate cap.toNat 0])
  else none

/-- The builtin `copy(dst, src)`: copies `min(len(dst), len(src))` elements. -/
def copySlice (dst src : Slice) (m : Mem) : Mem :=
  m.store dst.arr dst.off ((src.toList m).take dst.len)

/-- The slice expression `s[:hi]`; panics unless `0 ≤ hi ≤ cap(s)`. -/
def Slice.sliceTo (s : Slice) (hi : Int) : Option Slice :=
  if 0 ≤ hi ∧ hi ≤ s.cap then
    some { arr := s.arr, off := s.off, len := hi.toNat, cap := s.cap }
  else none

/-- The slice expression `s[lo:]`; panics unless `0 ≤ lo ≤ len(s)`. -/
def Slice.sliceFrom (s : Slice) (lo : Int) : Option Slice :=
  if 0 ≤ lo ∧ lo ≤ s.len then
    some { arr := s.arr, off := s.off + lo.toNat, len := s.len - lo.toNat,
           cap := s.cap - lo.toNat }
  else none

/-- The builtin `append(s, t...)`: writes in place behind `s` when the capacity of `s`
suffices, otherwise moves to a fresh backing array (whose capacity Go chooses; the least
one is taken here). -/
def appendSlice (s t : Slice) (m : Mem) : Slice × Mem :=
  if s.len + t.len ≤ s.cap then
    ({ s with len := s.len + t.len }, m.store s.arr (s.off + s.len) (t.toList m))
  else
    ({ arr := m.length, off := 0, len := s.len + t.len, cap := s.len + t.len },
     m ++ [s.toList m ++ t.toList m])

/-- The assignment `s[i] = v`; panics unless `i < len(s)`. -/
def Slice.setAt (s : Slice) (i : Nat) (v : Int) (m : Mem) : Option Mem :=
  if i < s.len then some (m.store s.arr (s.off + i) [v]) else none

/-! ## Random numbers -/

/-- The state of `math/rand`: a tape of future draws and the position reached. -/
structure Rng where
  tape : Nat → ℚ
  pos : Nat

/-- The draw at the current position, a number in `[0, 1)`. -/
def Rng.draw (g : Rng) : ℚ := Int.fract (g.tape g.pos)

/-- The generator after one draw. -/
def Rng.advance (g : Rng) : Rng := { g with pos := g.pos + 1 }

/-- The call `rand.Float64()`. -/
def randFloat64 (g : Rng) : ℚ × Rng := (g.draw, g.advance)

/-- The call `rand.Float32()`. -/
def randFloat32 (g : Rng) : ℚ × Rng := (g.draw, g.advance)

/-- The call `rand.Int31n(n)`: a number in `[0, n)`; panics when `n ≤ 0`. -/
def randInt31n (g : Rng) (n : Int) : Option (Int × Rng) :=
  if 0 < n then some (⌊g.draw * n⌋, g.advance) else none

/-! ## Configurations -/

/-- The struct `Config`: indices into the pass catalog and the inliner threshold. -/
structure Config where
  passes : Slice
  inlineThresh : Int
deriving DecidableEq, Repr

/-- The global `numOpts`, set by `loadopts` to `len(opts)`. -/
def numOpts (opts : List String) : Int := opts.length

/-- The index expression `opts[ii]`; panics when `ii` is out of range. -/
def optAt (opts : List String) (ii : Int) : Option String :=
  if 0 ≤ ii then opts[ii.toNat]? else none

/-- A loop `for _, x := range xs` that computes one output per element and panics as soon
as one element does. -/
def forEach {α β : Type} (f : α → Option β) : List α → Option (List β)
  | [] => some []
  | x :: xs =>
    match f x with
    | none => none
    | some y => (forEach f xs).map fun ys => y :: ys

end Autotune

namespace Primary
open Autotune

/-- The flag of one pass in `Config.asArgs` of `src/autotune.go`: `"-" + opts[ii]`. -/
def passArg (opts : List String) (ii : Int) : Option String :=
  (optAt opts ii).map fun name => "-" ++ name

/-- The method `Config.asArgs` of `src/autotune.go`. -/
def asArgs (opts : List String) (m : Mem) (config : Config) : Option (List String) :=
  (forEach (passArg opts) (config.passes.toList m)).map fun flags =>
    "-mem2reg" :: ("-inline-threshold=" ++ itoa config.inlineThresh) :: flags

end Primary

namespace Secondary
open Autotune

/-- The flag of one pass in `Config.asArgs` of `src/src/autotune.go`: `-verify` for the
index `numOpts`, otherwise `"-" + opts[ii]`. -/
def passArg (opts : List String) (ii : Int) : Option String :=
  if ii = numOpts opts then some "-verify"
  else (optAt opts ii).map fun name => "-" ++ name

/-- The method `Config.asArgs` of `src/src/autotune.go`. -/
def asArgs (opts : List String) (m : Mem) (config : Config) : Option (List String) :=
  (forEach (passArg opts) (config.passes.toList m)).map fun flags =>
    "-mem2reg" :: ("-inline-threshold=" ++ itoa config.inlineThresh) :: flags

end Secondary

namespace Autotune

/-- The number a string of decimal digits denotes, read from the left. -/
def ofDigits (cs : List Char) : Nat :=
  cs.foldl (fun acc c => acc * 10 + (c.toNat - 48)) 0

end Autotune

namespace Primary
open Autotune

/-- The type `O3` and the interface `OptConfig`: what can be rendered to arguments is a
`Config` or the baseline `O3`. -/
inductive OptConfig where
  | config (c : Config)
  | o3
deriving DecidableEq, Repr

/-- The method `asArgs` of the interface `OptConfig`; `O3` renders to `-O3`. -/
def OptConfig.asArgs (opts : List String) (m : Mem) : OptConfig → Option (List String)
  | .config c => Primary.asArgs opts m c
  | .o3 => some ["-O3"]

/-- The struct `Result` of the worker pool. -/
structure Result where
  config : OptConfig
  elapsed : Int
deriving DecidableEq, Repr

/-- The library function `strings.Join`. -/
def stringsJoin (elems : List String) (sep : String) : String := sep.intercalate elems

/-- The type `ConfigCache`, a `map[string]bool`; an absent key reads `false`. -/
abbrev ConfigCache := String → Bool

/-- The empty map `make(ConfigCache)`. -/
def ConfigCache.empty : ConfigCache := fun _ => false

/-- The assignment `cache[key] = true`. -/
def ConfigCache.setTrue (cache : ConfigCache) (key : String) : ConfigCache :=
  fun k => if k = key then true else cache k

/-- The method `ConfigCache.add`. -/
def ConfigCache.add (opts : List String) (m : Mem) (cache : ConfigCache) :
    List Result → Option ConfigCache
  | [] => some cache
  | result :: results =>
    match result.config.asArgs opts m with
    | none => none
    | some args => ConfigCache.add opts m (cache.setTrue (stringsJoin args "")) results

/-- The method `ConfigCache.find`. -/
def ConfigCache.find (opts : List String) (m : Mem) (cache : ConfigCache) (config : Config) :
    Option Bool :=
  (Primary.asArgs opts m config).map fun args => cache (stringsJoin args "")

/-- A cache built from the empty one by a sequence of `add` calls, each made in the memory
of its time. -/
def ConfigCache.addAll (opts : List String) (cache : ConfigCache) :
    List (Mem × List Result) → Option ConfigCache
  | [] => some cache
  | (m, results) :: rest =>
    match ConfigCache.add opts m cache results with
    | none => none
    | some cache1 => ConfigCache.addAll opts cache1 rest

end Primary

namespace Autotune

/-- The function `checkRun` (the same in both versions). `run` stands for the evaluation
pipeline, which returns an elapsed time and an error (`none` for `nil`); `errfile` is the
error log, to which the error is appended. -/
def checkRun {κ : Type} (run : κ → Int → Int × Option String) (config : κ) (timeout : Int)
    (errfile : List String) : Int × List String :=
  match run config timeout with
  | (_, some err) => (maxElapsed, errfile ++ [err])
  | (elapsed, none) => (elapsed, errfile)

end Autotune

namespace Primary
open Autotune

/-- The constant `REPLACE_RATE = 0.5` of `src/autotune.go`. -/
def REPLACE_RATE : ℚ := 1 / 2

/-- The loop of `randomConfig`: `n` iterations remain, starting at index `i`. -/
def randomConfigLoop (nOpts : Int) (passes : Slice) :
    Nat → Nat → Mem → Rng → Option (Mem × Rng)
  | 0, _, m, g => some (m, g)
  | n + 1, i, m, g =>
    match randInt31n g (int32 nOpts) with
    | none => none
    | some (v, g1) =>
      match passes.setAt i v m with
      | none => none
      | some m1 => randomConfigLoop nOpts passes n (i + 1) m1 g1

/-- The function `randomConfig` of `src/autotune.go`; `nOpts` is the global `numOpts`. -/
def randomConfig (nOpts : Int) (max : Int) (m : Mem) (g : Rng) :
    Option (Config × Mem × Rng) :=
  match makeSlice m max max with
  | none => none
  | some (passes, m1) =>
    match randomConfigLoop nOpts passes max.toNat 0 m1 g with
    | none => none
    | some (m2, g1) => some ({ passes := passes, inlineThresh := 325 }, m2, g1)

/-- The method `Config.combineWith` of `src/autotune.go`. Each step that can panic is one
`bind`; `coPoint` holds the drawn split point and the generator after the draw, `first`
the fresh slice and the memory after its allocation. -/
def combineWith (self other : Config) (m : Mem) (g : Rng) : Option (Config × Mem × Rng) :=
  (randInt31n g (int32 self.passes.len)).bind fun coPoint =>
  (makeSlice m coPoint.1 self.passes.len).bind fun first =>
  (self.passes.sliceTo coPoint.1).bind fun selfHead =>
  (other.passes.sliceFrom coPoint.1).bind fun second =>
  some ({ passes := (appendSlice first.1 second (copySlice first.1 selfHead first.2)).1,
          inlineThresh := self.inlineThresh },
        (appendSlice first.1 second (copySlice first.1 selfHead first.2)).2, coPoint.2)

/-- The loop of `randNext` in `src/autotune.go`: `n` iterations remain, starting at
index `i`. -/
def randNextLoop (nOpts : Int) (mutateProb : ℚ) (next : Slice) :
    Nat → Nat → Mem → Rng → Option (Mem × Rng)
  | 0, _, m, g => some (m, g)
  | n + 1, i, m, g =>
    let (u, g1) := randFloat64 g
    if mutateProb > u then
      match randInt31n g1 (int32 nOpts) with
      | none => none
      | some (v, g2) =>
        match next.setAt i v m with
        | none => none
        | some m1 => randNextLoop nOpts mutateProb next n (i + 1) m1 g2
    else randNextLoop nOpts mutateProb next n (i + 1) m g1

/-- The method `Config.randNext` of `src/autotune.go`; `nOpts` is the global `numOpts`. -/
def randNext (nOpts : Int) (t : ℚ) (config : Config) (m : Mem) (g : Rng) :
    Option (Config × Mem × Rng) :=
  match makeSlice m config.passes.len config.passes.len with
  | none => none
  | some (passes, m1) =>
    let m2 := copySlice passes config.passes m1
    let mutateProb := max (round64 (t * REPLACE_RATE)) f64_0_05
    match randNextLoop nOpts mutateProb passes config.passes.len 0 m2 g with
    | none => none
    | some (m3, g1) =>
      let (r, g2) := randFloat32 g1
      let inlineThresh :=
        if r > f32_third then int64 (config.inlineThresh + 50)
        else if r > f32_sixth ∧ config.inlineThresh > 100 then int64 (config.inlineThresh - 50)
        else config.inlineThresh
      some ({ passes := passes, inlineThresh := inlineThresh }, m3, g2)

end Primary

namespace Secondary
open Autotune

/-- The constant `REPLACE_RATE = 0.2` of `src/src/autotune.go`, as a `float64`. -/
def REPLACE_RATE : ℚ := f64_0_2

/-- The loop of `randomConfig`: `n` iterations remain, starting at index `i`. -/
def randomConfigLoop (nOpts : Int) (passes : Slice) :
    Nat → Nat → Mem → Rng → Option (Mem × Rng)
  | 0, _, m, g => some (m, g)
  | n + 1, i, m, g =>
    match randInt31n g (int32 nOpts) with
    | none => none
    | some (v, g1) =>
      match passes.setAt i v m with
      | none => none
      | some m1 => randomConfigLoop nOpts passes n (i + 1) m1 g1

/-- The function `randomConfig` of `src/src/autotune.go`. -/
def randomConfig (nOpts : Int) (max : Int) (m : Mem) (g : Rng) :
    Option (Config × Mem × Rng) :=
  match makeSlice m max max with
  | none => none
  | some (passes, m1) =>
    match randomConfigLoop nOpts passes max.toNat 0 m1 g with
    | none => none
    | some (m2, g1) => some ({ passes := passes, inlineThresh := 225 }, m2, g1)

/-- The loop of `randNext` in `src/src/autotune.go`: `n` iterations remain, starting at
index `i`. A position is replaced when the draw exceeds `repProb`, and the fresh index is
drawn below `numOpts + 1`. -/
def randNextLoop (nOpts : Int) (repProb : ℚ) (next : Slice) :
    Nat → Nat → Mem → Rng → Option (Mem × Rng)
  | 0, _, m, g => some (m, g)
  | n + 1, i, m, g =>
    let (u, g1) := randFloat64 g
    if u > repProb then
      match randInt31n g1 (int32 (int32 nOpts + 1)) with
      | none => none
      | some (v, g2) =>
        match next.setAt i v m with
        | none => none
        | some m1 => randNextLoop nOpts repProb next n (i + 1) m1 g2
    else randNextLoop nOpts repProb next n (i + 1) m g1

/-- The method `Config.randNext` of `src/src/autotune.go`. -/
def randNext (nOpts : Int) (t : ℚ) (config : Config) (m : Mem) (g : Rng) :
    Option (Config × Mem × Rng) :=
  match makeSlice m config.passes.len config.passes.len with
  | none => none
  | some (passes, m1) =>
    let m2 := copySlice passes config.passes m1
    let repProb := max (round64 (t * REPLACE_RATE)) f64_0_05
    match randNextLoop nOpts repProb passes passes.len 0 m2 g with
    | none => none
    | some (m3, g1) => some ({ passes := passes, inlineThresh := config.inlineThresh }, m3, g1)

end Secondary

namespace Primary
open Autotune

/-- Configurations that `src/autotune.go` can build: the result of `randomConfig`, of
`randNext` on such a configuration, or of `combineWith` on two of them, in any memory and
under any random draws. The number bounds how many `randNext` calls the inliner threshold
has gone through. -/
inductive Reachable (nOpts : Int) : Nat → Config → Prop
  | random (max : Int) (m : Mem) (g : Rng) (c : Config) (m1 : Mem) (g1 : Rng) :
      randomConfig nOpts max m g = some (c, m1, g1) → Reachable nOpts 0 c
  | next (n : Nat) (t : ℚ) (c : Config) (m : Mem) (g : Rng) (c1 : Config) (m1 : Mem)
      (g1 : Rng) :
      Reachable nOpts n c → randNext nOpts t c m g = some (c1, m1, g1) →
      Reachable nOpts (n + 1) c1
  | combine (n k : Nat) (a b : Config) (m : Mem) (g : Rng) (c : Config) (m1 : Mem)
      (g1 : Rng) :
      Reachable nOpts n a → Reachable nOpts k b → combineWith a b m g = some (c, m1, g1) →
      Reachable nOpts n c

end Primary

namespace Autotune

/-- The local struct `Result` of `run_sa`: the outcome of one proposal. -/
structure SAResult where
  config : Config
  accepted : Bool
  itr : Int
  cost : Int
deriving DecidableEq, Repr

/-- The variables of `run_sa` that an iteration updates. -/
structure SAState where
  config : Config
  cost : Int
  bestConfig : Config
  bestCost : Int
  itrWithoutChange : Int
deriving DecidableEq, Repr

/-- The state of `run_sa` before its loops: `bestConfig := config`, `bestCost := cost`. -/
def saInit (config : Config) (cost : Int) : SAState :=
  { config := config, cost := cost, bestConfig := config, bestCost := cost,
    itrWithoutChange := 0 }

/-- The configuration `c` carries the cost `k` it was evaluated with in a run of `run_sa`
that starts from `config` with `cost` and goes through `batches`: the pair is the initial
one, or the configuration and the cost of one accepted result of a batch. -/
def Evaluated (config : Config) (cost : Int) (batches : List (List SAResult)) (c : Config)
    (k : Int) : Prop :=
  (c = config ∧ k = cost) ∨
    ∃ b ∈ batches, ∃ r ∈ b, r.accepted = true ∧ r.config = c ∧ r.cost = k

end Autotune

namespace Primary
open Autotune

/-- The scan of `sortedResults` in `run_sa` of `src/autotune.go`: every examined result
counts as an iteration without change; the first accepted one becomes the current
configuration, and the best one when it is cheaper; then the scan breaks. -/
def saScan : SAState → List SAResult → SAState
  | st, [] => st
  | st, result :: rest =>
    let itrWithoutChange := int64 (st.itrWithoutChange + 1)
    if result.accepted then
      if result.cost < st.bestCost then
        { config := result.config, cost := result.cost, bestConfig := result.config,
          bestCost := result.cost, itrWithoutChange := 0 }
      else
        { config := result.config, cost := result.cost, bestConfig := st.bestConfig,
          bestCost := st.bestCost, itrWithoutChange := itrWithoutChange }
    else
      saScan { st with itrWithoutChange := itrWithoutChange } rest

/-- A sequence of iterations of `run_sa`, each with the results of its proposals. -/
def saIterate (st : SAState) (batches : List (List SAResult)) : SAState :=
  batches.foldl saScan st

end Primary

namespace Secondary
open Autotune

/-- The scan of `sortedResults` in `run_sa` of `src/src/autotune.go`. An accepted result
resets the counter; when it is cheaper than the best and the replay server is in use, it is
run once more without the server (`checkpoint` is the error of that run), and an error
rolls the current configuration back to the best one. -/
def saScan (usingServer : Bool) (checkpoint : Config → Option String) :
    SAState → List SAResult → SAState
  | st, [] => st
  | st, result :: rest =>
    let itrWithoutChange := int64 (st.itrWithoutChange + 1)
    if result.accepted then
      if result.cost < st.bestCost then
        let err := if usingServer then checkpoint result.config else none
        if err ≠ none then
          { config := st.bestConfig, cost := st.bestCost, bestConfig := st.bestConfig,
            bestCost := st.bestCost, itrWithoutChange := 0 }
        else
          { config := result.config, cost := result.cost, bestConfig := result.config,
            bestCost := result.cost, itrWithoutChange := 0 }
      else
        { config := result.config, cost := result.cost, bestConfig := st.bestConfig,
          bestCost := st.bestCost, itrWithoutChange := 0 }
    else
      saScan usingServer checkpoint { st with itrWithoutChange := itrWithoutChange } rest

/-- A sequence of iterations of `run_sa`, each with the results of its proposals. -/
def saIterate (usingServer : Bool) (checkpoint : Config → Option String) (st : SAState)
    (batches : List (List SAResult)) : SAState :=
  batches.foldl (saScan usingServer checkpoint) st

end Secondary

namespace Autotune

/-- A `float64`: a finite value (a rational; the two zeros are not told apart, a zero
stands for `+0`), an infinity, or NaN. -/
inductive F64 where
  | fin (q : ℚ)
  | inf (negative : Bool)
  | nan
deriving DecidableEq

/-- The `float64` nearest to a rational; beyond the largest finite value it is an
infinity. -/
def F64.ofRat (q : ℚ) : F64 :=
  if (2 : ℚ) ^ 1024 ≤ round64 q then F64.inf false
  else if round64 q ≤ -(2 : ℚ) ^ 1024 then F64.inf true
  else F64.fin (round64 q)

/-- The conversion `float64(x)` of an integer. -/
def F64.ofInt (x : Int) : F64 := F64.ofRat x

/-- Division of `float64` values. -/
def F64.div : F64 → F64 → F64
  | F64.nan, _ => F64.nan
  | _, F64.nan => F64.nan
  | F64.inf _, F64.inf _ => F64.nan
  | F64.inf s, F64.fin b => F64.inf (if b < 0 then !s else s)
  | F64.fin _, F64.inf _ => F64.fin 0
  | F64.fin a, F64.fin b =>
    if b = 0 then
      if a = 0 then F64.nan else F64.inf (decide (a < 0))
    else F64.ofRat (a / b)

/-- Multiplication of `float64` values. -/
def F64.mul : F64 → F64 → F64
  | F64.nan, _ => F64.nan
  | _, F64.nan => F64.nan
  | F64.inf s, F64.inf s1 => F64.inf (s != s1)
  | F64.inf s, F64.fin b => if b = 0 then F64.nan else F64.inf (if b < 0 then !s else s)
  | F64.fin a, F64.inf s => if a = 0 then F64.nan else F64.inf (if a < 0 then !s else s)
  | F64.fin a, F64.fin b => F64.ofRat (a * b)

/-- The comparison `x > y` of `float64` values; false when either is NaN. -/
def F64.gt : F64 → F64 → Bool
  | F64.nan, _ => false
  | _, F64.nan => false
  | F64.inf s, F64.inf s1 => !s && s1
  | F64.inf s, F64.fin _ => !s
  | F64.fin _, F64.inf s => s
  | F64.fin a, F64.fin b => decide (b < a)

/-- The library function `math.Exp`, given on finite arguments by `exp`; its special cases
are `Exp(+Inf) = +Inf`, `Exp(-Inf) = 0`, `Exp(NaN) = NaN`. -/
def mathExp (exp : ℚ → F64) : F64 → F64
  | F64.nan => F64.nan
  | F64.inf s => if s then F64.fin 0 else F64.inf false
  | F64.fin q => exp q

end Autotune

namespace Primary
open Autotune

/-- The function `getAcceptanceProb` of `src/autotune.go`; `exp` is `math.Exp` on finite
arguments. -/
def getAcceptanceProb (exp : ℚ → F64) (oldCost newCost : Int) (t : F64) : F64 :=
  if newCost < oldCost then F64.fin 1
  else
    let diff := ((F64.ofInt (int64 (oldCost - newCost))).div (F64.ofInt oldCost)).mul
      (F64.fin 200)
    mathExp exp (diff.div t)

end Primary

namespace Secondary
open Autotune

/-- The function `getAcceptanceProb` of `src/src/autotune.go`; `exp` is `math.Exp` on
finite arguments. -/
def getAcceptanceProb (exp : ℚ → F64) (oldCost newCost : Int) (t : F64) : F64 :=
  if newCost = maxElapsed then F64.fin 0
  else if newCost < oldCost then F64.fin 1
  else
    let diff : F64 := F64.fin (-1)
    mathExp exp (diff.div t)

/-- One request of `runInvo` to a replay worker: the connection fails, the read fails, or
a response `success, elapsed, msg` arrives. -/
inductive Reply where
  | dialError (err : String)
  | readError (err : String)
  | response (success : Int) (elapsed : ℚ) (msg : String)

/-- The conversion `int(x)` of a finite `float64`: truncation toward zero. -/
def truncToInt (x : ℚ) : Int := int64 (if 0 ≤ x then ⌊x⌋ else ⌈x⌉)

/-- The request loop of `runInvo`: `k` requests remain, the next is request `i`; `stat`
holds the samples so far. An error ends the loop. -/
def runInvoLoop (reply : Nat → Reply) : Nat → Nat → List Int → Except String (List Int)
  | 0, _, stat => Except.ok stat
  | k + 1, i, stat =>
    match reply i with
    | Reply.dialError err => Except.error err
    | Reply.readError err => Except.error err
    | Reply.response success elapsed msg =>
      if success = 1 then runInvoLoop reply k (i + 1) (stat.set i (truncToInt elapsed))
      else Except.error msg

/-- The loop `for _, e := range xs: sum += e` over `int`. -/
def sumInts (xs : List Int) : Int := xs.foldl (fun sum e => int64 (sum + e)) 0

/-- The function `runInvo` of `src/src/autotune.go`; `reply i` is what request `i` to the
worker meets. The result is the pair `elapsed, err`. -/
def runInvo (reply : Nat → Reply) : Int × Option String :=
  let n := 6
  match runInvoLoop reply n 0 (List.replicate n 0) with
  | Except.error err => (0, some err)
  | Except.ok stat =>
    let sorted := stat.insertionSort (fun a b => a ≤ b)
    let sum := sumInts (sorted.drop 1)
    (Int.tdiv sum ((n : Int) - 2), none)

end Secondary

namespace Primary
open Autotune

/-- The call `sort.Sort(byTime(results))`: ascending by elapsed time. Results of equal
elapsed time are kept in their order; Go's sort may order them otherwise. -/
def sortByTime (results : List Result) : List Result :=
  results.insertionSort (fun a b => a.elapsed ≤ b.elapsed)

/-- The function `avg` (the same text in `src/autotune.go` and `src/src/autotune.go`):
sort, keep `results[1:len(results)]`, add up, divide by the number kept. The slice
expression panics on an empty list, the division when one result was passed. -/
def avg (results : List Result) : Option Int :=
  if results.length < 1 then none
  else
    let kept := (sortByTime results).drop 1
    let total := kept.foldl (fun total r => int64 (total + r.elapsed)) 0
    if kept.length = 0 then none else some (Int.tdiv total kept.length)

end Primary

namespace Secondary
open Autotune

/-- The conversion `time.Duration(x)` of a `float64`: truncation toward zero. For an
infinity or NaN the Go specification leaves the result to the implementation; the value
that amd64 yields is taken. -/
def durationOfF64 : F64 → Int
  | F64.fin q => truncToInt q
  | _ => -(2 : Int) ^ 63

/-- The loop of `runAllInvos`: worker `i` is next, `elapsed` is the sum so far.
`reply i k` is what request `k` to worker `i` meets. The weight is read before the error
is looked at, so a missing weight panics either way. -/
def runAllInvosLoop (reply : Nat → Nat → Reply) (replayWeights : List F64) :
    List String → Nat → Int → Option (Int × Option String)
  | [], _, elapsed => some (elapsed, none)
  | _ :: workers, i, elapsed =>
    match replayWeights[i]? with
    | none => none
    | some w =>
      match (runInvo (reply i)).2 with
      | some err => some (elapsed, some err)
      | none =>
        runAllInvosLoop reply replayWeights workers (i + 1)
          (int64 (elapsed + durationOfF64 ((F64.ofInt (runInvo (reply i)).1).mul w)))

/-- The function `runAllInvos` of `src/src/autotune.go`; `replayWeights` is the global of
that name. The result is the pair `elapsed, err`. -/
def runAllInvos (reply : Nat → Nat → Reply) (replayWeights : List F64)
    (replayWorkers : List String) : Option (Int × Option String) :=
  runAllInvosLoop reply replayWeights replayWorkers 0 0

end Secondary

namespace Autotune

/-- The bytes of a string of ASCII characters. -/
def bytes (s : String) : List Nat := s.toList.map Char.toNat

/-- The test `unicode.IsSpace(rune(c))` on a byte `c`: the Latin-1 white space. -/
def unicodeIsSpace (c : Nat) : Bool :=
  c = 9 || c = 10 || c = 11 || c = 12 || c = 13 || c = 32 || c = 0x85 || c = 0xA0

/-- Where `str2Command` stands when it looks at the next byte: at the head of the outer
loop (`normal`); at the test of the inner loop for a segment opened by `quote`, with the
bytes `quoted` gathered so far; between a backslash of such a segment and the byte it
escapes; or right behind a closing quote, where the two increments `i++` pass over one
byte unseen (`skip`). -/
inductive LexMode where
  | normal : LexMode
  | quoted (quote : Nat) (quoted : List Nat) : LexMode
  | escaped (quote : Nat) (quoted : List Nat) : LexMode
  | skip : LexMode
  deriving DecidableEq, Repr

/-- The variables of `str2Command` at position `i`: `args`, `intok`, and `tok` for the
bytes `s[begin:i]`. While no token is open `begin` is dead (it is assigned before it is
read again) and `tok` is kept empty. -/
structure LexState where
  args : List (List Nat)
  intok : Bool
  tok : List Nat
  mode : LexMode
  deriving DecidableEq, Repr

/-- The bytes `s[begin:i+1]` after the byte `c` at position `i` has been passed. -/
def LexState.grow (st : LexState) (c : Nat) : List Nat :=
  if st.intok then st.tok ++ [c] else []

/-- One byte of `str2Command`. -/
def lexStep (st : LexState) (c : Nat) : LexState :=
  match st.mode with
  | LexMode.normal =>
    if unicodeIsSpace c then
      if st.intok then ⟨st.args ++ [st.tok], false, [], LexMode.normal⟩
      else ⟨st.args, false, [], LexMode.normal⟩
    else if c = 34 ∨ c = 39 then ⟨st.args, st.intok, st.grow c, LexMode.quoted c []⟩
    else if st.intok then ⟨st.args, true, st.tok ++ [c], LexMode.normal⟩
    else ⟨st.args, true, [c], LexMode.normal⟩
  | LexMode.quoted quote quoted =>
    if c = quote then ⟨st.args ++ [quoted], st.intok, st.grow c, LexMode.skip⟩
    else if c = 92 then ⟨st.args, st.intok, st.grow c, LexMode.escaped quote quoted⟩
    else ⟨st.args, st.intok, st.grow c, LexMode.quoted quote (quoted ++ [c])⟩
  | LexMode.escaped quote quoted =>
    ⟨st.args, st.intok, st.grow c, LexMode.quoted quote (quoted ++ [c])⟩
  | LexMode.skip => ⟨st.args, st.intok, st.grow c, LexMode.normal⟩

/-- The state of `str2Command` before the first byte. -/
def lexInit : LexState := ⟨[], false, [], LexMode.normal⟩

/-- The scan of `str2Command` over the bytes `s`, from the state `st`. -/
def lexRun (st : LexState) (s : List Nat) : LexState := s.foldl lexStep st

/-- What the end of the input makes of the state: inside a quoted segment `s[i]` is out
of range and the function panics, otherwise `args` is what was gathered. -/
def lexArgs (st : LexState) : Option (List (List Nat)) :=
  match st.mode with
  | LexMode.quoted _ _ => none
  | LexMode.escaped _ _ => none
  | _ => some st.args

/-- The function `str2Command`, the same text in both files, on the bytes `s` of its
argument. The result is the field `Args` of the command that `exec.Command(args[0],
args[1:]...)` builds, which is `args`; `none` is a panic (index out of range, in the
quoted segment or at `args[0]`). -/
def str2Command (s : List Nat) : Option (List (List Nat)) :=
  match lexArgs (lexRun lexInit s) with
  | none => none
  | some [] => none
  | some (exe :: rest) => some (exe :: rest)

/-- A byte of a plain word: no white space, no quote, no backslash. -/
def isWordByte (c : Nat) : Bool :=
  !unicodeIsSpace c && c != 34 && c != 39 && c != 92

/-- The text of words that are each followed by a separator. -/
def wordsText : List (List Nat × List Nat) → List Nat
  | [] => []
  | p :: ps => p.1 ++ p.2 ++ wordsText ps

/-- The bytes of a quoted segment with each backslash dropped and the byte after it
kept. -/
def unescape : List Nat → List Nat
  | [] => []
  | [c] => [c]
  | c :: d :: rest => if c = 92 then d :: unescape rest else c :: unescape (d :: rest)

/-- The bytes can stand between two quotes `quote`: outside an escape there is no
`quote`, and no backslash is the last byte. -/
def wellEscaped (quote : Nat) : List Nat → Bool
  | [] => true
  | [c] => c != quote && c != 92
  | c :: d :: rest =>
    if c = 92 then wellEscaped quote rest else c != quote && wellEscaped quote (d :: rest)

end Autotune

namespace Primary
open Autotune

/-- Per-position replace, in the words of the specification: going through the passes in
order, each position takes a uniform draw `u`; when the strength `s` exceeds `u` the pass
is replaced by a fresh uniform draw from `[0, P)`, otherwise it is kept. The second
component is the generator after the last draw. -/
def perPositionReplace (P : Int) (s : ℚ) : List Int → Rng → List Int × Rng
  | [], g => ([], g)
  | x :: xs, g =>
    if s > g.draw then
      (⌊g.advance.draw * P⌋ :: (perPositionReplace P s xs g.advance.advance).1,
        (perPositionReplace P s xs g.advance.advance).2)
    else
      (x :: (perPositionReplace P s xs g.advance).1, (perPositionReplace P s xs g.advance).2)

end Primary

namespace Autotune

/-- Every pass index of the list is an index of a catalog of `P` passes. -/
def InCatalog (P : Int) (l : List Int) : Prop := ∀ p ∈ l, 0 ≤ p ∧ p < P

end Autotune

namespace Primary
open Autotune

/-- The constant `GA_MAXOPTS` of `src/autotune.go`. -/
def GA_MAXOPTS : Int := 120

/-- The constant `POPULATION_SIZE` of `src/autotune.go`. -/
def POPULATION_SIZE : Nat := 100

/-- The constant `MAX_GENERATION` of `src/autotune.go`. -/
def MAX_GENERATION : Nat := 100

/-- The variable `eliteIdx` of `run_ga`, `int(float32(len(configs)) * ELITISM)`: a pool
always holds `POPULATION_SIZE = 100` configurations, and `float32(100) * float32(0.1)`
rounds to 10. -/
def eliteIdx : Nat := 10

/-- The first loop of `run_ga`: `n` calls of `randomConfig(GA_MAXOPTS)` fill the pool. -/
def initialPopulation (nOpts : Int) : Nat → Mem → Rng → Option (List OptConfig × Mem × Rng)
  | 0, m, g => some ([], m, g)
  | n + 1, m, g =>
    match randomConfig nOpts GA_MAXOPTS m g with
    | none => none
    | some (c, m1, g1) =>
      match initialPopulation nOpts n m1 g1 with
      | none => none
      | some (cs, m2, g2) => some (OptConfig.config c :: cs, m2, g2)

/-- The results of `ConfigPool.runAll` in the order of the pool: job `i` is `checkRun` of
configuration `i`, and `run i` stands for the evaluation that this job meets. The order
in which the jobs finish is left to `arrange` in `gaLoop`. -/
def runAllFrom (run : Nat → OptConfig → Int → Int × Option String) (timeout : Int) :
    Nat → List OptConfig → List Result
  | _, [] => []
  | i, c :: cs => ⟨c, (checkRun (run i) c timeout []).1⟩ :: runAllFrom run timeout (i + 1) cs

/-- The method `ConfigPool.runAll`, up to the order of the results. -/
def runAll (run : Nat → OptConfig → Int → Int × Option String) (configs : List OptConfig)
    (timeout : Int) : List Result :=
  runAllFrom run timeout 0 configs

/-- The variable `timeout` of `run_ga`: four times the best time, or `-1` (no limit) when
every run of the generation before failed. -/
def gaTimeout (bestTime : Int) : Int :=
  if bestTime ≠ maxElapsed then int64 (bestTime * 4) else -1

/-- The pool `next` of `run_ga`: the configurations of the first `eliteIdx` results, then
one child per remaining slot. `breed i results` stands for the child of slot `i`, which
the source builds by `pickOne`, `combineWith`, `randNext` and the loop on `cache.find`
from the results, the generator, the heap and the cache (which `cache.add(results)` has
just extended); it is `none` when that panics or does not return. -/
def nextPopulation (breed : Nat → List Result → Option Config) (results : List Result) :
    Option (List OptConfig) :=
  (forEach (fun i => (results[i]?).map fun r => r.config) (List.range eliteIdx)).bind
    fun elites =>
  (forEach (fun i => (breed i results).map OptConfig.config)
      (List.range' eliteIdx (POPULATION_SIZE - eliteIdx))).map
    fun children => elites ++ children

/-- The generation loop of `run_ga`: `n` generations remain, `i` is the loop counter.
`run i j` is the evaluation that job `j` of generation `i` meets; `arrange i` puts the
results of generation `i` in the order they have after `runAll` (the order in which the
jobs finish) and `sort.Sort(byTime(results))` (which is not stable); `breed i` builds the
children of generation `i`. The type assertion `results[0].config.(Config)` panics on
`O3`. Next to `best` the result holds `bestTime` and the sorted results of every
generation, which the source only logs. -/
def gaLoop (run : Nat → Nat → OptConfig → Int → Int × Option String)
    (arrange : Nat → List Result → List Result)
    (breed : Nat → Nat → List Result → Option Config) :
    Nat → Nat → List OptConfig → Int → Config → Option (Config × Int × List (List Result))
  | 0, _, _, bestTime, best => some (best, bestTime, [])
  | n + 1, i, configs, bestTime, _ =>
    match arrange i (runAll (run i) configs (gaTimeout bestTime)) with
    | [] => none
    | r :: rest =>
      match r.config with
      | OptConfig.o3 => none
      | OptConfig.config c =>
        match nextPopulation (breed i) (r :: rest) with
        | none => none
        | some next =>
          (gaLoop run arrange breed n (i + 1) next r.elapsed c).map
            fun out => (out.1, out.2.1, (r :: rest) :: out.2.2)

/-- The function `run_ga` of `src/autotune.go`; `nOpts` is the global `numOpts`. The
result `best` starts as the zero `Config` and `bestTime` as `-1`. -/
def run_ga (run : Nat → Nat → OptConfig → Int → Int × Option String)
    (arrange : Nat → List Result → List Result)
    (breed : Nat → Nat → List Result → Option Config)
    (nOpts : Int) (m : Mem) (g : Rng) : Option (Config × Int × List (List Result)) :=
  match initialPopulation nOpts POPULATION_SIZE m g with
  | none => none
  | some (configs, _, _) =>
    gaLoop run arrange breed MAX_GENERATION 0 configs (-1) ⟨⟨0, 0, 0, 0⟩, 0⟩

end Primary

/-! # Theorems -/

namespace Autotune

/-- A loop over a list succeeds with the mapped list when every element succeeds. -/
theorem forEach_eq_some_map {α β : Type} (f : α → Option β) (g : α → β) (l : List α)
    (h : ∀ x ∈ l, f x = some (g x)) : forEach f l = some (l.map g) := by
  induction l with
  | nil => rfl
  | cons a l ih =>
    have ha : f a = some (g a) := h a (List.mem_cons_self a l)
    have hl : forEach f l = some (l.map g) := ih fun x hx => h x (List.mem_cons_of_mem a hx)
    simp [forEach, ha, hl]

/-- A valid slice denotes as many elements as its length. -/
theorem Slice.length_toList {s : Slice} {m : Mem} (h : s.Valid m) :
    (s.toList m).length = s.len := by
  obtain ⟨h1, h2⟩ := h
  simp only [Slice.toList, List.length_take, List.length_drop]
  omega

/-- An in-range index reads its catalog name. -/
theorem optAt_of_lt (opts : List String) (p : Int) (h0 : 0 ≤ p) (h1 : p < opts.length) :
    optAt opts p = some (opts.getD p.toNat "") := by
  have hlt : p.toNat < opts.length := by omega
  simp [optAt, h0, List.getD_eq_getElem?_getD, List.getElem?_eq_getElem hlt]

end Autotune

open Autotune

/-- C1: for a configuration whose pass indices are all valid catalog indices, `asArgs` (in
both versions of the tuner) returns `len(passes) + 2` arguments: `-mem2reg`, then
`-inline-threshold=` followed by the decimal threshold, then at position `i + 2` a dash
followed by the catalog name of `passes[i]`. -/
theorem asArgs_shape (opts : List String) (m : Mem) (c : Config) (hv : c.passes.Valid m)
    (hidx : ∀ p ∈ c.passes.toList m, 0 ≤ p ∧ p < (opts.length : Int)) :
    ∃ args, Primary.asArgs opts m c = some args ∧ Secondary.asArgs opts m c = some args ∧
      args.length = c.passes.len + 2 ∧
      args[0]? = some "-mem2reg" ∧
      args[1]? = some ("-inline-threshold=" ++ itoa c.inlineThresh) ∧
      ∀ i p, (c.passes.toList m)[i]? = some p →
        ∃ name, opts[p.toNat]? = some name ∧ args[i + 2]? = some ("-" ++ name) := by
  have hP : forEach (Primary.passArg opts) (c.passes.toList m)
      = some ((c.passes.toList m).map fun p => "-" ++ opts.getD p.toNat "") :=
    forEach_eq_some_map _ _ _ fun p hp => by
      simp [Primary.passArg, optAt_of_lt opts p (hidx p hp).1 (hidx p hp).2]
  have hS : forEach (Secondary.passArg opts) (c.passes.toList m)
      = some ((c.passes.toList m).map fun p => "-" ++ opts.getD p.toNat "") :=
    forEach_eq_some_map _ _ _ fun p hp => by
      have hne : p ≠ numOpts opts := by
        have := (hidx p hp).2
        simp only [numOpts]; omega
      simp [Secondary.passArg, hne, optAt_of_lt opts p (hidx p hp).1 (hidx p hp).2]
  refine ⟨"-mem2reg" :: ("-inline-threshold=" ++ itoa c.inlineThresh) ::
      (c.passes.toList m).map (fun p => "-" ++ opts.getD p.toNat ""),
    by simp only [Primary.asArgs, hP, Option.map_some'],
    by simp only [Secondary.asArgs, hS, Option.map_some'], ?_, ?_, ?_, ?_⟩
  · simp [Slice.length_toList hv]
  · simp
  · simp
  · intro i p hi
    have hp : p ∈ c.passes.toList m := List.mem_iff_getElem?.mpr ⟨i, hi⟩
    have hlt : p.toNat < opts.length := by
      have := hidx p hp
      omega
    refine ⟨opts.getD p.toNat "", ?_, ?_⟩
    · simp [List.getD_eq_getElem?_getD, List.getElem?_eq_getElem hlt]
    · simp [List.getElem?_map, hi]

/-- C1, at a concrete configuration: passes `[1, 0, 1]` over the catalog `gvn, licm`. -/
theorem asArgs_shape_witness :
    ∃ args, Primary.asArgs ["gvn", "licm"] [[1, 0, 1]] ⟨⟨0, 0, 3, 3⟩, 325⟩ = some args ∧
      Secondary.asArgs ["gvn", "licm"] [[1, 0, 1]] ⟨⟨0, 0, 3, 3⟩, 325⟩ = some args ∧
      args.length = 3 + 2 ∧
      args[0]? = some "-mem2reg" ∧
      args[1]? = some ("-inline-threshold=" ++ itoa 325) ∧
      ∀ i p, (Slice.toList ⟨0, 0, 3, 3⟩ [[1, 0, 1]])[i]? = some p →
        ∃ name, ["gvn", "licm"][p.toNat]? = some name ∧ args[i + 2]? = some ("-" ++ name) :=
  asArgs_shape ["gvn", "licm"] [[1, 0, 1]] ⟨⟨0, 0, 3, 3⟩, 325⟩ (by decide) (by decide)

namespace Autotune

theorem ofDigits_append_singleton (cs : List Char) (c : Char) :
    ofDigits (cs ++ [c]) = ofDigits cs * 10 + (c.toNat - 48) := by
  simp [ofDigits, List.foldl_append]

theorem digitChar_val : ∀ d < 10, (Nat.digitChar d).toNat - 48 = d := by decide

theorem digitChar_ne_minus : ∀ d < 10, Nat.digitChar d ≠ '-' := by decide

/-- The digits are produced in front of the accumulator. -/
theorem toDigitsCore_append (fuel : Nat) : ∀ (n : Nat) (ds : List Char),
    Nat.toDigitsCore 10 fuel n ds = Nat.toDigitsCore 10 fuel n [] ++ ds := by
  induction fuel with
  | zero => intro n ds; simp [Nat.toDigitsCore]
  | succ f ih =>
    intro n ds
    simp only [Nat.toDigitsCore]
    split
    · simp
    · rw [ih (n / 10) (_ :: ds), ih (n / 10) [_]]
      simp

/-- Reading back the digits of a number gives the number. -/
theorem ofDigits_toDigitsCore (fuel : Nat) : ∀ n : Nat, n < fuel →
    ofDigits (Nat.toDigitsCore 10 fuel n []) = n := by
  induction fuel with
  | zero => intro n h; omega
  | succ f ih =>
    intro n h
    simp only [Nat.toDigitsCore]
    split
    · rename_i h0
      have hlt : n < 10 := by omega
      have hmod : n % 10 = n := Nat.mod_eq_of_lt hlt
      simp [ofDigits, hmod, digitChar_val n hlt]
    · rename_i h0
      rw [toDigitsCore_append, ofDigits_append_singleton,
        ih (n / 10) (by omega), digitChar_val (n % 10) (Nat.mod_lt _ (by decide))]
      omega

/-- No minus sign occurs among the digits of a number. -/
theorem minus_not_mem_toDigitsCore (fuel : Nat) : ∀ (n : Nat) (ds : List Char),
    '-' ∈ Nat.toDigitsCore 10 fuel n ds → '-' ∈ ds := by
  induction fuel with
  | zero => intro n ds h; simpa [Nat.toDigitsCore] using h
  | succ f ih =>
    intro n ds h
    simp only [Nat.toDigitsCore] at h
    have hd : Nat.digitChar (n % 10) ≠ '-' := digitChar_ne_minus _ (Nat.mod_lt _ (by decide))
    split at h
    · rcases List.mem_cons.mp h with h | h
      · exact absurd h.symm hd
      · exact h
    · rcases List.mem_cons.mp (ih _ _ h) with h | h
      · exact absurd h.symm hd
      · exact h

theorem ofDigits_repr (n : Nat) : ofDigits (Nat.repr n).data = n := by
  simp only [Nat.repr, Nat.toDigits, List.asString]
  exact ofDigits_toDigitsCore (n + 1) n (Nat.lt_succ_self n)

theorem repr_injective {a b : Nat} (h : Nat.repr a = Nat.repr b) : a = b := by
  rw [← ofDigits_repr a, ← ofDigits_repr b, h]

theorem minus_not_mem_repr (n : Nat) : '-' ∉ (Nat.repr n).data := by
  intro h
  simp only [Nat.repr, Nat.toDigits, List.asString] at h
  simpa using minus_not_mem_toDigitsCore _ _ _ h

theorem string_append_left_cancel {a b c : String} (h : a ++ b = a ++ c) : b = c := by
  have hd := congrArg String.data h
  simp only [String.data_append] at hd
  exact String.ext (List.append_cancel_left hd)

/-- The decimal rendering determines the integer. -/
theorem itoa_injective {a b : Int} (h : itoa a = itoa b) : a = b := by
  unfold itoa at h
  by_cases ha : a < 0 <;> by_cases hb : b < 0
  · simp only [ha, hb, if_true] at h
    have := repr_injective (string_append_left_cancel h)
    omega
  · simp only [ha, hb, if_true, if_false] at h
    have hm : '-' ∈ (Nat.repr b.toNat).data := by
      rw [← h, String.data_append]
      exact List.mem_append_left _ (by decide)
    exact absurd hm (minus_not_mem_repr _)
  · simp only [ha, hb, if_true, if_false] at h
    have hm : '-' ∈ (Nat.repr a.toNat).data := by
      rw [h, String.data_append]
      exact List.mem_append_left _ (by decide)
    exact absurd hm (minus_not_mem_repr _)
  · simp only [ha, hb, if_false] at h
    have := repr_injective h
    omega

/-- A loop whose body is injective on its successes is injective on its successes. -/
theorem forEach_injective {α β : Type} (f : α → Option β)
    (hf : ∀ x y b, f x = some b → f y = some b → x = y) :
    ∀ (l₁ l₂ : List α) (r : List β), forEach f l₁ = some r → forEach f l₂ = some r →
      l₁ = l₂ := by
  intro l₁
  induction l₁ with
  | nil =>
    intro l₂ r h₁ h₂
    cases l₂ with
    | nil => rfl
    | cons y ys =>
      simp only [forEach, Option.some.injEq] at h₁
      subst h₁
      simp only [forEach] at h₂
      split at h₂
      · simp at h₂
      · simp at h₂
  | cons x xs ih =>
    intro l₂ r h₁ h₂
    simp only [forEach] at h₁
    split at h₁
    · simp at h₁
    · rename_i b hb
      obtain ⟨r₁, hr₁, rfl⟩ := Option.map_eq_some'.mp h₁
      cases l₂ with
      | nil => simp [forEach] at h₂
      | cons y ys =>
        simp only [forEach] at h₂
        split at h₂
        · simp at h₂
        · rename_i b2 hb2
          obtain ⟨r₂, hr₂, he⟩ := Option.map_eq_some'.mp h₂
          simp only [List.cons.injEq] at he
          obtain ⟨rfl, rfl⟩ := he
          rw [hf x y _ hb hb2, ih ys _ hr₁ hr₂]

/-- Distinct in-range indices of a catalog without repeated names read distinct names. -/
theorem optAt_injective (opts : List String) (hnd : opts.Nodup) (p q : Int) (name : String)
    (hp : optAt opts p = some name) (hq : optAt opts q = some name) : p = q := by
  unfold optAt at hp hq
  split at hp
  · split at hq
    · have hlt : p.toNat < opts.length := (List.getElem?_eq_some.mp hp).1
      have := List.getElem?_inj hlt hnd (hp.trans hq.symm)
      omega
    · simp at hq
  · simp at hp

end Autotune

/-- C2, as stated, fails: over a catalog that lists the same name twice, two configurations
with different passes render to the same arguments, in both versions of the tuner. -/
theorem asArgs_not_injective :
    Primary.asArgs ["gvn", "gvn"] [[0], [1]] ⟨⟨0, 0, 1, 1⟩, 325⟩
        = some ["-mem2reg", "-inline-threshold=325", "-gvn"] ∧
      Primary.asArgs ["gvn", "gvn"] [[0], [1]] ⟨⟨1, 0, 1, 1⟩, 325⟩
        = some ["-mem2reg", "-inline-threshold=325", "-gvn"] ∧
      Secondary.asArgs ["gvn", "gvn"] [[0], [1]] ⟨⟨0, 0, 1, 1⟩, 325⟩
        = some ["-mem2reg", "-inline-threshold=325", "-gvn"] ∧
      Secondary.asArgs ["gvn", "gvn"] [[0], [1]] ⟨⟨1, 0, 1, 1⟩, 325⟩
        = some ["-mem2reg", "-inline-threshold=325", "-gvn"] ∧
      Slice.toList ⟨0, 0, 1, 1⟩ [[0], [1]] ≠ Slice.toList ⟨1, 0, 1, 1⟩ [[0], [1]] := by
  decide

/-- C2, amended: over a catalog whose names are pairwise distinct (and, for the version
with the `-verify` index, do not include `verify`), two configurations that render to the
same arguments have the same pass sequence and the same inliner threshold. -/
theorem asArgs_injective (opts : List String) (hnd : opts.Nodup) (m : Mem) (c₁ c₂ : Config)
    (args : List String) :
    (Primary.asArgs opts m c₁ = some args → Primary.asArgs opts m c₂ = some args →
      c₁.passes.toList m = c₂.passes.toList m ∧ c₁.inlineThresh = c₂.inlineThresh) ∧
    ("verify" ∉ opts →
      Secondary.asArgs opts m c₁ = some args → Secondary.asArgs opts m c₂ = some args →
      c₁.passes.toList m = c₂.passes.toList m ∧ c₁.inlineThresh = c₂.inlineThresh) := by
  have hPinj : ∀ x y b, Primary.passArg opts x = some b → Primary.passArg opts y = some b →
      x = y := by
    intro x y b hx hy
    obtain ⟨n₁, h₁, rfl⟩ := Option.map_eq_some'.mp hx
    obtain ⟨n₂, h₂, he⟩ := Option.map_eq_some'.mp hy
    have hn : n₂ = n₁ := string_append_left_cancel he
    exact optAt_injective opts hnd x y n₁ h₁ (hn ▸ h₂)
  have hSinj : "verify" ∉ opts → ∀ x y b, Secondary.passArg opts x = some b →
      Secondary.passArg opts y = some b → x = y := by
    intro hver x y b hx hy
    have key : ∀ z n, optAt opts z = some n → n ≠ "verify" := by
      intro z n hz hn
      unfold optAt at hz
      split at hz
      · exact hver (hn ▸ List.mem_iff_getElem?.mpr ⟨_, hz⟩)
      · simp at hz
    unfold Secondary.passArg at hx hy
    split at hx <;> split at hy
    · omega
    · obtain ⟨n₂, h₂, he⟩ := Option.map_eq_some'.mp hy
      simp only [Option.some.injEq] at hx
      rw [← hx] at he
      exact absurd (string_append_left_cancel (a := "-") (c := "verify") he) (key y n₂ h₂)
    · obtain ⟨n₁, h₁, he⟩ := Option.map_eq_some'.mp hx
      simp only [Option.some.injEq] at hy
      rw [← hy] at he
      exact absurd (string_append_left_cancel (a := "-") (c := "verify") he) (key x n₁ h₁)
    · obtain ⟨n₁, h₁, rfl⟩ := Option.map_eq_some'.mp hx
      obtain ⟨n₂, h₂, he⟩ := Option.map_eq_some'.mp hy
      have hn : n₂ = n₁ := string_append_left_cancel he
      exact optAt_injective opts hnd x y n₁ h₁ (hn ▸ h₂)
  have split_args : ∀ (f : Int → Option String)
      (_ : ∀ x y b, f x = some b → f y = some b → x = y),
      (forEach f (c₁.passes.toList m)).map (fun flags =>
          "-mem2reg" :: ("-inline-threshold=" ++ itoa c₁.inlineThresh) :: flags) = some args →
      (forEach f (c₂.passes.toList m)).map (fun flags =>
          "-mem2reg" :: ("-inline-threshold=" ++ itoa c₂.inlineThresh) :: flags) = some args →
      c₁.passes.toList m = c₂.passes.toList m ∧ c₁.inlineThresh = c₂.inlineThresh := by
    intro f hf h₁ h₂
    obtain ⟨r₁, hr₁, rfl⟩ := Option.map_eq_some'.mp h₁
    obtain ⟨r₂, hr₂, he⟩ := Option.map_eq_some'.mp h₂
    simp only [List.cons.injEq, true_and] at he
    obtain ⟨ht, rfl⟩ := he
    exact ⟨forEach_injective f hf _ _ _ hr₁ hr₂,
      (itoa_injective (string_append_left_cancel ht)).symm⟩
  exact ⟨split_args _ hPinj, fun hver => split_args _ (hSinj hver)⟩

/-- C2, amended, at two renderings of the same configuration held in two backing arrays. -/
theorem asArgs_injective_witness :
    ["gvn", "licm"].Nodup ∧ "verify" ∉ ["gvn", "licm"] ∧
    Primary.asArgs ["gvn", "licm"] [[1, 0], [1, 0]] ⟨⟨0, 0, 2, 2⟩, 325⟩
      = some ["-mem2reg", "-inline-threshold=325", "-licm", "-gvn"] ∧
    Primary.asArgs ["gvn", "licm"] [[1, 0], [1, 0]] ⟨⟨1, 0, 2, 2⟩, 325⟩
      = some ["-mem2reg", "-inline-threshold=325", "-licm", "-gvn"] ∧
    Secondary.asArgs ["gvn", "licm"] [[1, 0], [1, 0]] ⟨⟨0, 0, 2, 2⟩, 325⟩
      = some ["-mem2reg", "-inline-threshold=325", "-licm", "-gvn"] ∧
    Secondary.asArgs ["gvn", "licm"] [[1, 0], [1, 0]] ⟨⟨1, 0, 2, 2⟩, 325⟩
      = some ["-mem2reg", "-inline-threshold=325", "-licm", "-gvn"] ∧
    (Slice.toList ⟨0, 0, 2, 2⟩ [[1, 0], [1, 0]] = Slice.toList ⟨1, 0, 2, 2⟩ [[1, 0], [1, 0]] ∧
      (325 : Int) = 325) ∧
    (Slice.toList ⟨0, 0, 2, 2⟩ [[1, 0], [1, 0]] = Slice.toList ⟨1, 0, 2, 2⟩ [[1, 0], [1, 0]] ∧
      (325 : Int) = 325) :=
  ⟨by decide, by decide, by decide, by decide, by decide, by decide,
    (asArgs_injective ["gvn", "licm"] (by decide) [[1, 0], [1, 0]] ⟨⟨0, 0, 2, 2⟩, 325⟩
      ⟨⟨1, 0, 2, 2⟩, 325⟩ ["-mem2reg", "-inline-threshold=325", "-licm", "-gvn"]).1
      (by decide) (by decide),
    (asArgs_injective ["gvn", "licm"] (by decide) [[1, 0], [1, 0]] ⟨⟨0, 0, 2, 2⟩, 325⟩
      ⟨⟨1, 0, 2, 2⟩, 325⟩ ["-mem2reg", "-inline-threshold=325", "-licm", "-gvn"]).2
      (by decide) (by decide) (by decide)⟩

/-- C3, as stated, fails: the key is the concatenation of the arguments without a separator,
so over the catalog `a, b-c, a-b, c` the configuration with passes `a-b, c` is found after
only the one with passes `a, b-c` was added, although their argument lists differ. -/
theorem cache_find_not_argv_equality :
    ∃ cache, Primary.ConfigCache.add ["a", "b-c", "a-b", "c"] [[0, 1], [2, 3]] Primary.ConfigCache.empty
        [⟨.config ⟨⟨0, 0, 2, 2⟩, 325⟩, 7⟩] = some cache ∧
      Primary.ConfigCache.find ["a", "b-c", "a-b", "c"] [[0, 1], [2, 3]] cache ⟨⟨1, 0, 2, 2⟩, 325⟩
        = some true ∧
      Primary.asArgs ["a", "b-c", "a-b", "c"] [[0, 1], [2, 3]] ⟨⟨0, 0, 2, 2⟩, 325⟩
        = some ["-mem2reg", "-inline-threshold=325", "-a", "-b-c"] ∧
      Primary.asArgs ["a", "b-c", "a-b", "c"] [[0, 1], [2, 3]] ⟨⟨1, 0, 2, 2⟩, 325⟩
        = some ["-mem2reg", "-inline-threshold=325", "-a-b", "-c"] ∧
      Primary.asArgs ["a", "b-c", "a-b", "c"] [[0, 1], [2, 3]] ⟨⟨0, 0, 2, 2⟩, 325⟩
        ≠ Primary.asArgs ["a", "b-c", "a-b", "c"] [[0, 1], [2, 3]] ⟨⟨1, 0, 2, 2⟩, 325⟩ :=
  ⟨_, rfl, by decide, by decide, by decide, by decide⟩

namespace Primary
open Autotune

/-- The keys that read `true` after `add` are those that did before and the keys of the
added results. -/
theorem ConfigCache.add_spec (opts : List String) (m : Mem) :
    ∀ (results : List Result) (cache cache1 : ConfigCache),
      ConfigCache.add opts m cache results = some cache1 →
      ∀ k, cache1 k = true ↔
        (cache k = true ∨
          ∃ r ∈ results, ∃ a, r.config.asArgs opts m = some a ∧ stringsJoin a "" = k) := by
  intro results
  induction results with
  | nil =>
    intro cache cache1 h k
    simp only [ConfigCache.add, Option.some.injEq] at h
    subst h
    simp
  | cons r rs ih =>
    intro cache cache1 h k
    simp only [ConfigCache.add] at h
    split at h
    · simp at h
    · rename_i args hargs
      rw [ih _ _ h k]
      constructor
      · rintro (hk | ⟨r1, hr1, a, ha, hj⟩)
        · unfold ConfigCache.setTrue at hk
          split at hk
          · rename_i hkey
            exact Or.inr ⟨r, List.mem_cons_self _ _, args, hargs, hkey.symm⟩
          · exact Or.inl hk
        · exact Or.inr ⟨r1, List.mem_cons_of_mem _ hr1, a, ha, hj⟩
      · rintro (hk | ⟨r1, hr1, a, ha, hj⟩)
        · left
          unfold ConfigCache.setTrue
          split
          · rfl
          · exact hk
        · rcases List.mem_cons.mp hr1 with rfl | hr1
          · left
            rw [hargs] at ha
            simp only [Option.some.injEq] at ha
            subst ha
            simp [ConfigCache.setTrue, hj]
          · exact Or.inr ⟨r1, hr1, a, ha, hj⟩

/-- The keys that read `true` after a sequence of `add` calls. -/
theorem ConfigCache.addAll_spec (opts : List String) :
    ∀ (batches : List (Mem × List Result)) (cache cache1 : ConfigCache),
      ConfigCache.addAll opts cache batches = some cache1 →
      ∀ k, cache1 k = true ↔
        (cache k = true ∨
          ∃ b ∈ batches, ∃ r ∈ b.2, ∃ a,
            r.config.asArgs opts b.1 = some a ∧ stringsJoin a "" = k) := by
  intro batches
  induction batches with
  | nil =>
    intro cache cache1 h k
    simp only [ConfigCache.addAll, Option.some.injEq] at h
    subst h
    simp
  | cons b bs ih =>
    obtain ⟨m, results⟩ := b
    intro cache cache1 h k
    simp only [ConfigCache.addAll] at h
    split at h
    · simp at h
    · rename_i cache2 hadd
      rw [ih _ _ h k, ConfigCache.add_spec opts m results _ _ hadd k]
      constructor
      · rintro ((hk | ⟨r, hr, a, ha, hj⟩) | ⟨b, hb, hrest⟩)
        · exact Or.inl hk
        · exact Or.inr ⟨(m, results), List.mem_cons_self _ _, r, hr, a, ha, hj⟩
        · exact Or.inr ⟨b, List.mem_cons_of_mem _ hb, hrest⟩
      · rintro (hk | ⟨b, hb, r, hr, a, ha, hj⟩)
        · exact Or.inl (Or.inl hk)
        · rcases List.mem_cons.mp hb with rfl | hb
          · exact Or.inl (Or.inr ⟨r, hr, a, ha, hj⟩)
          · exact Or.inr ⟨b, hb, r, hr, a, ha, hj⟩

end Primary

/-- C3, amended: for a cache built from the empty one by `add` calls and a configuration
that renders to `args`, `find` returns true if and only if some added result rendered to
arguments with the same concatenation as `args`; in particular a configuration whose
arguments equal, element by element, those of an added result is found. -/
theorem cache_find_iff_key (opts : List String) (batches : List (Mem × List Primary.Result))
    (cache : Primary.ConfigCache) (m : Mem) (c : Config) (args : List String)
    (hbuilt : Primary.ConfigCache.addAll opts Primary.ConfigCache.empty batches = some cache)
    (hc : Primary.asArgs opts m c = some args) :
    ∃ found, Primary.ConfigCache.find opts m cache c = some found ∧
      (found = true ↔ ∃ b ∈ batches, ∃ r ∈ b.2, ∃ a,
          r.config.asArgs opts b.1 = some a ∧ Primary.stringsJoin a "" = Primary.stringsJoin args "") ∧
      ((∃ b ∈ batches, ∃ r ∈ b.2, r.config.asArgs opts b.1 = some args) → found = true) := by
  have hspec := Primary.ConfigCache.addAll_spec opts batches _ _ hbuilt (Primary.stringsJoin args "")
  simp only [Primary.ConfigCache.empty, Bool.false_eq_true, false_or] at hspec
  refine ⟨cache (Primary.stringsJoin args ""), by simp [Primary.ConfigCache.find, hc], hspec, ?_⟩
  rintro ⟨b, hb, r, hr, ha⟩
  exact hspec.mpr ⟨b, hb, r, hr, args, ha, rfl⟩

/-- C3, amended, at a cache holding one two-pass configuration. -/
theorem cache_find_iff_key_witness :
    ∃ cache, Primary.ConfigCache.addAll ["gvn", "licm"] Primary.ConfigCache.empty
        [([[1, 0]], [⟨.config ⟨⟨0, 0, 2, 2⟩, 325⟩, 7⟩])] = some cache ∧
      Primary.asArgs ["gvn", "licm"] [[1, 0]] ⟨⟨0, 0, 2, 2⟩, 325⟩
        = some ["-mem2reg", "-inline-threshold=325", "-licm", "-gvn"] ∧
      ∃ found, Primary.ConfigCache.find ["gvn", "licm"] [[1, 0]] cache ⟨⟨0, 0, 2, 2⟩, 325⟩
          = some found ∧
        (found = true ↔ ∃ b ∈ [([[1, 0]], [(⟨.config ⟨⟨0, 0, 2, 2⟩, 325⟩, 7⟩ : Primary.Result)])],
          ∃ r ∈ b.2, ∃ a, r.config.asArgs ["gvn", "licm"] b.1 = some a ∧
            Primary.stringsJoin a "" =
              Primary.stringsJoin ["-mem2reg", "-inline-threshold=325", "-licm", "-gvn"] "") ∧
        ((∃ b ∈ [([[1, 0]], [(⟨.config ⟨⟨0, 0, 2, 2⟩, 325⟩, 7⟩ : Primary.Result)])],
          ∃ r ∈ b.2, r.config.asArgs ["gvn", "licm"] b.1
            = some ["-mem2reg", "-inline-threshold=325", "-licm", "-gvn"]) → found = true) :=
  ⟨_, rfl, by decide,
    cache_find_iff_key ["gvn", "licm"] [([[1, 0]], [⟨.config ⟨⟨0, 0, 2, 2⟩, 325⟩, 7⟩])] _
      [[1, 0]] ⟨⟨0, 0, 2, 2⟩, 325⟩ _ rfl (by decide)⟩

/-- C4: `checkRun` returns `maxElapsed` when `run` reports an error, whatever elapsed time
came with it, and the elapsed time of `run` unchanged otherwise; and `maxElapsed` is the
greatest duration: every duration is at most `maxElapsed`, and below it unless equal. -/
theorem checkRun_maxElapsed {κ : Type} (run : κ → Int → Int × Option String) (config : κ)
    (timeout : Int) (errfile : List String) (d : Int) (hd : Autotune.IsDuration d) :
    ((run config timeout).2 ≠ none →
        (Autotune.checkRun run config timeout errfile).1 = Autotune.maxElapsed) ∧
      ((run config timeout).2 = none →
        (Autotune.checkRun run config timeout errfile).1 = (run config timeout).1) ∧
      d ≤ Autotune.maxElapsed ∧ (d ≠ Autotune.maxElapsed → d < Autotune.maxElapsed) := by
  obtain ⟨_, hd2⟩ := hd
  refine ⟨?_, ?_, ?_, ?_⟩
  · intro h
    unfold Autotune.checkRun
    split
    · rfl
    · rename_i heq
      rw [heq] at h
      exact absurd rfl h
  · intro h
    unfold Autotune.checkRun
    split
    · rename_i heq
      rw [heq] at h
      simp at h
    · rename_i heq
      rw [heq]
  · unfold Autotune.maxElapsed
    exact hd2
  · intro hne
    unfold Autotune.maxElapsed at hne ⊢
    omega

/-- C4, at a run that fails after reporting 5 and at a run that succeeds with 5. -/
theorem checkRun_maxElapsed_witness :
    Autotune.IsDuration 5 ∧
      (Autotune.checkRun (fun (_ : Unit) (_ : Int) => ((5 : Int), some "opt crash")) () (-1) []).1
        = Autotune.maxElapsed ∧
      (Autotune.checkRun (fun (_ : Unit) (_ : Int) => ((5 : Int), (none : Option String)))
        () (-1) []).1 = 5 ∧
      (5 : Int) < Autotune.maxElapsed :=
  ⟨by decide,
    (checkRun_maxElapsed (fun (_ : Unit) (_ : Int) => ((5 : Int), some "opt crash")) () (-1) []
      5 (by decide)).1 (by simp),
    (checkRun_maxElapsed (fun (_ : Unit) (_ : Int) => ((5 : Int), (none : Option String)))
      () (-1) [] 5 (by decide)).2.1 rfl,
    (checkRun_maxElapsed (fun (_ : Unit) (_ : Int) => ((5 : Int), (none : Option String)))
      () (-1) [] 5 (by decide)).2.2.2 (by decide)⟩

namespace Autotune

/-- A value in the 64-bit range is unchanged by the wrap. -/
theorem int64_eq_self (x : Int) (h : IsDuration x) : int64 x = x := by
  obtain ⟨h1, h2⟩ := h
  unfold int64
  omega

end Autotune

namespace Primary
open Autotune

/-- With a positive bound for `Int31n` the loop of `randNext` runs to its end. -/
theorem randNextLoop_total (nOpts : Int) (hn : 0 < int32 nOpts) (p : ℚ) (next : Slice) :
    ∀ (n i : Nat) (m : Mem) (g : Rng), i + n ≤ next.len →
      ∃ m1 g1, randNextLoop nOpts p next n i m g = some (m1, g1) := by
  intro n
  induction n with
  | zero => intro i m g _; exact ⟨m, g, rfl⟩
  | succ n ih =>
    intro i m g hi
    simp only [randNextLoop, randFloat64]
    split
    · simp only [randInt31n, hn, if_true, Slice.setAt, show i < next.len by omega]
      exact ih (i + 1) _ _ (by omega)
    · exact ih (i + 1) _ _ (by omega)

/-- The inliner threshold after `randNext`: unchanged, raised by 50, or, from a value above
100, lowered by 50. -/
theorem randNext_thresh_cases (nOpts : Int) (t : ℚ) (config : Config) (m : Mem) (g : Rng)
    (next : Config) (m1 : Mem) (g1 : Rng)
    (h : randNext nOpts t config m g = some (next, m1, g1)) :
    next.inlineThresh = config.inlineThresh ∨
      next.inlineThresh = int64 (config.inlineThresh + 50) ∨
      (100 < config.inlineThresh ∧ next.inlineThresh = int64 (config.inlineThresh - 50)) := by
  unfold randNext at h
  split at h
  · simp at h
  · simp only at h
    split at h
    · simp at h
    · simp only [randFloat32, Option.some.injEq, Prod.mk.injEq] at h
      obtain ⟨rfl, _, _⟩ := h
      simp only
      split
      · exact Or.inr (Or.inl rfl)
      · split
        · rename_i hc
          exact Or.inr (Or.inr ⟨hc.2, rfl⟩)
        · exact Or.inl rfl

/-- With a positive bound for `Int31n`, `randNext` returns. -/
theorem randNext_total (nOpts : Int) (hn : 0 < int32 nOpts) (t : ℚ) (config : Config)
    (m : Mem) (g : Rng) : ∃ next m1 g1, randNext nOpts t config m g = some (next, m1, g1) := by
  unfold randNext
  simp only [makeSlice, Int.toNat_ofNat, Nat.cast_nonneg, le_refl, and_self, if_true]
  obtain ⟨m3, g3, h3⟩ := randNextLoop_total nOpts hn
    (max (round64 (t * REPLACE_RATE)) f64_0_05)
    ⟨m.length, 0, config.passes.len, config.passes.len⟩ config.passes.len 0
    (copySlice ⟨m.length, 0, config.passes.len, config.passes.len⟩ config.passes
      (m ++ [List.replicate config.passes.len 0]))
    g (by simp)
  simp only [h3, randFloat32]
  exact ⟨_, _, _, rfl⟩

/-- The function `randomConfig` starts the inliner threshold at 325. -/
theorem randomConfig_thresh (nOpts max : Int) (m : Mem) (g : Rng) (c : Config) (m1 : Mem)
    (g1 : Rng) (h : randomConfig nOpts max m g = some (c, m1, g1)) : c.inlineThresh = 325 := by
  unfold randomConfig at h
  split at h
  · simp at h
  · split at h
    · simp at h
    · simp only [Option.some.injEq, Prod.mk.injEq] at h
      obtain ⟨rfl, _, _⟩ := h
      rfl

/-- The child of `combineWith` inherits the inliner threshold of the receiver. -/
theorem combineWith_thresh (self other : Config) (m : Mem) (g : Rng) (c : Config) (m1 : Mem)
    (g1 : Rng) (h : combineWith self other m g = some (c, m1, g1)) :
    c.inlineThresh = self.inlineThresh := by
  simp only [combineWith, Option.bind_eq_some, Option.some.injEq, Prod.mk.injEq] at h
  obtain ⟨coPoint, _, first, _, selfHead, _, second, _, hc, _, _⟩ := h
  rw [← hc]

/-- The inliner threshold of a reachable configuration is 325 moved by multiples of 50 and
never below 75, as long as it cannot have overflowed. -/
theorem Reachable.thresh_bounds (nOpts : Int) (n : Nat) (c : Config)
    (h : Reachable nOpts n c) (hn : n ≤ 10 ^ 17) :
    75 ≤ c.inlineThresh ∧ c.inlineThresh ≤ 325 + 50 * n ∧ c.inlineThresh % 50 = 25 := by
  induction h with
  | random max m g c m1 g1 hc =>
    rw [randomConfig_thresh nOpts max m g c m1 g1 hc]
    refine ⟨by decide, by simp, by decide⟩
  | next n t c m g c1 m1 g1 _ hstep ih =>
    have hn1 : n ≤ 10 ^ 17 := by omega
    obtain ⟨h75, hup, hmod⟩ := ih hn1
    have hn2 : (n : Int) ≤ 10 ^ 17 := by exact_mod_cast hn1
    have hplus : int64 (c.inlineThresh + 50) = c.inlineThresh + 50 :=
      int64_eq_self _ ⟨by omega, by omega⟩
    have hminus : int64 (c.inlineThresh - 50) = c.inlineThresh - 50 :=
      int64_eq_self _ ⟨by omega, by omega⟩
    rcases randNext_thresh_cases nOpts t c m g c1 m1 g1 hstep with h | h | ⟨h100, h⟩
    · rw [h]
      refine ⟨h75, ?_, hmod⟩
      push_cast
      omega
    · rw [h, hplus]
      refine ⟨by omega, ?_, by omega⟩
      push_cast
      omega
    · rw [h, hminus]
      refine ⟨by omega, ?_, by omega⟩
      push_cast
      omega
  | combine n k a b m g c m1 g1 _ _ hc iha _ =>
    rw [combineWith_thresh a b m g c m1 g1 hc]
    exact iha hn

end Primary

namespace Primary
open Autotune

/-- The loop of `randNext` leaves the tape of the generator as it is. -/
theorem randNextLoop_tape (nOpts : Int) (p : ℚ) (next : Slice) :
    ∀ (n i : Nat) (m : Mem) (g : Rng) (m1 : Mem) (g1 : Rng),
      randNextLoop nOpts p next n i m g = some (m1, g1) → g1.tape = g.tape := by
  intro n
  induction n with
  | zero =>
    intro i m g m1 g1 h
    simp only [randNextLoop, Option.some.injEq, Prod.mk.injEq] at h
    rw [← h.2]
  | succ n ih =>
    intro i m g m1 g1 h
    simp only [randNextLoop, randFloat64] at h
    split at h
    · split at h
      · exact Option.noConfusion h
      · rename_i v g2 hv
        simp only [randInt31n] at hv
        split at hv
        · simp only [Option.some.injEq, Prod.mk.injEq] at hv
          split at h
          · exact Option.noConfusion h
          · rw [ih _ _ _ _ _ h, ← hv.2]
            rfl
        · exact Option.noConfusion hv
    · rw [ih _ _ _ _ _ h]
      rfl

/-- Under a tape that always draws 1/4, `randNext` lowers a threshold above 100 by 50. -/
theorem randNext_quarter (nOpts : Int) (hn : 0 < int32 nOpts) (t : ℚ) (config : Config)
    (m : Mem) (pos : Nat) (h100 : 100 < config.inlineThresh)
    (hmax : config.inlineThresh ≤ 2 ^ 63 - 1) :
    ∃ next m1 g1, randNext nOpts t config m ⟨fun _ => 1 / 4, pos⟩ = some (next, m1, g1) ∧
      next.inlineThresh = config.inlineThresh - 50 := by
  obtain ⟨next, m1, g1, h⟩ := randNext_total nOpts hn t config m ⟨fun _ => 1 / 4, pos⟩
  refine ⟨next, m1, g1, h, ?_⟩
  unfold randNext at h
  split at h
  · exact Option.noConfusion h
  · simp only at h
    split at h
    · exact Option.noConfusion h
    · rename_i m3 g3 hloop
      have htape : g3.tape = fun _ => 1 / 4 := randNextLoop_tape _ _ _ _ _ _ _ _ _ hloop
      have hdraw : g3.draw = 1 / 4 := by
        unfold Rng.draw
        rw [htape, Int.fract_eq_iff]
        exact ⟨by norm_num, by norm_num, 0, by norm_num⟩
      simp only [randFloat32, Option.some.injEq, Prod.mk.injEq] at h
      obtain ⟨rfl, _, _⟩ := h
      have h3 : ¬ ((1 : ℚ) / 4 > f32_third) := by unfold f32_third; norm_num
      have h6 : (1 : ℚ) / 4 > f32_sixth := by unfold f32_sixth; norm_num
      simp only [hdraw, h3, h6, h100, if_false, true_and, if_true, gt_iff_lt]
      exact int64_eq_self _ ⟨by omega, by omega⟩

end Primary

/-- C5, as stated, fails: `randNext` lowers the threshold whenever it is above 100, so a
configuration with threshold 125 (at least 100, and reached from the initial 325 of
`randomConfig` by four calls of `randNext`) is sent to threshold 75. -/
theorem randNext_thresh_below_100 :
    (Primary.randNext 5 (3 / 2) ⟨⟨0, 0, 0, 0⟩, 125⟩ [[]] ⟨fun _ => 1 / 4, 0⟩).map
        (fun r => (r.1, r.2.1, r.2.2.pos)) = some (⟨⟨1, 0, 0, 0⟩, 75⟩, [[], []], 1) ∧
    ∃ c, Primary.Reachable 5 4 c ∧ c.inlineThresh = 125 ∧
      ∃ next m1 g1, Primary.randNext 5 (3 / 2) c [] ⟨fun _ => 1 / 4, 0⟩ = some (next, m1, g1) ∧
        next.inlineThresh = 75 := by
  have hn : 0 < Autotune.int32 5 := by decide
  have fq : Int.fract ((1 : ℚ) / 4) = 1 / 4 := by
    rw [Int.fract_eq_iff]; exact ⟨by norm_num, by norm_num, 0, by norm_num⟩
  constructor
  · simp only [Primary.randNext, Autotune.makeSlice, Primary.randNextLoop,
      Autotune.randFloat32, Autotune.Rng.draw, Autotune.Rng.advance, Autotune.f32_third,
      Autotune.f32_sixth, Autotune.int64, Autotune.copySlice, fq]
    norm_num [Autotune.Mem.store, Autotune.writeAt, Autotune.Mem.array, Autotune.Slice.toList]
  · have h0 : Primary.randomConfig 5 0 [] ⟨fun _ => 1 / 4, 0⟩
        = some (⟨⟨0, 0, 0, 0⟩, 325⟩, [[]], ⟨fun _ => 1 / 4, 0⟩) := by
      simp [Primary.randomConfig, Autotune.makeSlice, Primary.randomConfigLoop]
    have r0 : Primary.Reachable 5 0 ⟨⟨0, 0, 0, 0⟩, 325⟩ := Primary.Reachable.random _ _ _ _ _ _ h0
    obtain ⟨c1, m1, g1, e1, t1⟩ := Primary.randNext_quarter 5 hn (3 / 2) ⟨⟨0, 0, 0, 0⟩, 325⟩ [] 0
      (by decide) (by decide)
    have r1 := Primary.Reachable.next _ _ _ _ _ _ _ _ r0 e1
    obtain ⟨c2, m2, g2, e2, t2⟩ := Primary.randNext_quarter 5 hn (3 / 2) c1 [] 0
      (by rw [t1]; decide) (by rw [t1]; decide)
    have r2 := Primary.Reachable.next _ _ _ _ _ _ _ _ r1 e2
    obtain ⟨c3, m3, g3, e3, t3⟩ := Primary.randNext_quarter 5 hn (3 / 2) c2 [] 0
      (by rw [t2, t1]; decide) (by rw [t2, t1]; decide)
    have r3 := Primary.Reachable.next _ _ _ _ _ _ _ _ r2 e3
    obtain ⟨c4, m4, g4, e4, t4⟩ := Primary.randNext_quarter 5 hn (3 / 2) c3 [] 0
      (by rw [t3, t2, t1]; decide) (by rw [t3, t2, t1]; decide)
    have r4 := Primary.Reachable.next _ _ _ _ _ _ _ _ r3 e4
    obtain ⟨c5, m5, g5, e5, t5⟩ := Primary.randNext_quarter 5 hn (3 / 2) c4 [] 0
      (by rw [t4, t3, t2, t1]; decide) (by rw [t4, t3, t2, t1]; decide)
    refine ⟨c4, r4, by rw [t4, t3, t2, t1]; decide, c5, m5, g5, e5, ?_⟩
    rw [t5, t4, t3, t2, t1]
    decide

/-- C5, amended: `randNext` lowers the inliner threshold only from a value above 100. With a
non-empty catalog, for every configuration whose threshold is between 51 and
`MaxInt64 - 50`, `randNext` returns a configuration whose threshold is at least 51, and at
least 100 when it started from at least 150; and every configuration reachable from
`randomConfig` by `randNext` and `combineWith` calls, through fewer than `10 ^ 17` calls of
`randNext`, has a threshold of at least 75. -/
theorem randNext_thresh_floor (nOpts : Int) (hn : 0 < Autotune.int32 nOpts) :
    (∀ (t : ℚ) (config : Autotune.Config) (m : Autotune.Mem) (g : Autotune.Rng),
      51 ≤ config.inlineThresh → config.inlineThresh ≤ 2 ^ 63 - 51 →
      ∃ next m1 g1, Primary.randNext nOpts t config m g = some (next, m1, g1) ∧
        51 ≤ next.inlineThresh ∧ (150 ≤ config.inlineThresh → 100 ≤ next.inlineThresh)) ∧
    (∀ (n : Nat) (c : Autotune.Config), Primary.Reachable nOpts n c → n ≤ 10 ^ 17 →
      75 ≤ c.inlineThresh) := by
  constructor
  · intro t config m g h51 hmax
    obtain ⟨next, m1, g1, h⟩ := Primary.randNext_total nOpts hn t config m g
    have hplus : Autotune.int64 (config.inlineThresh + 50) = config.inlineThresh + 50 :=
      Autotune.int64_eq_self _ ⟨by omega, by omega⟩
    have hminus : Autotune.int64 (config.inlineThresh - 50) = config.inlineThresh - 50 :=
      Autotune.int64_eq_self _ ⟨by omega, by omega⟩
    refine ⟨next, m1, g1, h, ?_⟩
    rcases Primary.randNext_thresh_cases nOpts t config m g next m1 g1 h with
      hc | hc | ⟨h100, hc⟩
    · rw [hc]; exact ⟨h51, fun h150 => by omega⟩
    · rw [hc, hplus]; exact ⟨by omega, fun h150 => by omega⟩
    · rw [hc, hminus]; exact ⟨by omega, fun h150 => by omega⟩
  · intro n c hr hsteps
    exact (Primary.Reachable.thresh_bounds nOpts n c hr hsteps).1

/-- C5, amended, at a catalog of five passes: a configuration with threshold 125 and the
configuration that `randomConfig` returns. -/
theorem randNext_thresh_floor_witness :
    0 < Autotune.int32 5 ∧
    (∃ next m1 g1, Primary.randNext 5 (3 / 2) ⟨⟨0, 0, 0, 0⟩, 125⟩ [[]] ⟨fun _ => 1 / 4, 0⟩
        = some (next, m1, g1) ∧
      51 ≤ next.inlineThresh ∧ ((150 : Int) ≤ 125 → 100 ≤ next.inlineThresh)) ∧
    Primary.Reachable 5 0 ⟨⟨0, 0, 0, 0⟩, 325⟩ ∧ (75 : Int) ≤ 325 :=
  have hr : Primary.Reachable 5 0 ⟨⟨0, 0, 0, 0⟩, 325⟩ :=
    Primary.Reachable.random 0 [] ⟨fun _ => 1 / 4, 0⟩ _ [[]] ⟨fun _ => 1 / 4, 0⟩
      (by simp [Primary.randomConfig, Autotune.makeSlice, Primary.randomConfigLoop])
  ⟨by decide,
    (randNext_thresh_floor 5 (by decide)).1 (3 / 2) ⟨⟨0, 0, 0, 0⟩, 125⟩ [[]]
      ⟨fun _ => 1 / 4, 0⟩ (by decide) (by decide),
    hr,
    (randNext_thresh_floor 5 (by decide)).2 0 ⟨⟨0, 0, 0, 0⟩, 325⟩ hr (by decide)⟩

namespace Autotune

/-- A value in the 32-bit range is unchanged by the conversion. -/
theorem int32_eq_self (x : Int) (h1 : -(2 : Int) ^ 31 ≤ x) (h2 : x < 2 ^ 31) : int32 x = x := by
  unfold int32
  omega

/-- The draw of `Int31n` lies below its bound. -/
theorem floor_draw_range (g : Rng) (n : Int) (hn : 0 < n) :
    0 ≤ ⌊g.draw * n⌋ ∧ ⌊g.draw * n⌋ < n := by
  have h0 : 0 ≤ g.draw := Int.fract_nonneg _
  have h1 : g.draw < 1 := Int.fract_lt_one _
  have hnq : (0 : ℚ) < (n : ℚ) := by exact_mod_cast hn
  constructor
  · exact Int.floor_nonneg.mpr (mul_nonneg h0 hnq.le)
  · rw [Int.floor_lt]
    calc g.draw * n < 1 * n := mul_lt_mul_of_pos_right h1 hnq
      _ = n := one_mul _

theorem Mem.array_append_left (m : Mem) (x : List Int) (a : Nat) (h : a < m.length) :
    Mem.array (m ++ [x]) a = Mem.array m a := by
  simp [Mem.array, List.getD_eq_getElem?_getD, List.getElem?_append_left h]

theorem Mem.array_append_new (m : Mem) (x : List Int) :
    Mem.array (m ++ [x]) m.length = x := by
  simp [Mem.array, List.getD_eq_getElem?_getD]

theorem Mem.array_store_same (m : Mem) (a off : Nat) (data : List Int) (h : a < m.length) :
    Mem.array (m.store a off data) a = writeAt (m.array a) off data := by
  simp [Mem.array, Mem.store, List.getD_eq_getElem?_getD, List.getElem?_set, h]

theorem Mem.array_store_ne (m : Mem) (a b off : Nat) (data : List Int) (h : a ≠ b) :
    Mem.array (m.store a off data) b = Mem.array m b := by
  simp [Mem.array, Mem.store, List.getD_eq_getElem?_getD, List.getElem?_set, h]

theorem Mem.length_store (m : Mem) (a off : Nat) (data : List Int) :
    (m.store a off data).length = m.length := by
  simp [Mem.store]

/-- A valid non-empty slice lives in an allocated array. -/
theorem Slice.arr_lt_of_valid {s : Slice} {m : Mem} (h : s.Valid m) (hpos : 0 < s.len) :
    s.arr < m.length := by
  by_contra hge
  have hnil : m.array s.arr = [] := by
    simp [Mem.array, List.getD_eq_getElem?_getD, List.getElem?_eq_none (Nat.le_of_not_lt hge)]
  obtain ⟨h1, h2⟩ := h
  rw [hnil] at h2
  simp only [List.length_nil] at h2
  omega

/-- What a slice denotes depends only on its backing array. -/
theorem Slice.toList_congr (s : Slice) (m m1 : Mem) (h : m1.array s.arr = m.array s.arr) :
    s.toList m1 = s.toList m := by
  simp only [Slice.toList, h]

end Autotune

namespace Primary
open Autotune

/-- What `combineWith` computes on two valid configurations of equal, non-zero length: the
split point is the draw of `Int31n`, the child lives in a fresh backing array holding the
head of the receiver followed by the tail of the argument, and no array that existed before
the call is written. -/
theorem combineWith_spec (self other : Config) (m : Mem) (g : Rng)
    (hself : self.passes.Valid m) (hother : other.passes.Valid m)
    (hpos : 0 < self.passes.len) (hlen : self.passes.len = other.passes.len)
    (h31 : (self.passes.len : Int) < 2 ^ 31) :
    ∃ (k : Nat) (child : Config) (m1 : Mem),
      combineWith self other m g = some (child, m1, g.advance) ∧
      (k : Int) = ⌊g.draw * (self.passes.len : Int)⌋ ∧ k < self.passes.len ∧
      child.passes.toList m1
        = (self.passes.toList m).take k ++ (other.passes.toList m).drop k ∧
      child.passes.len = self.passes.len ∧
      child.inlineThresh = self.inlineThresh ∧
      (∀ a, a < m.length → m1.array a = m.array a) := by
  obtain ⟨hs1, hs2⟩ := hself
  obtain ⟨ho1, ho2⟩ := hother
  have hn : (0 : Int) < (self.passes.len : Int) := by exact_mod_cast hpos
  obtain ⟨hk0, hklt⟩ := floor_draw_range g _ hn
  obtain ⟨k, hk⟩ := Int.eq_ofNat_of_zero_le hk0
  have hkn : k < self.passes.len := by
    rw [hk] at hklt
    exact_mod_cast hklt
  have hsarr : self.passes.arr < m.length := Slice.arr_lt_of_valid ⟨hs1, hs2⟩ hpos
  have hoarr : other.passes.arr < m.length :=
    Slice.arr_lt_of_valid ⟨ho1, ho2⟩ (by omega)
  -- the steps of the method, one by one
  have e1 : randInt31n g (int32 self.passes.len) = some ((k : Int), g.advance) := by
    rw [int32_eq_self _ (by omega) h31]
    simp only [randInt31n, hn, if_true, hk]
  have e2 : makeSlice m (k : Int) self.passes.len
      = some (⟨m.length, 0, k, self.passes.len⟩, m ++ [List.replicate self.passes.len 0]) := by
    have hc : (0 : Int) ≤ (k : Int) ∧ (k : Int) ≤ (self.passes.len : Int) :=
      ⟨by omega, by omega⟩
    simp only [makeSlice, hc, and_self, if_true, Int.toNat_ofNat]
  have e3 : self.passes.sliceTo (k : Int) = some ⟨self.passes.arr, self.passes.off, k, self.passes.cap⟩ := by
    have hc : (0 : Int) ≤ (k : Int) ∧ (k : Int) ≤ (self.passes.cap : Int) :=
      ⟨by omega, by omega⟩
    simp only [Slice.sliceTo, hc, and_self, if_true, Int.toNat_ofNat]
  have e4 : other.passes.sliceFrom (k : Int)
      = some ⟨other.passes.arr, other.passes.off + k, other.passes.len - k,
          other.passes.cap - k⟩ := by
    have hc : (0 : Int) ≤ (k : Int) ∧ (k : Int) ≤ (other.passes.len : Int) :=
      ⟨by omega, by omega⟩
    simp only [Slice.sliceFrom, hc, and_self, if_true, Int.toNat_ofNat]
  -- the memory after the allocation and the copy
  have hm1len : (m ++ [List.replicate self.passes.len (0 : Int)]).length = m.length + 1 := by
    simp
  have hnew : m.length < (m ++ [List.replicate self.passes.len (0 : Int)]).length := by
    omega
  have hhead : Slice.toList ⟨self.passes.arr, self.passes.off, k, self.passes.cap⟩
        (m ++ [List.replicate self.passes.len 0]) = (self.passes.toList m).take k := by
    simp only [Slice.toList, Mem.array_append_left m _ _ hsarr, List.take_take]
    rw [Nat.min_eq_left (Nat.le_of_lt hkn)]
  have hheadlen : ((self.passes.toList m).take k).length = k := by
    simp only [Slice.toList, List.length_take, List.length_drop]
    omega
  have hm2new : Mem.array (copySlice ⟨m.length, 0, k, self.passes.len⟩
        ⟨self.passes.arr, self.passes.off, k, self.passes.cap⟩ (m ++ [List.replicate self.passes.len 0])) m.length
      = (self.passes.toList m).take k ++ List.replicate (self.passes.len - k) 0 := by
    simp only [copySlice, hhead, Mem.array_store_same _ _ _ _ hnew, Mem.array_append_new,
      writeAt, List.take_zero, List.nil_append, List.take_take, Nat.min_self, Nat.zero_add,
      List.length_take, hheadlen, Nat.min_self, List.drop_replicate]
  have hm2old : ∀ a, a < m.length → Mem.array (copySlice ⟨m.length, 0, k, self.passes.len⟩
        ⟨self.passes.arr, self.passes.off, k, self.passes.cap⟩ (m ++ [List.replicate self.passes.len 0])) a
      = m.array a := by
    intro a ha
    simp only [copySlice]
    rw [Mem.array_store_ne _ _ _ _ _ (by omega), Mem.array_append_left m _ _ ha]
  have hm2len : (copySlice ⟨m.length, 0, k, self.passes.len⟩
        ⟨self.passes.arr, self.passes.off, k, self.passes.cap⟩ (m ++ [List.replicate self.passes.len 0])).length
      = m.length + 1 := by
    simp only [copySlice, Mem.length_store, hm1len]
  have htail : Slice.toList ⟨other.passes.arr, other.passes.off + k, other.passes.len - k,
        other.passes.cap - k⟩ (copySlice ⟨m.length, 0, k, self.passes.len⟩
          ⟨self.passes.arr, self.passes.off, k, self.passes.cap⟩ (m ++ [List.replicate self.passes.len 0]))
      = (other.passes.toList m).drop k := by
    simp only [Slice.toList, hm2old _ hoarr, List.drop_take, List.drop_drop]
  have htaillen : ((other.passes.toList m).drop k).length = self.passes.len - k := by
    simp only [Slice.toList, List.length_take, List.length_drop]
    omega
  generalize hm2def : copySlice ⟨m.length, 0, k, self.passes.len⟩
    ⟨self.passes.arr, self.passes.off, k, self.passes.cap⟩
    (m ++ [List.replicate self.passes.len 0]) = m2 at hm2new hm2old hm2len htail
  have hfit : k + (other.passes.len - k) ≤ self.passes.len := by omega
  have hsum : k + (other.passes.len - k) = self.passes.len := by omega
  refine ⟨k, ⟨⟨m.length, 0, self.passes.len, self.passes.len⟩, self.inlineThresh⟩,
    m2.store m.length (0 + k) ((other.passes.toList m).drop k), ?_,
    hk.symm, hkn, ?_, rfl, rfl, ?_⟩
  · simp only [combineWith, e1, e2, e3, e4, Option.some_bind, hm2def, appendSlice, hfit,
      if_true, hsum, htail, le_refl]
  · rw [Slice.toList]
    dsimp only
    rw [Mem.array_store_same _ _ _ _ (by omega), hm2new]
    simp only [writeAt, Nat.zero_add, List.drop_zero]
    rw [List.take_left' hheadlen]
    have hdrop : List.drop (k + ((other.passes.toList m).drop k).length)
        ((self.passes.toList m).take k ++ List.replicate (self.passes.len - k) 0) = [] := by
      apply List.drop_of_length_le
      simp only [List.length_append, hheadlen, List.length_replicate, htaillen]
      omega
    rw [hdrop, List.append_nil]
    apply List.take_of_length_le
    simp only [List.length_append, hheadlen, htaillen]
    omega
  · intro a ha
    rw [Mem.array_store_ne _ _ _ _ _ (by omega), hm2old a ha]

end Primary

/-- C6: on two valid, non-empty configurations of equal pass length (below `2 ^ 31`, the
range of `int32`), `combineWith` returns: it draws a split point `k` in `[0, len)`, the
child's passes are the receiver's first `k` passes followed by the argument's passes from
`k` on, so the child is as long as the receiver; the child inherits the receiver's
inliner threshold; and the passes of the receiver and of the argument are unchanged in
the memory after the call. -/
theorem combineWith_crossover (self other : Autotune.Config) (m : Autotune.Mem)
    (g : Autotune.Rng) (hself : self.passes.Valid m) (hother : other.passes.Valid m)
    (hpos : 0 < self.passes.len) (hlen : self.passes.len = other.passes.len)
    (h31 : (self.passes.len : Int) < 2 ^ 31) :
    ∃ (k : Nat) (child : Autotune.Config) (m1 : Autotune.Mem) (g1 : Autotune.Rng),
      Primary.combineWith self other m g = some (child, m1, g1) ∧
      (k : Int) = ⌊g.draw * (self.passes.len : Int)⌋ ∧ k < self.passes.len ∧
      child.passes.toList m1
        = (self.passes.toList m).take k ++ (other.passes.toList m).drop k ∧
      (child.passes.toList m1).length = (self.passes.toList m).length ∧
      child.passes.len = self.passes.len ∧
      child.inlineThresh = self.inlineThresh ∧
      self.passes.toList m1 = self.passes.toList m ∧
      other.passes.toList m1 = other.passes.toList m := by
  obtain ⟨k, child, m1, hrun, hk, hkn, hpasses, hclen, hthresh, hmem⟩ :=
    Primary.combineWith_spec self other m g hself hother hpos hlen h31
  have hsarr : self.passes.arr < m.length := Autotune.Slice.arr_lt_of_valid hself hpos
  have hoarr : other.passes.arr < m.length :=
    Autotune.Slice.arr_lt_of_valid hother (by omega)
  refine ⟨k, child, m1, g.advance, hrun, hk, hkn, hpasses, ?_, hclen, hthresh,
    Autotune.Slice.toList_congr _ _ _ (hmem _ hsarr),
    Autotune.Slice.toList_congr _ _ _ (hmem _ hoarr)⟩
  rw [hpasses, List.length_append, List.length_take, List.length_drop,
    Autotune.Slice.length_toList hself, Autotune.Slice.length_toList hother]
  omega

/-- C6, at the parents `[1, 2, 3]` and `[4, 5, 6]` with the draw 1/2, hence the split
point 1. -/
theorem combineWith_crossover_witness :
    Autotune.Slice.Valid ⟨0, 0, 3, 3⟩ [[1, 2, 3], [4, 5, 6]] ∧
    Autotune.Slice.Valid ⟨1, 0, 3, 3⟩ [[1, 2, 3], [4, 5, 6]] ∧
    ∃ (k : Nat) (child : Autotune.Config) (m1 : Autotune.Mem) (g1 : Autotune.Rng),
      Primary.combineWith ⟨⟨0, 0, 3, 3⟩, 125⟩ ⟨⟨1, 0, 3, 3⟩, 7⟩ [[1, 2, 3], [4, 5, 6]]
        ⟨fun _ => 1 / 2, 0⟩ = some (child, m1, g1) ∧
      (k : Int) = ⌊Autotune.Rng.draw ⟨fun _ => 1 / 2, 0⟩ * ((3 : Nat) : Int)⌋ ∧ k < 3 ∧
      child.passes.toList m1
        = (Autotune.Slice.toList ⟨0, 0, 3, 3⟩ [[1, 2, 3], [4, 5, 6]]).take k
          ++ (Autotune.Slice.toList ⟨1, 0, 3, 3⟩ [[1, 2, 3], [4, 5, 6]]).drop k ∧
      (child.passes.toList m1).length
        = (Autotune.Slice.toList ⟨0, 0, 3, 3⟩ [[1, 2, 3], [4, 5, 6]]).length ∧
      child.passes.len = 3 ∧
      child.inlineThresh = 125 ∧
      Autotune.Slice.toList ⟨0, 0, 3, 3⟩ m1
        = Autotune.Slice.toList ⟨0, 0, 3, 3⟩ [[1, 2, 3], [4, 5, 6]] ∧
      Autotune.Slice.toList ⟨1, 0, 3, 3⟩ m1
        = Autotune.Slice.toList ⟨1, 0, 3, 3⟩ [[1, 2, 3], [4, 5, 6]] :=
  ⟨by decide, by decide,
    combineWith_crossover ⟨⟨0, 0, 3, 3⟩, 125⟩ ⟨⟨1, 0, 3, 3⟩, 7⟩ [[1, 2, 3], [4, 5, 6]]
      ⟨fun _ => 1 / 2, 0⟩ (by decide) (by decide) (by decide) rfl (by decide)⟩

namespace Autotune

/-- With `t = 0` the mutation strength `max(t * REPLACE_RATE, 0.05)` is `0.05`. -/
theorem strength_zero (rate : ℚ) : max (round64 (0 * rate)) f64_0_05 = f64_0_05 := by
  have h : round64 (0 * rate) = 0 := by simp [round64]
  rw [h]
  apply max_eq_right
  unfold f64_0_05
  norm_num

/-- Copying a valid slice into a fresh array of its length gives a slice that denotes the
same elements, and leaves the arrays allocated before as they are. -/
theorem copy_fresh (s : Slice) (m : Mem) (hv : s.Valid m) :
    Slice.toList ⟨m.length, 0, s.len, s.len⟩
        (copySlice ⟨m.length, 0, s.len, s.len⟩ s (m ++ [List.replicate s.len 0]))
      = s.toList m ∧
    ∀ a, a < m.length →
      Mem.array (copySlice ⟨m.length, 0, s.len, s.len⟩ s (m ++ [List.replicate s.len 0])) a
        = m.array a := by
  have hlen : (s.toList m).length = s.len := Slice.length_toList hv
  have hsrc : s.toList (m ++ [List.replicate s.len 0]) = s.toList m ∨ s.len = 0 := by
    by_cases h0 : 0 < s.len
    · left
      exact Slice.toList_congr _ _ _ (Mem.array_append_left m _ _ (Slice.arr_lt_of_valid hv h0))
    · right
      omega
  have hnew : m.length < (m ++ [List.replicate s.len (0 : Int)]).length := by simp
  constructor
  · rw [Slice.toList]
    dsimp only
    simp only [copySlice]
    rw [Mem.array_store_same _ _ _ _ hnew, Mem.array_append_new]
    rcases hsrc with hsrc | hsrc
    · rw [hsrc, List.take_of_length_le (le_of_eq hlen)]
      simp only [writeAt, List.take_zero, List.nil_append, Nat.zero_add, List.drop_zero, hlen,
        List.drop_replicate, Nat.sub_self, List.replicate_zero, List.append_nil]
      exact List.take_of_length_le (le_of_eq hlen)
    · have hnil : s.toList m = [] := List.eq_nil_of_length_eq_zero (hlen.trans hsrc)
      rw [hnil, hsrc]
      simp
  · intro a ha
    simp only [copySlice]
    rw [Mem.array_store_ne _ _ _ _ _ (by omega), Mem.array_append_left m _ _ ha]

end Autotune

namespace Primary
open Autotune

/-- The loop of `randNext` in `src/autotune.go` writes nothing when no draw falls below the
mutation strength. -/
theorem randNextLoop_keep (nOpts : Int) (p : ℚ) (next : Slice) :
    ∀ (n i : Nat) (m : Mem) (g : Rng),
      (∀ j, j < n → p ≤ Int.fract (g.tape (g.pos + j))) →
      randNextLoop nOpts p next n i m g = some (m, ⟨g.tape, g.pos + n⟩) := by
  intro n
  induction n with
  | zero => intro i m g _; rfl
  | succ n ih =>
    intro i m g h
    have h0 : ¬ (p > g.draw) := by
      have := h 0 (Nat.succ_pos n)
      simp only [Nat.add_zero] at this
      exact not_lt.mpr this
    simp only [randNextLoop, randFloat64, h0, if_false]
    rw [ih (i + 1) m g.advance]
    · simp only [Rng.advance, Nat.add_assoc, Nat.add_comm 1 n]
    · intro j hj
      have := h (j + 1) (Nat.succ_lt_succ hj)
      simpa only [Rng.advance, Nat.add_assoc, Nat.add_comm 1 j] using this

end Primary

namespace Secondary
open Autotune

/-- The loop of `randNext` in `src/src/autotune.go` writes nothing when no draw exceeds
`repProb`. -/
theorem randNextLoop_keep_replay (nOpts : Int) (p : ℚ) (next : Slice) :
    ∀ (n i : Nat) (m : Mem) (g : Rng),
      (∀ j, j < n → Int.fract (g.tape (g.pos + j)) ≤ p) →
      randNextLoop nOpts p next n i m g = some (m, ⟨g.tape, g.pos + n⟩) := by
  intro n
  induction n with
  | zero => intro i m g _; rfl
  | succ n ih =>
    intro i m g h
    have h0 : ¬ (g.draw > p) := by
      have := h 0 (Nat.succ_pos n)
      simp only [Nat.add_zero] at this
      exact not_lt.mpr this
    simp only [randNextLoop, randFloat64, h0, if_false]
    rw [ih (i + 1) m g.advance]
    · simp only [Rng.advance, Nat.add_assoc, Nat.add_comm 1 n]
    · intro j hj
      have := h (j + 1) (Nat.succ_lt_succ hj)
      simpa only [Rng.advance, Nat.add_assoc, Nat.add_comm 1 j] using this

end Secondary

/-- C7, as stated, fails: with `t = 0` the mutation strength is `max(0, 0.05) = 0.05`. In
`src/autotune.go` a position whose draw is below 0.05 is replaced (here pass 0 becomes
pass 1 under the draws 0, 1/2, 1/2); in `src/src/autotune.go` a position whose draw is
above 0.05 is replaced (here pass 0 becomes pass 1 under the draws 1/2, 1/2). -/
theorem randNext_zero_changes_passes :
    Autotune.Slice.toList ⟨0, 0, 1, 1⟩ [[0]] = [0] ∧
    (Primary.randNext 2 0 ⟨⟨0, 0, 1, 1⟩, 325⟩ [[0]]
        ⟨fun i => if i = 0 then 0 else 1 / 2, 0⟩).map
      (fun r => (r.1.passes.toList r.2.1, r.1.inlineThresh)) = some ([1], 375) ∧
    (Secondary.randNext 2 0 ⟨⟨0, 0, 1, 1⟩, 225⟩ [[0]] ⟨fun _ => 1 / 2, 0⟩).map
      (fun r => (r.1.passes.toList r.2.1, r.1.inlineThresh)) = some ([1], 225) := by
  have fh : Int.fract ((1 : ℚ) / 2) = 1 / 2 := by
    rw [Int.fract_eq_iff]; exact ⟨by norm_num, by norm_num, 0, by norm_num⟩
  have fh2 : Int.fract ((2 : ℚ)⁻¹) = 2⁻¹ := by
    rw [Int.fract_eq_iff]; exact ⟨by norm_num, by norm_num, 0, by norm_num⟩
  have hi2 : Autotune.int32 2 = 2 := by decide
  have hi3 : Autotune.int32 (2 + 1) = 3 := by decide
  have hw : Autotune.int64 (325 + 50) = 375 := by decide
  have hmk : Autotune.makeSlice [[0]] ((1 : Nat) : Int) ((1 : Nat) : Int)
      = some (⟨1, 0, 1, 1⟩, [[0], [0]]) := by decide
  have hcopy : Autotune.copySlice ⟨1, 0, 1, 1⟩ ⟨0, 0, 1, 1⟩ [[0], [0]] = [[0], [0]] := by
    decide
  have h05 : Autotune.f64_0_05 > (0 : ℚ) := by unfold Autotune.f64_0_05; norm_num
  have h05h : (1 : ℚ) / 2 > Autotune.f64_0_05 := by unfold Autotune.f64_0_05; norm_num
  have h3 : (1 : ℚ) / 2 > Autotune.f32_third := by unfold Autotune.f32_third; norm_num
  have hfl : ⌊(1 : ℚ) / 2 * ((2 : Int) : ℚ)⌋ = 1 := by norm_num
  have hfl3 : ⌊(1 : ℚ) / 2 * ((3 : Int) : ℚ)⌋ = 1 := by
    rw [Int.floor_eq_iff]; norm_num
  have hst : Autotune.Mem.store [[0], [0]] 1 (0 + 0) [1] = [[0], [1]] := by decide
  refine ⟨by decide, ?_, ?_⟩
  · simp only [Primary.randNext, hmk, hcopy, Autotune.strength_zero,
      Primary.randNextLoop, Autotune.randFloat64, Autotune.randFloat32, Autotune.randInt31n,
      Autotune.Rng.draw, Autotune.Rng.advance, Autotune.Slice.setAt, hi2, hw,
      if_true, Int.fract_zero, h05, Nat.zero_add, Nat.add_eq_zero, one_ne_zero, and_false,
      and_self, if_false, fh, hfl, Nat.lt_one_iff, Nat.zero_lt_one, zero_lt_two,
      Int.reduceLT, hst, h3, Option.map_some']
    decide
  · simp only [Secondary.randNext, hmk, hcopy, Autotune.strength_zero,
      Secondary.randNextLoop, Autotune.randFloat64, Autotune.randInt31n,
      Autotune.Rng.draw, Autotune.Rng.advance, Autotune.Slice.setAt, hi2, hi3,
      if_true, h05h, fh, hfl3, Nat.zero_lt_one, Int.reduceLT, hst, Option.map_some']
    decide

/-- C7, amended: with `t = 0` the mutation strength is `0.05`, not 0. On a valid
configuration `randNext` of `src/autotune.go` returns passes equal to the input's, position
by position, whenever every per-position draw is at least `0.05`; `randNext` of
`src/src/autotune.go`, whose test is the reverse, does so whenever every per-position draw
is at most `0.05` (and keeps the threshold). -/
theorem randNext_zero_keeps_passes (nOpts : Int) (config : Autotune.Config)
    (m : Autotune.Mem) (g : Autotune.Rng) (hv : config.passes.Valid m) :
    ((∀ j, j < config.passes.len → Autotune.f64_0_05 ≤ Int.fract (g.tape (g.pos + j))) →
      ∃ next m1 g1, Primary.randNext nOpts 0 config m g = some (next, m1, g1) ∧
        next.passes.toList m1 = config.passes.toList m) ∧
    ((∀ j, j < config.passes.len → Int.fract (g.tape (g.pos + j)) ≤ Autotune.f64_0_05) →
      ∃ next m1 g1, Secondary.randNext nOpts 0 config m g = some (next, m1, g1) ∧
        next.passes.toList m1 = config.passes.toList m ∧
        next.inlineThresh = config.inlineThresh) := by
  have hmk : Autotune.makeSlice m (config.passes.len : Int) (config.passes.len : Int)
      = some (⟨m.length, 0, config.passes.len, config.passes.len⟩,
          m ++ [List.replicate config.passes.len 0]) := by
    simp only [Autotune.makeSlice, Nat.cast_nonneg, le_refl, and_self, if_true,
      Int.toNat_ofNat]
  have hcopy := (Autotune.copy_fresh config.passes m hv).1
  constructor
  · intro hdraws
    have hloop := Primary.randNextLoop_keep nOpts Autotune.f64_0_05
      ⟨m.length, 0, config.passes.len, config.passes.len⟩ config.passes.len 0
      (Autotune.copySlice ⟨m.length, 0, config.passes.len, config.passes.len⟩ config.passes
        (m ++ [List.replicate config.passes.len 0])) g hdraws
    simp only [Primary.randNext, hmk, Autotune.strength_zero, hloop, Autotune.randFloat32]
    exact ⟨_, _, _, rfl, hcopy⟩
  · intro hdraws
    have hloop := Secondary.randNextLoop_keep_replay nOpts Autotune.f64_0_05
      ⟨m.length, 0, config.passes.len, config.passes.len⟩ config.passes.len 0
      (Autotune.copySlice ⟨m.length, 0, config.passes.len, config.passes.len⟩ config.passes
        (m ++ [List.replicate config.passes.len 0])) g hdraws
    simp only [Secondary.randNext, hmk, Autotune.strength_zero, hloop]
    exact ⟨_, _, _, rfl, hcopy, rfl⟩

/-- C7, amended, at the passes `[1, 0, 1]`: under the draws 1/2 for `src/autotune.go` and
under the draws 0 for `src/src/autotune.go`. -/
theorem randNext_zero_keeps_passes_witness :
    Autotune.Slice.Valid ⟨0, 0, 3, 3⟩ [[1, 0, 1]] ∧
    (∃ next m1 g1, Primary.randNext 2 0 ⟨⟨0, 0, 3, 3⟩, 325⟩ [[1, 0, 1]] ⟨fun _ => 1 / 2, 0⟩
        = some (next, m1, g1) ∧
      next.passes.toList m1 = Autotune.Slice.toList ⟨0, 0, 3, 3⟩ [[1, 0, 1]]) ∧
    (∃ next m1 g1, Secondary.randNext 2 0 ⟨⟨0, 0, 3, 3⟩, 225⟩ [[1, 0, 1]] ⟨fun _ => 0, 0⟩
        = some (next, m1, g1) ∧
      next.passes.toList m1 = Autotune.Slice.toList ⟨0, 0, 3, 3⟩ [[1, 0, 1]] ∧
      next.inlineThresh = 225) :=
  ⟨by decide,
    (randNext_zero_keeps_passes 2 ⟨⟨0, 0, 3, 3⟩, 325⟩ [[1, 0, 1]] ⟨fun _ => 1 / 2, 0⟩
      (by decide)).1 (fun _ _ => by
        have fh : Int.fract ((1 : ℚ) / 2) = 1 / 2 := by
          rw [Int.fract_eq_iff]; exact ⟨by norm_num, by norm_num, 0, by norm_num⟩
        simp only [fh, Autotune.f64_0_05]
        norm_num),
    (randNext_zero_keeps_passes 2 ⟨⟨0, 0, 3, 3⟩, 225⟩ [[1, 0, 1]] ⟨fun _ => 0, 0⟩
      (by decide)).2 (fun _ _ => by
        simp only [Int.fract_zero, Autotune.f64_0_05]
        norm_num)⟩

namespace Autotune

theorem Evaluated.step {c0 c1 c : Config} {k0 k1 k : Int} {b : List SAResult}
    {bs : List (List SAResult)}
    (h1 : (c1 = c0 ∧ k1 = k0) ∨ ∃ r ∈ b, r.accepted = true ∧ r.config = c1 ∧ r.cost = k1)
    (h2 : Evaluated c1 k1 bs c k) : Evaluated c0 k0 (b :: bs) c k := by
  rcases h2 with ⟨hc, hk⟩ | ⟨b1, hb1, r, hr, hacc, hcfg, hcost⟩
  · rcases h1 with ⟨hc1, hk1⟩ | ⟨r, hr, hacc, hcfg, hcost⟩
    · exact Or.inl ⟨hc.trans hc1, hk.trans hk1⟩
    · exact Or.inr ⟨b, List.mem_cons_self _ _, r, hr, hacc, hcfg.trans hc.symm,
        hcost.trans hk.symm⟩
  · exact Or.inr ⟨b1, List.mem_cons_of_mem _ hb1, r, hr, hacc, hcfg, hcost⟩

end Autotune

namespace Primary
open Autotune

/-- One scan keeps the best cost at most the current cost; the best configuration with
the best cost, and the current configuration with the current cost, are each the old pair
or the configuration and cost of an accepted result of the scan. -/
theorem saScan_inv : ∀ (results : List SAResult) (st : SAState),
    st.bestCost ≤ st.cost →
    (saScan st results).bestCost ≤ (saScan st results).cost ∧
    (((saScan st results).bestConfig = st.bestConfig ∧
        (saScan st results).bestCost = st.bestCost) ∨
      ∃ r ∈ results, r.accepted = true ∧ r.config = (saScan st results).bestConfig ∧
        r.cost = (saScan st results).bestCost) ∧
    (((saScan st results).config = st.config ∧ (saScan st results).cost = st.cost) ∨
      ∃ r ∈ results, r.accepted = true ∧ r.config = (saScan st results).config ∧
        r.cost = (saScan st results).cost) := by
  intro results
  induction results with
  | nil => intro st h; exact ⟨h, Or.inl ⟨rfl, rfl⟩, Or.inl ⟨rfl, rfl⟩⟩
  | cons r rs ih =>
    intro st h
    simp only [saScan]
    by_cases ha : r.accepted = true
    · rw [if_pos ha]
      by_cases hc : r.cost < st.bestCost
      · rw [if_pos hc]
        exact ⟨le_refl _, Or.inr ⟨r, List.mem_cons_self _ _, ha, rfl, rfl⟩,
          Or.inr ⟨r, List.mem_cons_self _ _, ha, rfl, rfl⟩⟩
      · rw [if_neg hc]
        exact ⟨not_lt.mp hc, Or.inl ⟨rfl, rfl⟩,
          Or.inr ⟨r, List.mem_cons_self _ _, ha, rfl, rfl⟩⟩
    · rw [if_neg ha]
      obtain ⟨h1, h2, h3⟩ :=
        ih { st with itrWithoutChange := int64 (st.itrWithoutChange + 1) } h
      refine ⟨h1, ?_, ?_⟩
      · rcases h2 with h2 | ⟨r1, hr1, hacc, hcfg, hcost⟩
        · exact Or.inl h2
        · exact Or.inr ⟨r1, List.mem_cons_of_mem _ hr1, hacc, hcfg, hcost⟩
      · rcases h3 with h3 | ⟨r1, hr1, hacc, hcfg, hcost⟩
        · exact Or.inl h3
        · exact Or.inr ⟨r1, List.mem_cons_of_mem _ hr1, hacc, hcfg, hcost⟩

/-- A sequence of scans keeps the best cost at most the current cost; the best pair is
the best pair it started with or an accepted result of one of the scans, and the current
pair is the current pair it started with or an accepted result. -/
theorem saIterate_inv : ∀ (batches : List (List SAResult)) (st : SAState),
    st.bestCost ≤ st.cost →
    (saIterate st batches).bestCost ≤ (saIterate st batches).cost ∧
    Evaluated st.bestConfig st.bestCost batches
      (saIterate st batches).bestConfig (saIterate st batches).bestCost ∧
    Evaluated st.config st.cost batches
      (saIterate st batches).config (saIterate st batches).cost := by
  intro batches
  induction batches with
  | nil => intro st h; exact ⟨h, Or.inl ⟨rfl, rfl⟩, Or.inl ⟨rfl, rfl⟩⟩
  | cons b bs ih =>
    intro st h
    obtain ⟨hb1, hb2, hb3⟩ := saScan_inv b st h
    obtain ⟨h1, h2, h3⟩ := ih (saScan st b) hb1
    simp only [saIterate, List.foldl_cons] at h1 h2 h3 ⊢
    exact ⟨h1, Evaluated.step hb2 h2, Evaluated.step hb3 h3⟩

end Primary

namespace Secondary
open Autotune

/-- One scan keeps the best cost at most the current cost; the best configuration with
the best cost is the old pair or the configuration and cost of an accepted result of the
scan, and the current pair is the old current pair, the old best pair (after a rollback)
or an accepted result. -/
theorem saScan_inv_replay (usingServer : Bool) (checkpoint : Config → Option String) :
    ∀ (results : List SAResult) (st : SAState),
    st.bestCost ≤ st.cost →
    (saScan usingServer checkpoint st results).bestCost
        ≤ (saScan usingServer checkpoint st results).cost ∧
    (((saScan usingServer checkpoint st results).bestConfig = st.bestConfig ∧
        (saScan usingServer checkpoint st results).bestCost = st.bestCost) ∨
      ∃ r ∈ results, r.accepted = true ∧
        r.config = (saScan usingServer checkpoint st results).bestConfig ∧
        r.cost = (saScan usingServer checkpoint st results).bestCost) ∧
    (((saScan usingServer checkpoint st results).config = st.config ∧
        (saScan usingServer checkpoint st results).cost = st.cost) ∨
      ((saScan usingServer checkpoint st results).config = st.bestConfig ∧
        (saScan usingServer checkpoint st results).cost = st.bestCost) ∨
      ∃ r ∈ results, r.accepted = true ∧
        r.config = (saScan usingServer checkpoint st results).config ∧
        r.cost = (saScan usingServer checkpoint st results).cost) := by
  intro results
  induction results with
  | nil => intro st h; exact ⟨h, Or.inl ⟨rfl, rfl⟩, Or.inl ⟨rfl, rfl⟩⟩
  | cons r rs ih =>
    intro st h
    simp only [saScan]
    by_cases ha : r.accepted = true
    · rw [if_pos ha]
      by_cases hc : r.cost < st.bestCost
      · rw [if_pos hc]
        by_cases he : (if usingServer = true then checkpoint r.config else none) ≠ none
        · rw [if_pos he]
          exact ⟨le_refl _, Or.inl ⟨rfl, rfl⟩, Or.inr (Or.inl ⟨rfl, rfl⟩)⟩
        · rw [if_neg he]
          exact ⟨le_refl _, Or.inr ⟨r, List.mem_cons_self _ _, ha, rfl, rfl⟩,
            Or.inr (Or.inr ⟨r, List.mem_cons_self _ _, ha, rfl, rfl⟩)⟩
      · rw [if_neg hc]
        exact ⟨not_lt.mp hc, Or.inl ⟨rfl, rfl⟩,
          Or.inr (Or.inr ⟨r, List.mem_cons_self _ _, ha, rfl, rfl⟩)⟩
    · rw [if_neg ha]
      obtain ⟨h1, h2, h3⟩ :=
        ih { st with itrWithoutChange := int64 (st.itrWithoutChange + 1) } h
      refine ⟨h1, ?_, ?_⟩
      · rcases h2 with h2 | ⟨r1, hr1, hacc, hcfg, hcost⟩
        · exact Or.inl h2
        · exact Or.inr ⟨r1, List.mem_cons_of_mem _ hr1, hacc, hcfg, hcost⟩
      · rcases h3 with h3 | h3 | ⟨r1, hr1, hacc, hcfg, hcost⟩
        · exact Or.inl h3
        · exact Or.inr (Or.inl h3)
        · exact Or.inr (Or.inr ⟨r1, List.mem_cons_of_mem _ hr1, hacc, hcfg, hcost⟩)

/-- A sequence of scans keeps the best cost at most the current cost; the best pair is
the best pair it started with or an accepted result of one of the scans, and the current
pair is the current or the best pair it started with or an accepted result. -/
theorem saIterate_inv_replay (usingServer : Bool) (checkpoint : Config → Option String) :
    ∀ (batches : List (List SAResult)) (st : SAState),
    st.bestCost ≤ st.cost →
    (saIterate usingServer checkpoint st batches).bestCost
        ≤ (saIterate usingServer checkpoint st batches).cost ∧
    Evaluated st.bestConfig st.bestCost batches
      (saIterate usingServer checkpoint st batches).bestConfig
      (saIterate usingServer checkpoint st batches).bestCost ∧
    (Evaluated st.config st.cost batches
        (saIterate usingServer checkpoint st batches).config
        (saIterate usingServer checkpoint st batches).cost ∨
      Evaluated st.bestConfig st.bestCost batches
        (saIterate usingServer checkpoint st batches).config
        (saIterate usingServer checkpoint st batches).cost) := by
  intro batches
  induction batches with
  | nil => intro st h; exact ⟨h, Or.inl ⟨rfl, rfl⟩, Or.inl (Or.inl ⟨rfl, rfl⟩)⟩
  | cons b bs ih =>
    intro st h
    obtain ⟨hb1, hb2, hb3⟩ := saScan_inv_replay usingServer checkpoint b st h
    obtain ⟨h1, h2, h3⟩ := ih (saScan usingServer checkpoint st b) hb1
    simp only [saIterate, List.foldl_cons] at h1 h2 h3 ⊢
    refine ⟨h1, Evaluated.step hb2 h2, ?_⟩
    rcases h3 with h3 | h3
    · rcases hb3 with hb3 | hb3 | hb3
      · exact Or.inl (Evaluated.step (Or.inl hb3) h3)
      · exact Or.inr (Evaluated.step (Or.inl hb3) h3)
      · exact Or.inl (Evaluated.step (Or.inr hb3) h3)
    · exact Or.inr (Evaluated.step hb2 h3)

end Secondary

/-- C8: in both versions of `run_sa`, the step that adopts the first accepted result (with,
in the replay version, the checkpoint run and its rollback) preserves
`bestCost ≤ cost`, and `bestCost` stays the cost that belongs to `bestConfig`: after the
step the best configuration with the best cost is the pair from before or the
configuration and measured cost of one accepted result of the step, and so is the current
configuration with the current cost (which can also be the best pair from before, after a
rollback). Hence after any sequence of iterations started from `bestConfig = config`,
`bestCost = cost`, the best cost is at most the current cost, and both the best and the
current configuration carry the cost they were evaluated with: each is the initial
configuration with the initial cost or an accepted result of the run with its cost. -/
theorem sa_best_le_current (usingServer : Bool)
    (checkpoint : Autotune.Config → Option String) :
    (∀ (st : Autotune.SAState) (results : List Autotune.SAResult),
      st.bestCost ≤ st.cost →
      ((Primary.saScan st results).bestCost ≤ (Primary.saScan st results).cost ∧
      (((Primary.saScan st results).bestConfig = st.bestConfig ∧ (Primary.saScan st results).bestCost = st.bestCost) ∨
        ∃ r ∈ results, r.accepted = true ∧ r.config = (Primary.saScan st results).bestConfig ∧
          r.cost = (Primary.saScan st results).bestCost) ∧
      (((Primary.saScan st results).config = st.config ∧ (Primary.saScan st results).cost = st.cost) ∨
        ∃ r ∈ results, r.accepted = true ∧ r.config = (Primary.saScan st results).config ∧
          r.cost = (Primary.saScan st results).cost)) ∧
      ((Secondary.saScan usingServer checkpoint st results).bestCost ≤ (Secondary.saScan usingServer checkpoint st results).cost ∧
      (((Secondary.saScan usingServer checkpoint st results).bestConfig = st.bestConfig ∧ (Secondary.saScan usingServer checkpoint st results).bestCost = st.bestCost) ∨
        ∃ r ∈ results, r.accepted = true ∧ r.config = (Secondary.saScan usingServer checkpoint st results).bestConfig ∧
          r.cost = (Secondary.saScan usingServer checkpoint st results).bestCost) ∧
      (((Secondary.saScan usingServer checkpoint st results).config = st.config ∧ (Secondary.saScan usingServer checkpoint st results).cost = st.cost) ∨
        ((Secondary.saScan usingServer checkpoint st results).config = st.bestConfig ∧ (Secondary.saScan usingServer checkpoint st results).cost = st.bestCost) ∨
        ∃ r ∈ results, r.accepted = true ∧ r.config = (Secondary.saScan usingServer checkpoint st results).config ∧
          r.cost = (Secondary.saScan usingServer checkpoint st results).cost))) ∧
    (∀ (config : Autotune.Config) (cost : Int) (batches : List (List Autotune.SAResult)),
      ((Primary.saIterate (Autotune.saInit config cost) batches).bestCost
          ≤ (Primary.saIterate (Autotune.saInit config cost) batches).cost ∧
        Autotune.Evaluated config cost batches
          (Primary.saIterate (Autotune.saInit config cost) batches).bestConfig
          (Primary.saIterate (Autotune.saInit config cost) batches).bestCost ∧
        Autotune.Evaluated config cost batches
          (Primary.saIterate (Autotune.saInit config cost) batches).config
          (Primary.saIterate (Autotune.saInit config cost) batches).cost) ∧
      ((Secondary.saIterate usingServer checkpoint (Autotune.saInit config cost)
            batches).bestCost
          ≤ (Secondary.saIterate usingServer checkpoint (Autotune.saInit config cost)
            batches).cost ∧
        Autotune.Evaluated config cost batches
          (Secondary.saIterate usingServer checkpoint (Autotune.saInit config cost)
            batches).bestConfig
          (Secondary.saIterate usingServer checkpoint (Autotune.saInit config cost)
            batches).bestCost ∧
        Autotune.Evaluated config cost batches
          (Secondary.saIterate usingServer checkpoint (Autotune.saInit config cost)
            batches).config
          (Secondary.saIterate usingServer checkpoint (Autotune.saInit config cost)
            batches).cost)) := by
  constructor
  · intro st results h
    exact ⟨Primary.saScan_inv results st h,
      Secondary.saScan_inv_replay usingServer checkpoint results st h⟩
  · intro config cost batches
    obtain ⟨p1, p2, p3⟩ :=
      Primary.saIterate_inv batches (Autotune.saInit config cost) (le_refl _)
    obtain ⟨s1, s2, s3⟩ := Secondary.saIterate_inv_replay usingServer checkpoint batches
      (Autotune.saInit config cost) (le_refl _)
    exact ⟨⟨p1, p2, p3⟩, s1, s2, s3.elim id id⟩

/-- C8, at a state with best cost 5 and current cost 9 and one accepted proposal of cost 3,
whose checkpoint run fails: the first version adopts the proposal as current and best with
the cost 3, the replay version rolls the current configuration back to the best one with
its cost 5. -/
theorem sa_best_le_current_witness :
    (5 : Int) ≤ 9 ∧
    ((Primary.saScan (⟨⟨⟨0, 0, 0, 0⟩, 325⟩, 9, ⟨⟨0, 0, 0, 0⟩, 275⟩, 5, 0⟩ : Autotune.SAState) ([⟨⟨⟨1, 0, 0, 0⟩, 375⟩, true, 0, 3⟩] : List Autotune.SAResult)).bestCost ≤ (Primary.saScan (⟨⟨⟨0, 0, 0, 0⟩, 325⟩, 9, ⟨⟨0, 0, 0, 0⟩, 275⟩, 5, 0⟩ : Autotune.SAState) ([⟨⟨⟨1, 0, 0, 0⟩, 375⟩, true, 0, 3⟩] : List Autotune.SAResult)).cost ∧
      (((Primary.saScan (⟨⟨⟨0, 0, 0, 0⟩, 325⟩, 9, ⟨⟨0, 0, 0, 0⟩, 275⟩, 5, 0⟩ : Autotune.SAState) ([⟨⟨⟨1, 0, 0, 0⟩, 375⟩, true, 0, 3⟩] : List Autotune.SAResult)).bestConfig = (⟨⟨⟨0, 0, 0, 0⟩, 325⟩, 9, ⟨⟨0, 0, 0, 0⟩, 275⟩, 5, 0⟩ : Autotune.SAState).bestConfig ∧ (Primary.saScan (⟨⟨⟨0, 0, 0, 0⟩, 325⟩, 9, ⟨⟨0, 0, 0, 0⟩, 275⟩, 5, 0⟩ : Autotune.SAState) ([⟨⟨⟨1, 0, 0, 0⟩, 375⟩, true, 0, 3⟩] : List Autotune.SAResult)).bestCost = (⟨⟨⟨0, 0, 0, 0⟩, 325⟩, 9, ⟨⟨0, 0, 0, 0⟩, 275⟩, 5, 0⟩ : Autotune.SAState).bestCost) ∨
        ∃ r ∈ ([⟨⟨⟨1, 0, 0, 0⟩, 375⟩, true, 0, 3⟩] : List Autotune.SAResult), r.accepted = true ∧ r.config = (Primary.saScan (⟨⟨⟨0, 0, 0, 0⟩, 325⟩, 9, ⟨⟨0, 0, 0, 0⟩, 275⟩, 5, 0⟩ : Autotune.SAState) ([⟨⟨⟨1, 0, 0, 0⟩, 375⟩, true, 0, 3⟩] : List Autotune.SAResult)).bestConfig ∧
          r.cost = (Primary.saScan (⟨⟨⟨0, 0, 0, 0⟩, 325⟩, 9, ⟨⟨0, 0, 0, 0⟩, 275⟩, 5, 0⟩ : Autotune.SAState) ([⟨⟨⟨1, 0, 0, 0⟩, 375⟩, true, 0, 3⟩] : List Autotune.SAResult)).bestCost) ∧
      (((Primary.saScan (⟨⟨⟨0, 0, 0, 0⟩, 325⟩, 9, ⟨⟨0, 0, 0, 0⟩, 275⟩, 5, 0⟩ : Autotune.SAState) ([⟨⟨⟨1, 0, 0, 0⟩, 375⟩, true, 0, 3⟩] : List Autotune.SAResult)).config = (⟨⟨⟨0, 0, 0, 0⟩, 325⟩, 9, ⟨⟨0, 0, 0, 0⟩, 275⟩, 5, 0⟩ : Autotune.SAState).config ∧ (Primary.saScan (⟨⟨⟨0, 0, 0, 0⟩, 325⟩, 9, ⟨⟨0, 0, 0, 0⟩, 275⟩, 5, 0⟩ : Autotune.SAState) ([⟨⟨⟨1, 0, 0, 0⟩, 375⟩, true, 0, 3⟩] : List Autotune.SAResult)).cost = (⟨⟨⟨0, 0, 0, 0⟩, 325⟩, 9, ⟨⟨0, 0, 0, 0⟩, 275⟩, 5, 0⟩ : Autotune.SAState).cost) ∨
        ∃ r ∈ ([⟨⟨⟨1, 0, 0, 0⟩, 375⟩, true, 0, 3⟩] : List Autotune.SAResult), r.accepted = true ∧ r.config = (Primary.saScan (⟨⟨⟨0, 0, 0, 0⟩, 325⟩, 9, ⟨⟨0, 0, 0, 0⟩, 275⟩, 5, 0⟩ : Autotune.SAState) ([⟨⟨⟨1, 0, 0, 0⟩, 375⟩, true, 0, 3⟩] : List Autotune.SAResult)).config ∧
          r.cost = (Primary.saScan (⟨⟨⟨0, 0, 0, 0⟩, 325⟩, 9, ⟨⟨0, 0, 0, 0⟩, 275⟩, 5, 0⟩ : Autotune.SAState) ([⟨⟨⟨1, 0, 0, 0⟩, 375⟩, true, 0, 3⟩] : List Autotune.SAResult)).cost)) ∧
    ((Secondary.saScan true (fun _ => some "llc crash") (⟨⟨⟨0, 0, 0, 0⟩, 325⟩, 9, ⟨⟨0, 0, 0, 0⟩, 275⟩, 5, 0⟩ : Autotune.SAState) ([⟨⟨⟨1, 0, 0, 0⟩, 375⟩, true, 0, 3⟩] : List Autotune.SAResult)).bestCost ≤ (Secondary.saScan true (fun _ => some "llc crash") (⟨⟨⟨0, 0, 0, 0⟩, 325⟩, 9, ⟨⟨0, 0, 0, 0⟩, 275⟩, 5, 0⟩ : Autotune.SAState) ([⟨⟨⟨1, 0, 0, 0⟩, 375⟩, true, 0, 3⟩] : List Autotune.SAResult)).cost ∧
      (((Secondary.saScan true (fun _ => some "llc crash") (⟨⟨⟨0, 0, 0, 0⟩, 325⟩, 9, ⟨⟨0, 0, 0, 0⟩, 275⟩, 5, 0⟩ : Autotune.SAState) ([⟨⟨⟨1, 0, 0, 0⟩, 375⟩, true, 0, 3⟩] : List Autotune.SAResult)).bestConfig = (⟨⟨⟨0, 0, 0, 0⟩, 325⟩, 9, ⟨⟨0, 0, 0, 0⟩, 275⟩, 5, 0⟩ : Autotune.SAState).bestConfig ∧ (Secondary.saScan true (fun _ => some "llc crash") (⟨⟨⟨0, 0, 0, 0⟩, 325⟩, 9, ⟨⟨0, 0, 0, 0⟩, 275⟩, 5, 0⟩ : Autotune.SAState) ([⟨⟨⟨1, 0, 0, 0⟩, 375⟩, true, 0, 3⟩] : List Autotune.SAResult)).bestCost = (⟨⟨⟨0, 0, 0, 0⟩, 325⟩, 9, ⟨⟨0, 0, 0, 0⟩, 275⟩, 5, 0⟩ : Autotune.SAState).bestCost) ∨
        ∃ r ∈ ([⟨⟨⟨1, 0, 0, 0⟩, 375⟩, true, 0, 3⟩] : List Autotune.SAResult), r.accepted = true ∧ r.config = (Secondary.saScan true (fun _ => some "llc crash") (⟨⟨⟨0, 0, 0, 0⟩, 325⟩, 9, ⟨⟨0, 0, 0, 0⟩, 275⟩, 5, 0⟩ : Autotune.SAState) ([⟨⟨⟨1, 0, 0, 0⟩, 375⟩, true, 0, 3⟩] : List Autotune.SAResult)).bestConfig ∧
          r.cost = (Secondary.saScan true (fun _ => some "llc crash") (⟨⟨⟨0, 0, 0, 0⟩, 325⟩, 9, ⟨⟨0, 0, 0, 0⟩, 275⟩, 5, 0⟩ : Autotune.SAState) ([⟨⟨⟨1, 0, 0, 0⟩, 375⟩, true, 0, 3⟩] : List Autotune.SAResult)).bestCost) ∧
      (((Secondary.saScan true (fun _ => some "llc crash") (⟨⟨⟨0, 0, 0, 0⟩, 325⟩, 9, ⟨⟨0, 0, 0, 0⟩, 275⟩, 5, 0⟩ : Autotune.SAState) ([⟨⟨⟨1, 0, 0, 0⟩, 375⟩, true, 0, 3⟩] : List Autotune.SAResult)).config = (⟨⟨⟨0, 0, 0, 0⟩, 325⟩, 9, ⟨⟨0, 0, 0, 0⟩, 275⟩, 5, 0⟩ : Autotune.SAState).config ∧ (Secondary.saScan true (fun _ => some "llc crash") (⟨⟨⟨0, 0, 0, 0⟩, 325⟩, 9, ⟨⟨0, 0, 0, 0⟩, 275⟩, 5, 0⟩ : Autotune.SAState) ([⟨⟨⟨1, 0, 0, 0⟩, 375⟩, true, 0, 3⟩] : List Autotune.SAResult)).cost = (⟨⟨⟨0, 0, 0, 0⟩, 325⟩, 9, ⟨⟨0, 0, 0, 0⟩, 275⟩, 5, 0⟩ : Autotune.SAState).cost) ∨
        ((Secondary.saScan true (fun _ => some "llc crash") (⟨⟨⟨0, 0, 0, 0⟩, 325⟩, 9, ⟨⟨0, 0, 0, 0⟩, 275⟩, 5, 0⟩ : Autotune.SAState) ([⟨⟨⟨1, 0, 0, 0⟩, 375⟩, true, 0, 3⟩] : List Autotune.SAResult)).config = (⟨⟨⟨0, 0, 0, 0⟩, 325⟩, 9, ⟨⟨0, 0, 0, 0⟩, 275⟩, 5, 0⟩ : Autotune.SAState).bestConfig ∧ (Secondary.saScan true (fun _ => some "llc crash") (⟨⟨⟨0, 0, 0, 0⟩, 325⟩, 9, ⟨⟨0, 0, 0, 0⟩, 275⟩, 5, 0⟩ : Autotune.SAState) ([⟨⟨⟨1, 0, 0, 0⟩, 375⟩, true, 0, 3⟩] : List Autotune.SAResult)).cost = (⟨⟨⟨0, 0, 0, 0⟩, 325⟩, 9, ⟨⟨0, 0, 0, 0⟩, 275⟩, 5, 0⟩ : Autotune.SAState).bestCost) ∨
        ∃ r ∈ ([⟨⟨⟨1, 0, 0, 0⟩, 375⟩, true, 0, 3⟩] : List Autotune.SAResult), r.accepted = true ∧ r.config = (Secondary.saScan true (fun _ => some "llc crash") (⟨⟨⟨0, 0, 0, 0⟩, 325⟩, 9, ⟨⟨0, 0, 0, 0⟩, 275⟩, 5, 0⟩ : Autotune.SAState) ([⟨⟨⟨1, 0, 0, 0⟩, 375⟩, true, 0, 3⟩] : List Autotune.SAResult)).config ∧
          r.cost = (Secondary.saScan true (fun _ => some "llc crash") (⟨⟨⟨0, 0, 0, 0⟩, 325⟩, 9, ⟨⟨0, 0, 0, 0⟩, 275⟩, 5, 0⟩ : Autotune.SAState) ([⟨⟨⟨1, 0, 0, 0⟩, 375⟩, true, 0, 3⟩] : List Autotune.SAResult)).cost)) :=
  ⟨by decide,
    (sa_best_le_current true (fun _ => some "llc crash")).1
      ⟨⟨⟨0, 0, 0, 0⟩, 325⟩, 9, ⟨⟨0, 0, 0, 0⟩, 275⟩, 5, 0⟩
      [⟨⟨⟨1, 0, 0, 0⟩, 375⟩, true, 0, 3⟩] (by decide)⟩

namespace Autotune

theorem log2_maxElapsed : Int.log 2 (((2 : ℚ) ^ 63 - 1)) = 62 := by
  have h2 : ((2 : ℚ) ^ 63 - 1) = ((9223372036854775807 : ℕ) : ℚ) := by norm_num
  rw [h2, Int.log_natCast]
  have : Nat.log 2 9223372036854775807 = 62 := by
    rw [Nat.log_eq_iff (by decide)]
    constructor <;> norm_num
  rw [this]
  rfl

/-- The conversion `float64(maxElapsed)` rounds `2 ^ 63 - 1` up to `2 ^ 63`. -/
theorem round64_maxElapsed : round64 ((maxElapsed : Int) : ℚ) = 2 ^ 63 := by
  have hq : ((maxElapsed : Int) : ℚ) = (2 : ℚ) ^ 63 - 1 := by
    unfold maxElapsed; push_cast; ring
  rw [hq]
  unfold round64
  have habs : |(2 : ℚ) ^ 63 - 1| = 2 ^ 63 - 1 := abs_of_pos (by norm_num)
  rw [if_neg (by norm_num), habs, log2_maxElapsed]
  have he : max ((62 : ℤ) - 52) (-1074) = 10 := by decide
  simp only [he]
  have hfl : ⌊((2 : ℚ) ^ 63 - 1) / 2 ^ (10 : ℤ)⌋ = 2 ^ 53 - 1 := by
    rw [Int.floor_eq_iff]
    constructor <;> norm_num
  unfold roundHalfEven
  simp only [hfl]
  norm_num

theorem F64.ofRat_zero : F64.ofRat 0 = F64.fin 0 := by
  have h : round64 0 = 0 := by simp [round64]
  unfold F64.ofRat
  rw [h, if_neg (by norm_num), if_neg (by norm_num)]

theorem F64.ofInt_maxElapsed : F64.ofInt maxElapsed = F64.fin (2 ^ 63) := by
  unfold F64.ofInt F64.ofRat
  rw [round64_maxElapsed, if_neg (by norm_num), if_neg (by norm_num)]

end Autotune

namespace Autotune

theorem int64_sub_self (x : Int) : int64 (x - x) = 0 := by
  rw [sub_self]; unfold int64; norm_num

theorem F64.ofInt_zero : F64.ofInt 0 = F64.fin 0 := by
  unfold F64.ofInt
  rw [Int.cast_zero, F64.ofRat_zero]

/-- Zero divided by a finite non-zero `float64` is zero. -/
theorem F64.div_of_zero (b : ℚ) (hb : b ≠ 0) : (F64.fin 0).div (F64.fin b) = F64.fin 0 := by
  simp only [F64.div]
  rw [if_neg hb, zero_div, F64.ofRat_zero]

/-- Zero times a finite `float64` is zero. -/
theorem F64.mul_of_zero (b : ℚ) : (F64.fin 0).mul (F64.fin b) = F64.fin 0 := by
  simp only [F64.mul]
  rw [zero_mul, F64.ofRat_zero]

theorem mathExp_fin (exp : ℚ → F64) (q : ℚ) : mathExp exp (F64.fin q) = exp q := rfl

end Autotune

/-- C9: a failed candidate against a failed current configuration. With
`oldCost = newCost = maxElapsed` and the temperature `T_MAX = 1.5`, `getAcceptanceProb` of
`src/autotune.go` computes `diff = 0` and returns `math.Exp(0)`, which is 1, so the
candidate is accepted under every draw; `getAcceptanceProb` of `src/src/autotune.go`
returns 0 for a failed candidate, whatever the current cost and the temperature. -/
theorem getAcceptanceProb_failed_candidate (exp : ℚ → Autotune.F64) :
    Primary.getAcceptanceProb exp Autotune.maxElapsed Autotune.maxElapsed
        (Autotune.F64.fin (3 / 2)) = exp 0 ∧
    ∀ (oldCost : Int) (t : Autotune.F64),
      Secondary.getAcceptanceProb exp oldCost Autotune.maxElapsed t = Autotune.F64.fin 0 := by
  constructor
  · unfold Primary.getAcceptanceProb
    rw [if_neg (lt_irrefl _)]
    simp only [Autotune.int64_sub_self, Autotune.F64.ofInt_zero,
      Autotune.F64.ofInt_maxElapsed]
    rw [Autotune.F64.div_of_zero _ (by norm_num), Autotune.F64.mul_of_zero,
      Autotune.F64.div_of_zero _ (by norm_num)]
    exact Autotune.mathExp_fin exp 0
  · intro oldCost t
    unfold Secondary.getAcceptanceProb
    rw [if_pos rfl]

/-- C10: six successful samples of 10 each, and six distinct samples. `runInvo` sums
`stat[1:n]`, the five largest samples, and divides by `n - 2 = 4`: it returns 12 for six
samples of 10 (their mean is 10), and 8 for the samples 7, 3, 9, 1, 5, 11 (the mean of the
four central ones, 3, 5, 7, 9, is 6). -/
theorem runInvo_sums_five_samples :
    Secondary.runInvo (fun _ => Secondary.Reply.response 1 10 "") = (12, none) ∧
    Secondary.runInvo (fun i => Secondary.Reply.response 1 ([7, 3, 9, 1, 5, 11].getD i 0) "")
      = (8, none) := by
  constructor <;> decide

/-- C15: the results with elapsed times 1, 2, 9. `avg` sorts and keeps
`results[1:len(results)]`, that is 2 and 9: it returns `(2 + 9) / 2 = 5`, while the value
left after removing the fastest and the slowest result is 2. With ten results 1, ..., 10 it
returns `54 / 9 = 6`, while the mean of 2, ..., 9 is 5. -/
theorem avg_keeps_slowest :
    Primary.avg [⟨.o3, 1⟩, ⟨.o3, 2⟩, ⟨.o3, 9⟩] = some 5 ∧
    Primary.avg [⟨.o3, 3⟩, ⟨.o3, 1⟩, ⟨.o3, 10⟩, ⟨.o3, 2⟩, ⟨.o3, 5⟩, ⟨.o3, 4⟩, ⟨.o3, 7⟩,
      ⟨.o3, 6⟩, ⟨.o3, 9⟩, ⟨.o3, 8⟩] = some 6 := by
  constructor <;> decide

/-- C16: the results with elapsed times 1, 2, 9. The mean of all values except the largest
is `(1 + 2) / 2 = 1`; `avg` returns `(2 + 9) / 2 = 5`, since `results[1:len(results)]`
keeps the largest value, which the comment of `avg` (`discard the best and worst result`)
says is discarded as well. -/
theorem avg_not_drop_maximum :
    Primary.avg [⟨.o3, 1⟩, ⟨.o3, 2⟩, ⟨.o3, 9⟩] = some 5 ∧
    Int.tdiv (1 + 2) 2 = 1 ∧ Int.tdiv (2 + 9) 2 = 5 := by
  decide

namespace Primary
open Autotune

/-- Adding up non-negative elapsed times whose sum fits in 64 bits never wraps. -/
theorem foldl_elapsed_eq_sum : ∀ (l : List Result) (acc : Int), 0 ≤ acc →
    (∀ r ∈ l, 0 ≤ r.elapsed) → acc + (l.map (fun r => r.elapsed)).sum ≤ 2 ^ 63 - 1 →
    l.foldl (fun total r => int64 (total + r.elapsed)) acc
      = acc + (l.map (fun r => r.elapsed)).sum := by
  intro l
  induction l with
  | nil => intro acc _ _ _; simp
  | cons r rs ih =>
    intro acc hacc hnn hsum
    have hr : 0 ≤ r.elapsed := hnn r (List.mem_cons_self _ _)
    have hrs : ∀ x ∈ rs, 0 ≤ x.elapsed := fun x hx => hnn x (List.mem_cons_of_mem _ hx)
    have hrest : 0 ≤ (rs.map (fun r => r.elapsed)).sum :=
      List.sum_nonneg (by
        intro x hx
        obtain ⟨y, hy, rfl⟩ := List.mem_map.mp hx
        exact hrs y hy)
    simp only [List.map_cons, List.sum_cons] at hsum
    have hw : int64 (acc + r.elapsed) = acc + r.elapsed :=
      int64_eq_self _ ⟨by omega, by omega⟩
    simp only [List.foldl_cons, List.map_cons, List.sum_cons, hw]
    rw [ih (acc + r.elapsed) (by omega) hrs (by omega)]
    omega

/-- The sorted results start with a result of least elapsed time, and the elapsed times of
the others add up to the total minus that least one. -/
theorem sortByTime_head (results : List Result) (h1 : 1 ≤ results.length) :
    ∃ lo rest, sortByTime results = lo :: rest ∧ lo ∈ results ∧
      (∀ r ∈ results, lo.elapsed ≤ r.elapsed) ∧
      (∀ r ∈ rest, r ∈ results) ∧ rest.length = results.length - 1 ∧
      (rest.map (fun r => r.elapsed)).sum
        = (results.map (fun r => r.elapsed)).sum - lo.elapsed := by
  have hperm : (sortByTime results).Perm results := List.perm_insertionSort _ _
  haveI : IsTotal Result (fun a b => a.elapsed ≤ b.elapsed) :=
    ⟨fun a b => le_total a.elapsed b.elapsed⟩
  haveI : IsTrans Result (fun a b => a.elapsed ≤ b.elapsed) :=
    ⟨fun a b c hab hbc => le_trans hab hbc⟩
  have hsorted : (sortByTime results).Sorted (fun a b => a.elapsed ≤ b.elapsed) :=
    List.sorted_insertionSort _ _
  have hlen : (sortByTime results).length = results.length := hperm.length_eq
  cases hs : sortByTime results with
  | nil => rw [hs] at hlen; simp only [List.length_nil] at hlen; omega
  | cons lo rest =>
    rw [hs] at hperm hsorted hlen
    refine ⟨lo, rest, rfl, hperm.subset (List.mem_cons_self _ _), ?_,
      fun r hr => hperm.subset (List.mem_cons_of_mem _ hr), ?_, ?_⟩
    · intro r hr
      rcases List.mem_cons.mp (hperm.symm.subset hr) with rfl | hmem
      · exact le_refl _
      · exact List.rel_of_sorted_cons hsorted r hmem
    · simp only [List.length_cons] at hlen
      omega
    · have hsum := (hperm.map (fun r => r.elapsed)).sum_eq
      simp only [List.map_cons, List.sum_cons] at hsum
      omega

end Primary

/-- What `avg` computes as it stands: for every list of at least two results with
non-negative elapsed times whose sum fits in 64 bits, the integer-truncated mean of all
elapsed values except a single smallest one. The largest value stays in the sum, against
the comment `discard the best and worst result`. -/
theorem avg_drops_minimum (results : List Primary.Result) (h2 : 2 ≤ results.length)
    (hnn : ∀ r ∈ results, 0 ≤ r.elapsed)
    (hsum : (results.map (fun r => r.elapsed)).sum ≤ 2 ^ 63 - 1) :
    ∃ lo ∈ results, (∀ r ∈ results, lo.elapsed ≤ r.elapsed) ∧
      Primary.avg results
        = some (Int.tdiv ((results.map (fun r => r.elapsed)).sum - lo.elapsed)
            ((results.length : Int) - 1)) := by
  obtain ⟨lo, rest, hs, hlo, hmin, hrest, hlen, hrsum⟩ :=
    Primary.sortByTime_head results (by omega)
  have hlo0 : 0 ≤ lo.elapsed := hnn lo hlo
  have hfold := Primary.foldl_elapsed_eq_sum rest 0 (le_refl _)
    (fun r hr => hnn r (hrest r hr)) (by rw [hrsum]; omega)
  refine ⟨lo, hlo, hmin, ?_⟩
  unfold Primary.avg
  rw [if_neg (by omega)]
  simp only [hs, List.drop_succ_cons, List.drop_zero, hfold, hrsum, zero_add, hlen]
  rw [if_neg (by omega)]
  congr 2
  omega

/-- The value of `avg` at the elapsed times 3, 1, 2. -/
theorem avg_drops_minimum_witness :
    ∃ lo ∈ [(⟨.o3, 3⟩ : Primary.Result), ⟨.o3, 1⟩, ⟨.o3, 2⟩],
      (∀ r ∈ [(⟨.o3, 3⟩ : Primary.Result), ⟨.o3, 1⟩, ⟨.o3, 2⟩], lo.elapsed ≤ r.elapsed) ∧
      Primary.avg [⟨.o3, 3⟩, ⟨.o3, 1⟩, ⟨.o3, 2⟩]
        = some (Int.tdiv
            (([(⟨.o3, 3⟩ : Primary.Result), ⟨.o3, 1⟩, ⟨.o3, 2⟩].map
              (fun r => r.elapsed)).sum - lo.elapsed)
            ((([(⟨.o3, 3⟩ : Primary.Result), ⟨.o3, 1⟩, ⟨.o3, 2⟩].length : Nat) : Int) - 1)) :=
  avg_drops_minimum [⟨.o3, 3⟩, ⟨.o3, 1⟩, ⟨.o3, 2⟩] (by decide) (by decide) (by decide)

namespace Autotune

/-- An integer is its own nearest integer. -/
theorem roundHalfEven_intCast (z : ℤ) : roundHalfEven (z : ℚ) = z := by
  unfold roundHalfEven
  simp only [Int.floor_intCast, sub_self]
  rw [if_pos (by norm_num)]

/-- An integer of absolute value below `2 ^ 53` is a `float64`. -/
theorem round64_intCast (n : ℤ) (h : |n| < 2 ^ 53) : round64 (n : ℚ) = n := by
  by_cases h0 : n = 0
  · subst h0
    simp [round64]
  · have hq0 : (n : ℚ) ≠ 0 := by exact_mod_cast h0
    have hpos : (0 : ℚ) < |(n : ℚ)| := abs_pos.mpr hq0
    have h1 : (1 : ℚ) ≤ |(n : ℚ)| := by
      have : (1 : ℤ) ≤ |n| := Int.one_le_abs h0
      exact_mod_cast this
    have hlt : |(n : ℚ)| < ((2 : ℕ) : ℚ) ^ (53 : ℤ) := by
      have h53 : ((|n| : ℤ) : ℚ) < ((2 ^ 53 : ℤ) : ℚ) := by exact_mod_cast h
      rw [Int.cast_abs] at h53
      calc |(n : ℚ)| < ((2 ^ 53 : ℤ) : ℚ) := h53
        _ = ((2 : ℕ) : ℚ) ^ (53 : ℤ) := by norm_num
    have hlog_lt : Int.log 2 |(n : ℚ)| < 53 :=
      (Int.lt_zpow_iff_log_lt (by decide) hpos).mp hlt
    have hlog_ge : 0 ≤ Int.log 2 |(n : ℚ)| :=
      (Int.zpow_le_iff_le_log (by decide) hpos).mp (by simpa using h1)
    obtain ⟨k, hk⟩ : ∃ k : ℕ, (k : ℤ) = 52 - Int.log 2 |(n : ℚ)| :=
      ⟨(52 - Int.log 2 |(n : ℚ)|).toNat, Int.toNat_of_nonneg (by omega)⟩
    have he : max (Int.log 2 |(n : ℚ)| - 52) (-1074) = -(k : ℤ) := by
      rw [hk, max_eq_left (by omega)]
      ring
    unfold round64
    rw [if_neg hq0]
    simp only [he, zpow_neg, zpow_natCast]
    have hdiv : (n : ℚ) / ((2 : ℚ) ^ k)⁻¹ = ((n * 2 ^ k : ℤ) : ℚ) := by
      push_cast
      rw [div_inv_eq_mul]
    rw [hdiv, roundHalfEven_intCast]
    push_cast
    have h2k : ((2 : ℚ) ^ k) ≠ 0 := pow_ne_zero _ (by norm_num)
    field_simp

/-- The conversion `float64(x)` of an integer of absolute value below `2 ^ 53` is exact. -/
theorem F64.ofInt_small (n : ℤ) (h : |n| < 2 ^ 53) : F64.ofInt n = F64.fin n := by
  unfold F64.ofInt F64.ofRat
  rw [round64_intCast n h]
  have hlt : ((n : ℚ)) < 2 ^ 1024 := by
    have h1 : n < 2 ^ 53 := lt_of_le_of_lt (le_abs_self n) h
    have h2 : ((n : ℤ) : ℚ) < ((2 ^ 53 : ℤ) : ℚ) := by exact_mod_cast h1
    calc (n : ℚ) < ((2 ^ 53 : ℤ) : ℚ) := h2
      _ ≤ 2 ^ 1024 := by norm_num
  have hgt : -(2 : ℚ) ^ 1024 < (n : ℚ) := by
    have h1 : -(2 ^ 53) < n := by
      have := neg_abs_le n
      omega
    have h2 : ((-(2 ^ 53) : ℤ) : ℚ) < ((n : ℤ) : ℚ) := by exact_mod_cast h1
    calc -(2 : ℚ) ^ 1024 ≤ ((-(2 ^ 53) : ℤ) : ℚ) := by norm_num
      _ < (n : ℚ) := h2
  rw [if_neg (not_le.mpr hlt), if_neg (not_le.mpr hgt)]

end Autotune

/-- C11: two replay workers with weights 1.0 and 2.0 whose every request succeeds and
reports 10, respectively 20. `runInvo` returns `50 / 4 = 12` and `100 / 4 = 25` for them
(it sums five samples and divides by four), so `runAllInvos` returns
`12 * 1 + 25 * 2 = 62`, while the weighted sum of the reported times is 50. -/
theorem runAllInvos_two_workers :
    Secondary.runAllInvos
      (fun i _ => Secondary.Reply.response 1 (if i = 0 then 10 else 20) "")
      [Autotune.F64.fin 1, Autotune.F64.fin 2] ["worker0.sock", "worker1.sock"]
      = some (62, none) := by
  have r0 : Secondary.runInvo (fun _ => Secondary.Reply.response 1
      10 "") = (12, none) := by decide
  have r1 : Secondary.runInvo (fun _ => Secondary.Reply.response 1
      20 "") = (25, none) := by decide
  have m0 : (Autotune.F64.ofInt 12).mul (Autotune.F64.fin 1) = Autotune.F64.fin 12 := by
    rw [Autotune.F64.ofInt_small 12 (by decide)]
    simp only [Autotune.F64.mul]
    have h : ((12 : ℤ) : ℚ) * 1 = ((12 : ℤ) : ℚ) := by norm_num
    rw [h]
    exact Autotune.F64.ofInt_small 12 (by decide)
  have m1 : (Autotune.F64.ofInt 25).mul (Autotune.F64.fin 2) = Autotune.F64.fin 50 := by
    rw [Autotune.F64.ofInt_small 25 (by decide)]
    simp only [Autotune.F64.mul]
    have h : ((25 : ℤ) : ℚ) * 2 = ((50 : ℤ) : ℚ) := by norm_num
    rw [h]
    have := Autotune.F64.ofInt_small 50 (by decide)
    simpa [Autotune.F64.ofInt] using this
  have d0 : Secondary.durationOfF64 (Autotune.F64.fin 12) = 12 := by decide
  have d1 : Secondary.durationOfF64 (Autotune.F64.fin 50) = 50 := by decide
  have w0 : Autotune.int64 (0 + 12) = 12 := by decide
  have w1 : Autotune.int64 (12 + 50) = 62 := by decide
  simp only [Secondary.runAllInvos, Secondary.runAllInvosLoop, List.getElem?_cons_zero,
    List.getElem?_cons_succ, Nat.zero_add, one_ne_zero, if_true, if_false, r0, m0, d0, w0,
    r1, m1, d1, w1]

namespace Autotune

theorem lexRun_append (st : LexState) (s t : List Nat) :
    lexRun st (s ++ t) = lexRun (lexRun st s) t := by
  simp only [lexRun, List.foldl_append]

theorem lexRun_cons (st : LexState) (c : Nat) (s : List Nat) :
    lexRun st (c :: s) = lexRun (lexStep st c) s := rfl

theorem lexRun_nil (st : LexState) : lexRun st [] = st := rfl

/-- Arguments gathered earlier stay in front: the scan does not read `args`. -/
theorem lexStep_prepend (A : List (List Nat)) (st : LexState) (c : Nat) :
    lexStep ⟨A ++ st.args, st.intok, st.tok, st.mode⟩ c =
      ⟨A ++ (lexStep st c).args, (lexStep st c).intok, (lexStep st c).tok,
        (lexStep st c).mode⟩ := by
  obtain ⟨args, intok, tok, mode⟩ := st
  cases mode <;> simp only [lexStep, LexState.grow] <;> split_ifs <;>
    simp only [List.append_assoc]

theorem lexRun_prepend (A : List (List Nat)) (s : List Nat) (st : LexState) :
    lexRun ⟨A ++ st.args, st.intok, st.tok, st.mode⟩ s =
      ⟨A ++ (lexRun st s).args, (lexRun st s).intok, (lexRun st s).tok,
        (lexRun st s).mode⟩ := by
  induction s generalizing st with
  | nil => rfl
  | cons c s ih =>
    rw [lexRun_cons, lexRun_cons, lexStep_prepend, ih]

/-- From between two tokens, the rest of the input is scanned as if it stood alone. -/
theorem lexRun_between (A : List (List Nat)) (s : List Nat) :
    lexRun ⟨A, false, [], LexMode.normal⟩ s =
      ⟨A ++ (lexRun lexInit s).args, (lexRun lexInit s).intok, (lexRun lexInit s).tok,
        (lexRun lexInit s).mode⟩ := by
  have h := lexRun_prepend A s lexInit
  simpa only [lexInit, List.append_nil] using h

/-- Inside a token, plain bytes extend the token. -/
theorem lexRun_word_tail (A : List (List Nat)) (w t : List Nat)
    (hw : ∀ c ∈ w, isWordByte c = true) :
    lexRun ⟨A, true, t, LexMode.normal⟩ w = ⟨A, true, t ++ w, LexMode.normal⟩ := by
  induction w generalizing t with
  | nil => simp only [lexRun_nil, List.append_nil]
  | cons c w ih =>
    have hc := hw c (List.mem_cons_self c w)
    simp only [isWordByte, Bool.and_eq_true, Bool.not_eq_true', bne_iff_ne, ne_eq] at hc
    obtain ⟨⟨⟨h1, h2⟩, h3⟩, _⟩ := hc
    have hstep : lexStep ⟨A, true, t, LexMode.normal⟩ c = ⟨A, true, t ++ [c], LexMode.normal⟩ := by
      simp only [lexStep, h1, h2, h3, or_self, if_false, if_true, Bool.false_eq_true]
    rw [lexRun_cons, hstep, ih (t ++ [c]) (fun d hd => hw d (List.mem_cons_of_mem c hd)),
      List.append_assoc, List.singleton_append]

/-- Between two tokens, a word of plain bytes opens a token that holds the word. -/
theorem lexRun_word (A : List (List Nat)) (w : List Nat) (hne : w ≠ [])
    (hw : ∀ c ∈ w, isWordByte c = true) :
    lexRun ⟨A, false, [], LexMode.normal⟩ w = ⟨A, true, w, LexMode.normal⟩ := by
  cases w with
  | nil => exact absurd rfl hne
  | cons c w =>
    have hc := hw c (List.mem_cons_self c w)
    simp only [isWordByte, Bool.and_eq_true, Bool.not_eq_true', bne_iff_ne, ne_eq] at hc
    obtain ⟨⟨⟨h1, h2⟩, h3⟩, _⟩ := hc
    have hstep : lexStep ⟨A, false, [], LexMode.normal⟩ c = ⟨A, true, [c], LexMode.normal⟩ := by
      simp only [lexStep, h1, h2, h3, or_self, if_false, Bool.false_eq_true]
    rw [lexRun_cons, hstep, lexRun_word_tail A w [c]
      (fun d hd => hw d (List.mem_cons_of_mem c hd)), List.singleton_append]

/-- Between two tokens, white space changes nothing. -/
theorem lexRun_spaces (A : List (List Nat)) (sp : List Nat)
    (hsp : ∀ c ∈ sp, unicodeIsSpace c = true) :
    lexRun ⟨A, false, [], LexMode.normal⟩ sp = ⟨A, false, [], LexMode.normal⟩ := by
  induction sp with
  | nil => rfl
  | cons c sp ih =>
    have hc := hsp c (List.mem_cons_self c sp)
    have hstep : lexStep ⟨A, false, [], LexMode.normal⟩ c = ⟨A, false, [], LexMode.normal⟩ := by
      simp only [lexStep, hc, if_true, Bool.false_eq_true, if_false]
    rw [lexRun_cons, hstep, ih (fun d hd => hsp d (List.mem_cons_of_mem c hd))]

/-- White space behind an open token ends it and appends it to the arguments. -/
theorem lexRun_separator (A : List (List Nat)) (t sp : List Nat) (hne : sp ≠ [])
    (hsp : ∀ c ∈ sp, unicodeIsSpace c = true) :
    lexRun ⟨A, true, t, LexMode.normal⟩ sp = ⟨A ++ [t], false, [], LexMode.normal⟩ := by
  cases sp with
  | nil => exact absurd rfl hne
  | cons c sp =>
    have hc := hsp c (List.mem_cons_self c sp)
    have hstep : lexStep ⟨A, true, t, LexMode.normal⟩ c =
        ⟨A ++ [t], false, [], LexMode.normal⟩ := by
      simp only [lexStep, hc, if_true]
    rw [lexRun_cons, hstep, lexRun_spaces _ sp (fun d hd => hsp d (List.mem_cons_of_mem c hd))]

/-- Words that are each followed by white space are appended in order. -/
theorem lexRun_wordsText (ps : List (List Nat × List Nat)) (A : List (List Nat))
    (hw : ∀ p ∈ ps, p.1 ≠ [] ∧ ∀ c ∈ p.1, isWordByte c = true)
    (hs : ∀ p ∈ ps, p.2 ≠ [] ∧ ∀ c ∈ p.2, unicodeIsSpace c = true) :
    lexRun ⟨A, false, [], LexMode.normal⟩ (wordsText ps) =
      ⟨A ++ ps.map Prod.fst, false, [], LexMode.normal⟩ := by
  induction ps generalizing A with
  | nil => simp only [wordsText, lexRun_nil, List.map_nil, List.append_nil]
  | cons p ps ih =>
    have hp := hw p (List.mem_cons_self p ps)
    have hq := hs p (List.mem_cons_self p ps)
    rw [wordsText, lexRun_append, lexRun_append, lexRun_word A p.1 hp.1 hp.2,
      lexRun_separator A p.1 p.2 hq.1 hq.2,
      ih (A ++ [p.1]) (fun r hr => hw r (List.mem_cons_of_mem p hr))
        (fun r hr => hs r (List.mem_cons_of_mem p hr)),
      List.map_cons, List.append_assoc, List.singleton_append]

/-- The scan of words that all end in white space, after optional leading white space:
every word is an argument. -/
theorem lexRun_terminated_words (lead : List Nat) (ps : List (List Nat × List Nat))
    (hl : ∀ c ∈ lead, unicodeIsSpace c = true)
    (hw : ∀ p ∈ ps, p.1 ≠ [] ∧ ∀ c ∈ p.1, isWordByte c = true)
    (hs : ∀ p ∈ ps, p.2 ≠ [] ∧ ∀ c ∈ p.2, unicodeIsSpace c = true) :
    lexRun lexInit (lead ++ wordsText ps) = ⟨ps.map Prod.fst, false, [], LexMode.normal⟩ := by
  rw [lexRun_append, lexInit, lexRun_spaces [] lead hl, lexRun_wordsText ps [] hw hs,
    List.nil_append]

/-- The inner loop over the bytes of a quoted segment gathers them unescaped. -/
theorem lexRun_quoted (quote : Nat) (hq : quote ≠ 92) (A : List (List Nat)) :
    ∀ (n : Nat) (body : List Nat), body.length ≤ n → wellEscaped quote body = true →
      ∀ (quoted : List Nat),
        lexRun ⟨A, false, [], LexMode.quoted quote quoted⟩ body =
          ⟨A, false, [], LexMode.quoted quote (quoted ++ unescape body)⟩ := by
  intro n
  induction n with
  | zero =>
    intro body hlen _ quoted
    have : body = [] := List.length_eq_zero.mp (Nat.le_zero.mp hlen)
    subst this
    simp only [lexRun_nil, unescape, List.append_nil]
  | succ n ih =>
    intro body hlen hwell quoted
    match body, hlen, hwell with
    | [], _, _ => simp only [lexRun_nil, unescape, List.append_nil]
    | [c], _, hwell =>
      simp only [wellEscaped, Bool.and_eq_true, bne_iff_ne, ne_eq] at hwell
      simp only [lexRun_cons, lexRun_nil, lexStep, LexState.grow, hwell.1, hwell.2, if_false,
        unescape, Bool.false_eq_true]
    | c :: d :: rest, hlen, hwell =>
      by_cases hc : c = 92
      · subst hc
        have hne : (92 : Nat) ≠ quote := fun h => hq h.symm
        simp only [wellEscaped, if_true] at hwell
        have hlen2 : rest.length ≤ n := by
          simp only [List.length_cons] at hlen
          omega
        have h := ih rest hlen2 hwell (quoted ++ [d])
        simp only [lexRun_cons, lexStep, LexState.grow, hne, if_false, if_true,
          Bool.false_eq_true, unescape]
        rw [h, List.append_assoc, List.singleton_append]
      · simp only [wellEscaped, hc, if_false, Bool.and_eq_true, bne_iff_ne, ne_eq] at hwell
        have hlen2 : (d :: rest).length ≤ n := by
          simp only [List.length_cons] at hlen ⊢
          omega
        have h := ih (d :: rest) hlen2 hwell.2 (quoted ++ [c])
        rw [lexRun_cons]
        simp only [lexStep, LexState.grow, hwell.1, hc, if_false, Bool.false_eq_true, unescape]
        rw [h, List.append_assoc, List.singleton_append]

end Autotune

/-- C13: a command of plain words, each followed by white space, and one more plain word
at the end of the string. `str2Command` gathers the words before the last one and never
the last one, since a token is appended only at the white space behind it; with a single
word `args` stays empty and `args[0]` panics. The claim expects every word. -/
theorem str2Command_drops_last_word (lead : List Nat) (ps : List (List Nat × List Nat))
    (last : List Nat)
    (hl : ∀ c ∈ lead, Autotune.unicodeIsSpace c = true)
    (hw : ∀ p ∈ ps, p.1 ≠ [] ∧ ∀ c ∈ p.1, Autotune.isWordByte c = true)
    (hs : ∀ p ∈ ps, p.2 ≠ [] ∧ ∀ c ∈ p.2, Autotune.unicodeIsSpace c = true)
    (hne : last ≠ []) (hlast : ∀ c ∈ last, Autotune.isWordByte c = true) :
    Autotune.str2Command (lead ++ Autotune.wordsText ps ++ last) =
      (if ps = [] then none else some (ps.map Prod.fst)) := by
  have hrun : Autotune.lexRun Autotune.lexInit (lead ++ Autotune.wordsText ps ++ last) =
      ⟨ps.map Prod.fst, true, last, Autotune.LexMode.normal⟩ := by
    rw [Autotune.lexRun_append, Autotune.lexRun_terminated_words lead ps hl hw hs,
      Autotune.lexRun_word _ last hne hlast]
  rw [Autotune.str2Command, hrun]
  cases ps with
  | nil => simp only [Autotune.lexArgs, List.map_nil, if_true]
  | cons p ps =>
    simp only [Autotune.lexArgs, List.map_cons, if_false, reduceCtorEq]

/-- The command `ls -l` comes out as the single argument `ls`. -/
theorem str2Command_drops_last_word_witness :
    Autotune.str2Command (Autotune.bytes "ls -l") = some [Autotune.bytes "ls"] ∧
      Autotune.str2Command (Autotune.bytes "ls -l\n")
        = some [Autotune.bytes "ls", Autotune.bytes "-l"] := by
  refine ⟨?_, by decide⟩
  have h := str2Command_drops_last_word [] [(Autotune.bytes "ls", Autotune.bytes " ")]
    (Autotune.bytes "-l") (by decide) (by decide) (by decide) (by decide) (by decide)
  exact h

/-- C14: a segment between two quotes `quote` (single or double), reached between two
tokens behind the white space `ws1` and followed by the white space `ws2`. Whatever
stands before and after, `str2Command` gives the arguments of the text before, then one
argument that holds the bytes between the quotes with each backslash dropped and the
byte after it kept, then the arguments of the text after. -/
theorem str2Command_quoted_segment (pre post body : List Nat) (ws1 ws2 quote : Nat)
    (before : List (List Nat))
    (hquote : quote = 34 ∨ quote = 39)
    (_h1 : Autotune.unicodeIsSpace ws1 = true) (_h2 : Autotune.unicodeIsSpace ws2 = true)
    (hbody : Autotune.wellEscaped quote body = true)
    (hpre : Autotune.lexRun Autotune.lexInit (pre ++ [ws1])
      = ⟨before, false, [], Autotune.LexMode.normal⟩) :
    Autotune.str2Command (pre ++ [ws1] ++ quote :: body ++ quote :: ws2 :: post) =
      (Autotune.lexArgs (Autotune.lexRun Autotune.lexInit post)).map
        (fun after => before ++ Autotune.unescape body :: after) := by
  have hq92 : quote ≠ 92 := by
    rcases hquote with h | h <;> rw [h] <;> decide
  have hnsp : Autotune.unicodeIsSpace quote = false := by
    rcases hquote with h | h <;> rw [h] <;> decide
  have hopen : Autotune.lexStep ⟨before, false, [], Autotune.LexMode.normal⟩ quote =
      ⟨before, false, [], Autotune.LexMode.quoted quote []⟩ := by
    simp only [Autotune.lexStep, Autotune.LexState.grow, hnsp, hquote, if_true, if_false,
      Bool.false_eq_true]
  have hclose : Autotune.lexStep
      ⟨before, false, [], Autotune.LexMode.quoted quote ([] ++ Autotune.unescape body)⟩ quote
      = ⟨before ++ [Autotune.unescape body], false, [], Autotune.LexMode.skip⟩ := by
    simp only [Autotune.lexStep, Autotune.LexState.grow, if_true, if_false, List.nil_append,
      Bool.false_eq_true]
  have hskip : Autotune.lexStep
      ⟨before ++ [Autotune.unescape body], false, [], Autotune.LexMode.skip⟩ ws2
      = ⟨before ++ [Autotune.unescape body], false, [], Autotune.LexMode.normal⟩ := by
    simp only [Autotune.lexStep, Autotune.LexState.grow, if_false, Bool.false_eq_true]
  have hrun : Autotune.lexRun Autotune.lexInit
      (pre ++ [ws1] ++ quote :: body ++ quote :: ws2 :: post) =
      ⟨(before ++ [Autotune.unescape body]) ++ (Autotune.lexRun Autotune.lexInit post).args,
        (Autotune.lexRun Autotune.lexInit post).intok,
        (Autotune.lexRun Autotune.lexInit post).tok,
        (Autotune.lexRun Autotune.lexInit post).mode⟩ := by
    rw [List.append_assoc, Autotune.lexRun_append, hpre, List.cons_append,
      Autotune.lexRun_cons, hopen, Autotune.lexRun_append,
      Autotune.lexRun_quoted quote hq92 before body.length body (le_refl _) hbody [],
      Autotune.lexRun_cons, hclose, Autotune.lexRun_cons, hskip, Autotune.lexRun_between]
  rw [Autotune.str2Command, hrun]
  cases hmode : (Autotune.lexRun Autotune.lexInit post).mode <;>
    simp only [Autotune.lexArgs, hmode, Option.map_none', Option.map_some', List.append_assoc,
      List.singleton_append, Option.some.injEq] <;>
    cases before <;> rfl

/-- The command `echo "a 'b' \" c" 'x y' z` followed by a newline. -/
theorem str2Command_quoted_segment_witness :
    Autotune.str2Command (Autotune.bytes "echo" ++ [32] ++
        34 :: Autotune.bytes "a 'b' \\\" c" ++ 34 :: 32 :: Autotune.bytes "'x y' z\n") =
      some [Autotune.bytes "echo", Autotune.bytes "a 'b' \" c", Autotune.bytes "x y",
        Autotune.bytes "z"] :=
  str2Command_quoted_segment (Autotune.bytes "echo") (Autotune.bytes "'x y' z\n")
    (Autotune.bytes "a 'b' \\\" c") 32 32 34 [Autotune.bytes "echo"]
    (by decide) (by decide) (by decide) (by decide) (by decide)

namespace Autotune

/-- Writing one cell in the middle of an array replaces that cell. -/
theorem writeAt_middle (done : List Int) (x v : Int) (tl : List Int) (k : Nat)
    (hk : done.length = k) : writeAt (done ++ x :: tl) k [v] = done ++ v :: tl := by
  subst hk
  simp [writeAt]

/-- The whole fresh array after `make` and `copy` of a valid slice holds the elements of
that slice. -/
theorem copy_fresh_array (s : Slice) (m : Mem) (hv : s.Valid m) :
    Mem.array (copySlice ⟨m.length, 0, s.len, s.len⟩ s (m ++ [List.replicate s.len 0]))
      m.length = s.toList m := by
  have h := (copy_fresh s m hv).1
  have hnew : m.length < (m ++ [List.replicate s.len (0 : Int)]).length := by simp
  have hlen : (Mem.array (copySlice ⟨m.length, 0, s.len, s.len⟩ s
      (m ++ [List.replicate s.len 0])) m.length).length ≤ s.len := by
    simp only [copySlice]
    rw [Mem.array_store_same _ _ _ _ hnew, Mem.array_append_new]
    simp only [writeAt, List.take_zero, List.nil_append, Nat.zero_add, List.length_append,
      List.length_take, List.length_drop, List.length_replicate]
    omega
  rw [Slice.toList] at h
  dsimp only at h
  rw [List.drop_zero, List.take_of_length_le hlen] at h
  exact h

end Autotune

namespace Primary
open Autotune

/-- Per-position replace keeps the number of passes. -/
theorem perPositionReplace_length (P : Int) (s : ℚ) :
    ∀ (l : List Int) (g : Rng), (perPositionReplace P s l g).1.length = l.length := by
  intro l
  induction l with
  | nil => intro g; rfl
  | cons x xs ih =>
    intro g
    simp only [perPositionReplace]
    split_ifs
    · simp only [List.length_cons, ih]
    · simp only [List.length_cons, ih]

/-- Per-position replace leaves at each position the pass that was there or a number in
`[0, P)`. -/
theorem perPositionReplace_range (P : Int) (hP : 0 < P) (s : ℚ) :
    ∀ (l : List Int) (g : Rng) (i : Nat) (x : Int),
      (perPositionReplace P s l g).1[i]? = some x → l[i]? = some x ∨ (0 ≤ x ∧ x < P) := by
  intro l
  induction l with
  | nil =>
    intro g i x h
    simp only [perPositionReplace, List.getElem?_nil] at h
    exact Option.noConfusion h
  | cons y ys ih =>
    intro g i x h
    simp only [perPositionReplace] at h
    split_ifs at h
    · cases i with
      | zero =>
        simp only [List.getElem?_cons_zero, Option.some.injEq] at h
        rw [← h]
        exact Or.inr (floor_draw_range g.advance P hP)
      | succ i =>
        simp only [List.getElem?_cons_succ] at h ⊢
        exact ih _ i x h
    · cases i with
      | zero =>
        simp only [List.getElem?_cons_zero] at h ⊢
        exact Or.inl h
      | succ i =>
        simp only [List.getElem?_cons_succ] at h ⊢
        exact ih _ i x h

/-- The loop of `randNext` in `src/autotune.go` over the cells `todo` of the array of
`next`, behind the cells `done`: it runs to its end, the cells become what per-position
replace makes of them, and nothing else in the memory changes. -/
theorem randNextLoop_refines (nOpts : Int) (h0 : 0 < nOpts) (h31 : nOpts < 2 ^ 31) (p : ℚ)
    (next : Slice) :
    ∀ (todo : List Int) (i : Nat) (m : Mem) (g : Rng) (done rest : List Int),
      next.arr < m.length → m.array next.arr = done ++ todo ++ rest →
      done.length = next.off + i → i + todo.length ≤ next.len →
      ∃ m1, randNextLoop nOpts p next todo.length i m g
          = some (m1, (perPositionReplace nOpts p todo g).2) ∧
        m1.array next.arr = done ++ (perPositionReplace nOpts p todo g).1 ++ rest ∧
        m1.length = m.length ∧ ∀ b, b ≠ next.arr → m1.array b = m.array b := by
  have hint : int32 nOpts = nOpts := int32_eq_self nOpts (by omega) h31
  intro todo
  induction todo with
  | nil =>
    intro i m g done rest _ harr _ _
    exact ⟨m, rfl, by simpa only [perPositionReplace] using harr, rfl, fun _ _ => rfl⟩
  | cons x xs ih =>
    intro i m g done rest hlt harr hdone hfit
    simp only [List.length_cons] at hfit
    by_cases hc : p > g.draw
    · have e1 : randInt31n g.advance nOpts
          = some (⌊g.advance.draw * nOpts⌋, g.advance.advance) := by
        simp only [randInt31n, h0, if_true]
      have e2 : next.setAt i ⌊g.advance.draw * nOpts⌋ m
          = some (m.store next.arr (next.off + i) [⌊g.advance.draw * nOpts⌋]) := by
        simp only [Slice.setAt, show i < next.len by omega, if_true]
      have harr1 : (m.store next.arr (next.off + i) [⌊g.advance.draw * nOpts⌋]).array next.arr
          = (done ++ [⌊g.advance.draw * nOpts⌋]) ++ xs ++ rest := by
        rw [Mem.array_store_same _ _ _ _ hlt, harr, List.append_assoc, List.cons_append,
          writeAt_middle done x _ _ _ hdone]
        simp
      obtain ⟨m1, hrun, hres, hlen, hoth⟩ := ih (i + 1)
        (m.store next.arr (next.off + i) [⌊g.advance.draw * nOpts⌋]) g.advance.advance
        (done ++ [⌊g.advance.draw * nOpts⌋]) rest
        (by rw [Mem.length_store]; exact hlt) harr1
        (by simp only [List.length_append, List.length_singleton, hdone]; omega)
        (by omega)
      refine ⟨m1, ?_, ?_, ?_, ?_⟩
      · simp only [List.length_cons, randNextLoop, randFloat64, hint, hc, if_true, e1, e2,
          perPositionReplace]
        exact hrun
      · simp only [perPositionReplace, hc, if_true]
        rw [hres]
        simp
      · rw [hlen, Mem.length_store]
      · intro b hb
        rw [hoth b hb, Mem.array_store_ne _ _ _ _ _ (Ne.symm hb)]
    · have harr1 : m.array next.arr = (done ++ [x]) ++ xs ++ rest := by
        rw [harr]
        simp
      obtain ⟨m1, hrun, hres, hlen, hoth⟩ := ih (i + 1) m g.advance (done ++ [x]) rest hlt harr1
        (by simp only [List.length_append, List.length_singleton, hdone]; omega)
        (by omega)
      refine ⟨m1, ?_, ?_, hlen, hoth⟩
      · simp only [List.length_cons, randNextLoop, randFloat64, hc, if_false,
          perPositionReplace]
        exact hrun
      · simp only [perPositionReplace, hc, if_false]
        rw [hres]
        simp

end Primary

/-- C17: `randNext` of `src/autotune.go` on a configuration whose passes are a valid
slice, over a catalog of `nOpts` passes with `0 < nOpts < 2 ^ 31`. It returns, and with
the strength `s = max(t * REPLACE_RATE, 0.05)` the passes of the result are what
per-position replace makes of the passes of the receiver: position `i` holds a fresh draw
from `[0, nOpts)` when `s` exceeds the uniform draw of that position, and the old pass
otherwise. The result is as long as the receiver, and the passes of the receiver read the
same after the call. -/
theorem randNext_per_position (nOpts : Int) (h0 : 0 < nOpts) (h31 : nOpts < 2 ^ 31) (t : ℚ)
    (config : Autotune.Config) (m : Autotune.Mem) (g : Autotune.Rng)
    (hv : config.passes.Valid m) :
    ∃ (next : Autotune.Config) (m1 : Autotune.Mem) (g1 : Autotune.Rng),
      Primary.randNext nOpts t config m g = some (next, m1, g1) ∧
      next.passes.toList m1
        = (Primary.perPositionReplace nOpts
            (max (Autotune.round64 (t * Primary.REPLACE_RATE)) Autotune.f64_0_05)
            (config.passes.toList m) g).1 ∧
      (∀ (i : Nat) (x : Int), (next.passes.toList m1)[i]? = some x →
        (config.passes.toList m)[i]? = some x ∨ (0 ≤ x ∧ x < nOpts)) ∧
      (next.passes.toList m1).length = (config.passes.toList m).length ∧
      next.passes.len = config.passes.len ∧
      config.passes.toList m1 = config.passes.toList m := by
  have hlenL : (config.passes.toList m).length = config.passes.len :=
    Autotune.Slice.length_toList hv
  have hmk : Autotune.makeSlice m config.passes.len config.passes.len
      = some (⟨m.length, 0, config.passes.len, config.passes.len⟩,
          m ++ [List.replicate config.passes.len 0]) := by
    simp only [Autotune.makeSlice, Int.toNat_ofNat, Nat.cast_nonneg, le_refl, and_self, if_true]
  have hcopy := Autotune.copy_fresh_array config.passes m hv
  have hold := (Autotune.copy_fresh config.passes m hv).2
  generalize hm2 : Autotune.copySlice ⟨m.length, 0, config.passes.len, config.passes.len⟩
    config.passes (m ++ [List.replicate config.passes.len 0]) = m2 at hcopy hold
  have hm2len : m2.length = m.length + 1 := by
    rw [← hm2]
    simp only [Autotune.copySlice, Autotune.Mem.length_store, List.length_append,
      List.length_singleton]
  obtain ⟨m3, hrun, harr, hlen3, hoth⟩ := Primary.randNextLoop_refines nOpts h0 h31
    (max (Autotune.round64 (t * Primary.REPLACE_RATE)) Autotune.f64_0_05)
    ⟨m.length, 0, config.passes.len, config.passes.len⟩
    (config.passes.toList m) 0 m2 g [] []
    (by show m.length < m2.length; omega)
    (by show m2.array m.length = _; rw [hcopy]; simp only [List.nil_append, List.append_nil])
    rfl (by rw [hlenL]; show 0 + config.passes.len ≤ config.passes.len; omega)
  rw [hlenL] at hrun
  simp only [List.nil_append, List.append_nil] at harr
  have hnext : Autotune.Slice.toList ⟨m.length, 0, config.passes.len, config.passes.len⟩ m3
      = (Primary.perPositionReplace nOpts
          (max (Autotune.round64 (t * Primary.REPLACE_RATE)) Autotune.f64_0_05)
          (config.passes.toList m) g).1 := by
    rw [Autotune.Slice.toList]
    dsimp only
    rw [harr, List.drop_zero]
    apply List.take_of_length_le
    rw [Primary.perPositionReplace_length, hlenL]
  have hkeep : config.passes.toList m3 = config.passes.toList m := by
    by_cases hz : 0 < config.passes.len
    · have hlt := Autotune.Slice.arr_lt_of_valid hv hz
      apply Autotune.Slice.toList_congr
      rw [hoth _ (by show config.passes.arr ≠ m.length; omega), hold _ hlt]
    · have hz0 : config.passes.len = 0 := by omega
      simp only [Autotune.Slice.toList, hz0, List.take_zero]
  have hex : ∃ (thresh : Int) (g1 : Autotune.Rng), Primary.randNext nOpts t config m g
      = some (⟨⟨m.length, 0, config.passes.len, config.passes.len⟩, thresh⟩, m3, g1) := by
    simp only [Primary.randNext, hmk, hm2, hrun, Autotune.randFloat32]
    exact ⟨_, _, rfl⟩
  obtain ⟨thresh, g1, hret⟩ := hex
  refine ⟨⟨⟨m.length, 0, config.passes.len, config.passes.len⟩, thresh⟩, m3, g1, hret, hnext,
    ?_, ?_, rfl, hkeep⟩
  · intro i x hx
    rw [hnext] at hx
    exact Primary.perPositionReplace_range nOpts h0 _ _ _ i x hx
  · rw [hnext, Primary.perPositionReplace_length]

/-- C17, at the passes `[3, 1]` over a catalog of four passes with `t = 1`, hence the
strength 1/2, under draws that are all 1/4: both positions are replaced by
`⌊1/4 * 4⌋ = 1`. -/
theorem randNext_per_position_witness :
    ∃ (next : Autotune.Config) (m1 : Autotune.Mem) (g1 : Autotune.Rng),
      Primary.randNext 4 1 ⟨⟨0, 0, 2, 2⟩, 325⟩ [[3, 1]] ⟨fun _ => 1 / 4, 0⟩
        = some (next, m1, g1) ∧
      next.passes.toList m1
        = (Primary.perPositionReplace 4
            (max (Autotune.round64 (1 * Primary.REPLACE_RATE)) Autotune.f64_0_05)
            (Autotune.Slice.toList ⟨0, 0, 2, 2⟩ [[3, 1]]) ⟨fun _ => 1 / 4, 0⟩).1 ∧
      (∀ (i : Nat) (x : Int), (next.passes.toList m1)[i]? = some x →
        (Autotune.Slice.toList ⟨0, 0, 2, 2⟩ [[3, 1]])[i]? = some x ∨ (0 ≤ x ∧ x < 4)) ∧
      (next.passes.toList m1).length = (Autotune.Slice.toList ⟨0, 0, 2, 2⟩ [[3, 1]]).length ∧
      next.passes.len = 2 ∧
      Autotune.Slice.toList ⟨0, 0, 2, 2⟩ m1 = Autotune.Slice.toList ⟨0, 0, 2, 2⟩ [[3, 1]] :=
  randNext_per_position 4 (by decide) (by decide) 1 ⟨⟨0, 0, 2, 2⟩, 325⟩ [[3, 1]]
    ⟨fun _ => 1 / 4, 0⟩ (by decide)

namespace Autotune

/-- The conversion to `int32` does not raise a number that is not negative. -/
theorem int32_le_self (x : Int) (h : 0 ≤ x) : int32 x ≤ x := by
  unfold int32
  omega

theorem mem_writeAt {x : Int} {l : List Int} {off : Nat} {data : List Int}
    (h : x ∈ writeAt l off data) : x ∈ l ∨ x ∈ data := by
  simp only [writeAt, List.mem_append] at h
  rcases h with (h | h) | h
  · exact Or.inl (List.mem_of_mem_take h)
  · exact Or.inr h
  · exact Or.inl (List.mem_of_mem_drop h)

theorem mem_array_of_mem_toList {x : Int} {s : Slice} {m : Mem} (h : x ∈ s.toList m) :
    x ∈ m.array s.arr :=
  List.mem_of_mem_drop (List.mem_of_mem_take h)

/-- A store of catalog indices into an array of catalog indices leaves one. -/
theorem inCatalog_store (P : Int) (m : Mem) (a off : Nat) (data : List Int)
    (ha : a < m.length) (h1 : InCatalog P (m.array a)) (h2 : InCatalog P data) :
    InCatalog P ((m.store a off data).array a) := by
  rw [Mem.array_store_same _ _ _ _ ha]
  intro x hx
  rcases mem_writeAt hx with h | h
  · exact h1 x h
  · exact h2 x h

theorem inCatalog_replicate (P : Int) (hP : 0 < P) (n : Nat) :
    InCatalog P (List.replicate n 0) := by
  intro x hx
  rw [List.eq_of_mem_replicate hx]
  exact ⟨le_refl 0, hP⟩

/-- The draw of `Int31n(int32(numOpts))`, when there is one, is a catalog index. -/
theorem randInt31n_inCatalog (nOpts : Int) (h0 : 0 ≤ nOpts) (g : Rng) (v : Int) (g1 : Rng)
    (h : randInt31n g (int32 nOpts) = some (v, g1)) : 0 ≤ v ∧ v < nOpts := by
  have hb := int32_le_self nOpts h0
  generalize int32 nOpts = b at h hb
  simp only [randInt31n] at h
  split_ifs at h with hpos
  simp only [Option.some.injEq, Prod.mk.injEq] at h
  have hr := floor_draw_range g b hpos
  rw [h.1] at hr
  exact ⟨hr.1, by omega⟩

end Autotune

namespace Primary
open Autotune

/-- With catalog indices only, `asArgs` of `src/autotune.go` reads no name outside the
catalog. -/
theorem asArgs_isSome (opts : List String) (m : Mem) (c : Config)
    (h : InCatalog opts.length (c.passes.toList m)) : (asArgs opts m c).isSome = true := by
  have hP : forEach (passArg opts) (c.passes.toList m)
      = some ((c.passes.toList m).map fun p => "-" ++ opts.getD p.toNat "") :=
    forEach_eq_some_map _ _ _ fun p hp => by
      simp [passArg, optAt_of_lt opts p (h p hp).1 (h p hp).2]
  simp only [asArgs, hP, Option.map_some', Option.isSome_some]

/-- The loop of `randomConfig` keeps an array of catalog indices one. -/
theorem randomConfigLoop_inCatalog (nOpts : Int) (h0 : 0 ≤ nOpts) (passes : Slice) :
    ∀ (n i : Nat) (m : Mem) (g : Rng) (m1 : Mem) (g1 : Rng),
      passes.arr < m.length → InCatalog nOpts (m.array passes.arr) →
      randomConfigLoop nOpts passes n i m g = some (m1, g1) →
      InCatalog nOpts (m1.array passes.arr) := by
  intro n
  induction n with
  | zero =>
    intro i m g m1 g1 _ hin h
    simp only [randomConfigLoop, Option.some.injEq, Prod.mk.injEq] at h
    rw [← h.1]
    exact hin
  | succ n ih =>
    intro i m g m1 g1 hlt hin h
    simp only [randomConfigLoop] at h
    cases hr : randInt31n g (int32 nOpts) with
    | none =>
      rw [hr] at h
      exact Option.noConfusion h
    | some vg =>
      obtain ⟨v, g2⟩ := vg
      rw [hr] at h
      have hv := randInt31n_inCatalog nOpts h0 g v g2 hr
      cases hs : passes.setAt i v m with
      | none =>
        simp only [hs] at h
        exact Option.noConfusion h
      | some m2 =>
        simp only [hs] at h
        simp only [Slice.setAt] at hs
        split_ifs at hs
        simp only [Option.some.injEq] at hs
        subst hs
        refine ih (i + 1) _ g2 m1 g1 (by rw [Mem.length_store]; exact hlt) ?_ h
        refine inCatalog_store nOpts m _ _ _ hlt hin ?_
        intro x hx
        rw [List.mem_singleton.mp hx]
        exact hv

/-- The loop of `randNext` keeps an array of catalog indices one. -/
theorem randNextLoop_inCatalog (nOpts : Int) (h0 : 0 ≤ nOpts) (p : ℚ) (next : Slice) :
    ∀ (n i : Nat) (m : Mem) (g : Rng) (m1 : Mem) (g1 : Rng),
      next.arr < m.length → InCatalog nOpts (m.array next.arr) →
      randNextLoop nOpts p next n i m g = some (m1, g1) →
      InCatalog nOpts (m1.array next.arr) := by
  intro n
  induction n with
  | zero =>
    intro i m g m1 g1 _ hin h
    simp only [randNextLoop, Option.some.injEq, Prod.mk.injEq] at h
    rw [← h.1]
    exact hin
  | succ n ih =>
    intro i m g m1 g1 hlt hin h
    simp only [randNextLoop, randFloat64] at h
    by_cases hc : p > g.draw
    · rw [if_pos hc] at h
      cases hr : randInt31n g.advance (int32 nOpts) with
      | none =>
        rw [hr] at h
        exact Option.noConfusion h
      | some vg =>
        obtain ⟨v, g2⟩ := vg
        rw [hr] at h
        have hv := randInt31n_inCatalog nOpts h0 g.advance v g2 hr
        cases hs : next.setAt i v m with
        | none =>
          simp only [hs] at h
          exact Option.noConfusion h
        | some m2 =>
          simp only [hs] at h
          simp only [Slice.setAt] at hs
          split_ifs at hs
          simp only [Option.some.injEq] at hs
          subst hs
          refine ih (i + 1) _ g2 m1 g1 (by rw [Mem.length_store]; exact hlt) ?_ h
          refine inCatalog_store nOpts m _ _ _ hlt hin ?_
          intro x hx
          rw [List.mem_singleton.mp hx]
          exact hv
    · rw [if_neg hc] at h
      exact ih (i + 1) m g.advance m1 g1 hlt hin h

/-- Every pass of a configuration that `randomConfig` returns is a catalog index. -/
theorem randomConfig_inCatalog (nOpts : Int) (h0 : 0 < nOpts) (max : Int) (m : Mem) (g : Rng)
    (c : Config) (m1 : Mem) (g1 : Rng) (h : randomConfig nOpts max m g = some (c, m1, g1)) :
    InCatalog nOpts (c.passes.toList m1) := by
  unfold randomConfig at h
  split at h
  · exact Option.noConfusion h
  · rename_i passes m0 hmk
    split at h
    · exact Option.noConfusion h
    · rename_i m2 g2 hloop
      simp only [Option.some.injEq, Prod.mk.injEq] at h
      obtain ⟨hc, hm, _⟩ := h
      subst hc
      subst hm
      simp only [makeSlice] at hmk
      split_ifs at hmk
      simp only [Option.some.injEq, Prod.mk.injEq] at hmk
      obtain ⟨hp, hm0⟩ := hmk
      subst hp
      subst hm0
      have hin := randomConfigLoop_inCatalog nOpts (le_of_lt h0)
        ⟨m.length, 0, max.toNat, max.toNat⟩ max.toNat 0 (m ++ [List.replicate max.toNat 0]) g
        m2 g2 (by simp) (by
          show InCatalog nOpts (Mem.array (m ++ [List.replicate max.toNat 0]) m.length)
          rw [Mem.array_append_new]
          exact inCatalog_replicate nOpts h0 _) hloop
      intro x hx
      exact hin x (mem_array_of_mem_toList hx)

/-- Every pass of a configuration that `randNext` returns for a configuration of catalog
indices is a catalog index. -/
theorem randNext_inCatalog (nOpts : Int) (h0 : 0 < nOpts) (t : ℚ) (config : Config) (m : Mem)
    (g : Rng) (hv : config.passes.Valid m) (hin : InCatalog nOpts (config.passes.toList m))
    (next : Config) (m1 : Mem) (g1 : Rng)
    (h : randNext nOpts t config m g = some (next, m1, g1)) :
    InCatalog nOpts (next.passes.toList m1) := by
  have hmk : makeSlice m config.passes.len config.passes.len
      = some (⟨m.length, 0, config.passes.len, config.passes.len⟩,
          m ++ [List.replicate config.passes.len 0]) := by
    simp only [makeSlice, Int.toNat_ofNat, Nat.cast_nonneg, le_refl, and_self, if_true]
  have hcopy := copy_fresh_array config.passes m hv
  generalize hm2 : copySlice ⟨m.length, 0, config.passes.len, config.passes.len⟩
    config.passes (m ++ [List.replicate config.passes.len 0]) = m2 at hcopy
  have hm2len : m2.length = m.length + 1 := by
    rw [← hm2]
    simp only [copySlice, Mem.length_store, List.length_append, List.length_singleton]
  simp only [randNext, hmk, hm2] at h
  split at h
  · exact Option.noConfusion h
  · rename_i m3 g3 hloop
    simp only [randFloat32, Option.some.injEq, Prod.mk.injEq] at h
    obtain ⟨hc, hm, _⟩ := h
    subst hc
    subst hm
    have hres := randNextLoop_inCatalog nOpts (le_of_lt h0) _
      ⟨m.length, 0, config.passes.len, config.passes.len⟩ config.passes.len 0 m2 g m3 g3
      (by show m.length < m2.length; omega)
      (by show InCatalog nOpts (m2.array m.length); rw [hcopy]; exact hin) hloop
    intro x hx
    exact hres x (mem_array_of_mem_toList hx)

/-- Every pass of a child that `combineWith` returns for two configurations of catalog
indices is a catalog index. -/
theorem combineWith_inCatalog (P : Int) (h0 : 0 < P) (self other : Config) (m : Mem) (g : Rng)
    (hself : self.passes.Valid m) (hother : other.passes.Valid m)
    (hins : InCatalog P (self.passes.toList m)) (hino : InCatalog P (other.passes.toList m))
    (child : Config) (m1 : Mem) (g1 : Rng)
    (h : combineWith self other m g = some (child, m1, g1)) :
    InCatalog P (child.passes.toList m1) := by
  simp only [combineWith, Option.bind_eq_some, Option.some.injEq, Prod.mk.injEq] at h
  obtain ⟨coPoint, h1, first, h2, selfHead, h3, second, h4, hc, hm, _⟩ := h
  -- the split point
  have hble := int32_le_self (self.passes.len : Int) (Nat.cast_nonneg _)
  generalize int32 (self.passes.len : Int) = b at h1 hble
  simp only [randInt31n] at h1
  split_ifs at h1 with hbpos
  simp only [Option.some.injEq] at h1
  have hr := floor_draw_range g b hbpos
  obtain ⟨k, g2⟩ := coPoint
  simp only [Prod.mk.injEq] at h1
  obtain ⟨hk, _⟩ := h1
  rw [hk] at hr
  obtain ⟨hk0, hkb⟩ := hr
  obtain ⟨kn, hkn⟩ := Int.eq_ofNat_of_zero_le hk0
  subst hkn
  have hknlen : kn < self.passes.len := by omega
  have hsarr : self.passes.arr < m.length := Slice.arr_lt_of_valid hself (by omega)
  -- the slices
  simp only [makeSlice] at h2
  split_ifs at h2
  simp only [Option.some.injEq, Int.toNat_ofNat] at h2
  subst h2
  simp only [Slice.sliceTo] at h3
  split_ifs at h3
  simp only [Option.some.injEq, Int.toNat_ofNat] at h3
  subst h3
  simp only [Slice.sliceFrom] at h4
  split_ifs at h4 with hko
  simp only [Option.some.injEq, Int.toNat_ofNat] at h4
  subst h4
  have hkolen : kn ≤ other.passes.len := by omega
  subst hc
  subst hm
  dsimp only
  -- the fresh array after the copy holds catalog indices
  have hnew : m.length < (m ++ [List.replicate self.passes.len (0 : Int)]).length := by simp
  have hhead : InCatalog P (Slice.toList ⟨self.passes.arr, self.passes.off, kn, self.passes.cap⟩
      (m ++ [List.replicate self.passes.len 0])) := by
    intro x hx
    apply hins x
    simp only [Slice.toList, Mem.array_append_left m _ _ hsarr] at hx ⊢
    have hmin : kn = min kn self.passes.len := by omega
    rw [hmin, ← List.take_take] at hx
    exact List.mem_of_mem_take hx
  have hF1 : InCatalog P (Mem.array (copySlice ⟨m.length, 0, kn, self.passes.len⟩
      ⟨self.passes.arr, self.passes.off, kn, self.passes.cap⟩
      (m ++ [List.replicate self.passes.len 0])) m.length) := by
    simp only [copySlice]
    refine inCatalog_store P _ _ _ _ hnew ?_ ?_
    · rw [Mem.array_append_new]
      exact inCatalog_replicate P h0 _
    · intro x hx
      exact hhead x (List.mem_of_mem_take hx)
  have hm2old : ∀ a, a < m.length → Mem.array (copySlice ⟨m.length, 0, kn, self.passes.len⟩
        ⟨self.passes.arr, self.passes.off, kn, self.passes.cap⟩
        (m ++ [List.replicate self.passes.len 0])) a = m.array a := by
    intro a ha
    simp only [copySlice]
    rw [Mem.array_store_ne _ _ _ _ _ (by omega), Mem.array_append_left m _ _ ha]
  have hm2len : (copySlice ⟨m.length, 0, kn, self.passes.len⟩
        ⟨self.passes.arr, self.passes.off, kn, self.passes.cap⟩
        (m ++ [List.replicate self.passes.len 0])).length = m.length + 1 := by
    simp only [copySlice, Mem.length_store, List.length_append, List.length_singleton]
  generalize copySlice ⟨m.length, 0, kn, self.passes.len⟩
    ⟨self.passes.arr, self.passes.off, kn, self.passes.cap⟩
    (m ++ [List.replicate self.passes.len 0]) = m2 at hF1 hm2old hm2len
  have hF2 : InCatalog P (Slice.toList ⟨other.passes.arr, other.passes.off + kn,
      other.passes.len - kn, other.passes.cap - kn⟩ m2) := by
    intro x hx
    by_cases hz : other.passes.len - kn = 0
    · simp only [Slice.toList, hz, List.take_zero, List.not_mem_nil] at hx
    · have hoarr : other.passes.arr < m.length := Slice.arr_lt_of_valid hother (by omega)
      apply hino x
      simp only [Slice.toList, hm2old _ hoarr] at hx ⊢
      rw [← List.drop_drop, ← List.drop_take] at hx
      exact List.mem_of_mem_drop hx
  -- the append, in place or into a fresh array
  unfold appendSlice
  split_ifs
  · dsimp only
    have hst := inCatalog_store P m2 m.length (0 + kn)
      (Slice.toList ⟨other.passes.arr, other.passes.off + kn, other.passes.len - kn,
        other.passes.cap - kn⟩ m2) (by omega) hF1 hF2
    intro x hx
    exact hst x (mem_array_of_mem_toList hx)
  · dsimp only
    intro x hx
    have hx2 := mem_array_of_mem_toList hx
    dsimp only at hx2
    rw [Mem.array_append_new, List.mem_append] at hx2
    rcases hx2 with hx2 | hx2
    · exact hF1 x (mem_array_of_mem_toList hx2)
    · exact hF2 x hx2

/-- With a positive bound for `Int31n` and a length that is not negative, `randomConfig`
returns. -/
theorem randomConfigLoop_total (nOpts : Int) (hn : 0 < int32 nOpts) (passes : Slice) :
    ∀ (n i : Nat) (m : Mem) (g : Rng), i + n ≤ passes.len →
      ∃ m1 g1, randomConfigLoop nOpts passes n i m g = some (m1, g1) := by
  intro n
  induction n with
  | zero => intro i m g _; exact ⟨m, g, rfl⟩
  | succ n ih =>
    intro i m g hi
    simp only [randomConfigLoop, randInt31n, hn, if_true, Slice.setAt,
      show i < passes.len by omega]
    exact ih (i + 1) _ _ (by omega)

theorem randomConfig_total (nOpts : Int) (hn : 0 < int32 nOpts) (max : Int) (hmax : 0 ≤ max)
    (m : Mem) (g : Rng) : ∃ c m1 g1, randomConfig nOpts max m g = some (c, m1, g1) := by
  unfold randomConfig
  simp only [makeSlice, hmax, le_refl, and_self, if_true]
  obtain ⟨m2, g2, h2⟩ := randomConfigLoop_total nOpts hn
    ⟨m.length, 0, max.toNat, max.toNat⟩ max.toNat 0 (m ++ [List.replicate max.toNat 0]) g
    (by simp)
  simp only [h2]
  exact ⟨_, _, _, rfl⟩

end Primary

/-- C18: over a catalog of `P > 0` passes, in `src/autotune.go` (no `-verify` index):
every pass of a configuration returned by `randomConfig`, by `randNext` on a configuration
of catalog indices, or by `combineWith` on two configurations of catalog indices, is a
catalog index in `[0, P)`, whatever the draws; hence the index `P` does not occur and
`asArgs` on the result reads no name outside the catalog. -/
theorem pass_indices_in_catalog (opts : List String) (hP : 0 < opts.length) :
    (∀ (max : Int) (m : Autotune.Mem) (g : Autotune.Rng) (c : Autotune.Config)
        (m1 : Autotune.Mem) (g1 : Autotune.Rng),
      Primary.randomConfig (Autotune.numOpts opts) max m g = some (c, m1, g1) →
      (∀ p ∈ c.passes.toList m1, 0 ≤ p ∧ p < (opts.length : Int)) ∧
        (Primary.asArgs opts m1 c).isSome = true) ∧
    (∀ (t : ℚ) (config : Autotune.Config) (m : Autotune.Mem) (g : Autotune.Rng)
        (next : Autotune.Config) (m1 : Autotune.Mem) (g1 : Autotune.Rng),
      config.passes.Valid m →
      (∀ p ∈ config.passes.toList m, 0 ≤ p ∧ p < (opts.length : Int)) →
      Primary.randNext (Autotune.numOpts opts) t config m g = some (next, m1, g1) →
      (∀ p ∈ next.passes.toList m1, 0 ≤ p ∧ p < (opts.length : Int)) ∧
        (Primary.asArgs opts m1 next).isSome = true) ∧
    (∀ (self other : Autotune.Config) (m : Autotune.Mem) (g : Autotune.Rng)
        (child : Autotune.Config) (m1 : Autotune.Mem) (g1 : Autotune.Rng),
      self.passes.Valid m → other.passes.Valid m →
      (∀ p ∈ self.passes.toList m, 0 ≤ p ∧ p < (opts.length : Int)) →
      (∀ p ∈ other.passes.toList m, 0 ≤ p ∧ p < (opts.length : Int)) →
      Primary.combineWith self other m g = some (child, m1, g1) →
      (∀ p ∈ child.passes.toList m1, 0 ≤ p ∧ p < (opts.length : Int)) ∧
        (Primary.asArgs opts m1 child).isSome = true) := by
  have hpos : (0 : Int) < (opts.length : Int) := by exact_mod_cast hP
  refine ⟨?_, ?_, ?_⟩
  · intro max m g c m1 g1 h
    have hin := Primary.randomConfig_inCatalog (opts.length : Int) hpos max m g c m1 g1 h
    exact ⟨hin, Primary.asArgs_isSome opts m1 c hin⟩
  · intro t config m g next m1 g1 hv hc h
    have hin := Primary.randNext_inCatalog (opts.length : Int) hpos t config m g hv hc
      next m1 g1 h
    exact ⟨hin, Primary.asArgs_isSome opts m1 next hin⟩
  · intro self other m g child m1 g1 hs ho hcs hco h
    have hin := Primary.combineWith_inCatalog (opts.length : Int) hpos self other m g hs ho
      hcs hco child m1 g1 h
    exact ⟨hin, Primary.asArgs_isSome opts m1 child hin⟩

/-- C18, over the catalog `gvn, licm`: `randomConfig` returns a configuration of three
passes, `randNext` returns for it, and `combineWith` returns for the two; all their
passes are 0 or 1 and `asArgs` succeeds on each. -/
theorem pass_indices_in_catalog_witness :
    0 < ["gvn", "licm"].length ∧
    ∃ (c : Autotune.Config) (m1 : Autotune.Mem) (g1 : Autotune.Rng),
      Primary.randomConfig (Autotune.numOpts ["gvn", "licm"]) 3 [] ⟨fun _ => 1 / 2, 0⟩
        = some (c, m1, g1) ∧
      (∀ p ∈ c.passes.toList m1, 0 ≤ p ∧ p < ((["gvn", "licm"].length : Nat) : Int)) ∧
      (Primary.asArgs ["gvn", "licm"] m1 c).isSome = true := by
  obtain ⟨c, m1, g1, h⟩ := Primary.randomConfig_total (Autotune.numOpts ["gvn", "licm"])
    (by decide) 3 (by decide) [] ⟨fun _ => 1 / 2, 0⟩
  exact ⟨by decide, c, m1, g1, h,
    (pass_indices_in_catalog ["gvn", "licm"] (by decide)).1 3 [] ⟨fun _ => 1 / 2, 0⟩ c m1 g1 h⟩

namespace Autotune

/-- A loop over a list succeeds when every element does. -/
theorem forEach_of_isSome {α β : Type} (f : α → Option β) (d : β) (l : List α)
    (h : ∀ x ∈ l, (f x).isSome = true) :
    forEach f l = some (l.map fun x => (f x).getD d) :=
  forEach_eq_some_map f _ l fun x hx => by
    obtain ⟨y, hy⟩ := Option.isSome_iff_exists.mp (h x hx)
    rw [hy]
    rfl

end Autotune

namespace Primary
open Autotune

theorem sortByTime_perm (results : List Result) : (sortByTime results).Perm results :=
  List.perm_insertionSort _ _

theorem sortByTime_sorted (results : List Result) :
    (sortByTime results).Sorted (fun a b => a.elapsed ≤ b.elapsed) := by
  haveI : IsTotal Result (fun a b => a.elapsed ≤ b.elapsed) :=
    ⟨fun a b => le_total a.elapsed b.elapsed⟩
  haveI : IsTrans Result (fun a b => a.elapsed ≤ b.elapsed) :=
    ⟨fun a b c hab hbc => le_trans hab hbc⟩
  exact List.sorted_insertionSort _ _

theorem runAllFrom_length (run : Nat → OptConfig → Int → Int × Option String) (timeout : Int) :
    ∀ (configs : List OptConfig) (i : Nat),
      (runAllFrom run timeout i configs).length = configs.length := by
  intro configs
  induction configs with
  | nil => intro i; rfl
  | cons c cs ih => intro i; simp only [runAllFrom, List.length_cons, ih]

theorem runAllFrom_config (run : Nat → OptConfig → Int → Int × Option String) (timeout : Int) :
    ∀ (configs : List OptConfig) (i : Nat), ∀ r ∈ runAllFrom run timeout i configs,
      r.config ∈ configs := by
  intro configs
  induction configs with
  | nil =>
    intro i r hr
    simp only [runAllFrom, List.not_mem_nil] at hr
  | cons c cs ih =>
    intro i r hr
    simp only [runAllFrom, List.mem_cons] at hr
    rcases hr with rfl | hr
    · exact List.mem_cons_self _ _
    · exact List.mem_cons_of_mem _ (ih (i + 1) r hr)

/-- When every job of a generation runs without error in the time `v`, every result of
`runAll` holds `v`. -/
theorem runAllFrom_elapsed (run : Nat → OptConfig → Int → Int × Option String) (timeout : Int)
    (v : Int) (hrun : ∀ i c, run i c timeout = (v, none)) :
    ∀ (configs : List OptConfig) (i : Nat), ∀ r ∈ runAllFrom run timeout i configs,
      r.elapsed = v := by
  intro configs
  induction configs with
  | nil =>
    intro i r hr
    simp only [runAllFrom, List.not_mem_nil] at hr
  | cons c cs ih =>
    intro i r hr
    simp only [runAllFrom, List.mem_cons] at hr
    rcases hr with rfl | hr
    · simp only [checkRun, hrun]
    · exact ih (i + 1) r hr

/-- The next pool is built, holds `POPULATION_SIZE` configurations, and none of them is
`O3`, when the results are as many and every child is built. -/
theorem nextPopulation_some (breed : Nat → List Result → Option Config)
    (results : List Result) (hlen : results.length = POPULATION_SIZE)
    (hcfg : ∀ r ∈ results, ∃ cfg, r.config = OptConfig.config cfg)
    (hbreed : ∀ i, (breed i results).isSome = true) :
    ∃ next, nextPopulation breed results = some next ∧ next.length = POPULATION_SIZE ∧
      ∀ c ∈ next, ∃ cfg, c = OptConfig.config cfg := by
  have he : forEach (fun i => (results[i]?).map fun r => r.config) (List.range eliteIdx)
      = some ((List.range eliteIdx).map fun i =>
          ((results[i]?).map fun r => r.config).getD OptConfig.o3) := by
    apply forEach_of_isSome
    intro i hi
    have hi2 : i < results.length := by
      rw [hlen]
      have := List.mem_range.mp hi
      simp only [eliteIdx] at this
      simp only [POPULATION_SIZE]
      omega
    simp only [List.getElem?_eq_getElem hi2, Option.map_some', Option.isSome_some]
  have hc : forEach (fun i => (breed i results).map OptConfig.config)
      (List.range' eliteIdx (POPULATION_SIZE - eliteIdx))
      = some ((List.range' eliteIdx (POPULATION_SIZE - eliteIdx)).map fun i =>
          ((breed i results).map OptConfig.config).getD OptConfig.o3) := by
    apply forEach_of_isSome
    intro i _
    obtain ⟨y, hy⟩ := Option.isSome_iff_exists.mp (hbreed i)
    simp only [hy, Option.map_some', Option.isSome_some]
  refine ⟨(List.range eliteIdx).map (fun i =>
        ((results[i]?).map fun r => r.config).getD OptConfig.o3) ++
      (List.range' eliteIdx (POPULATION_SIZE - eliteIdx)).map (fun i =>
        ((breed i results).map OptConfig.config).getD OptConfig.o3),
    by simp only [nextPopulation, he, hc, Option.some_bind, Option.map_some'], ?_, ?_⟩
  · simp only [List.length_append, List.length_map, List.length_range, List.length_range']
    rfl
  · intro c hmem
    rcases List.mem_append.mp hmem with hmem | hmem
    · obtain ⟨i, hi, rfl⟩ := List.mem_map.mp hmem
      have hi2 : i < results.length := by
        rw [hlen]
        have := List.mem_range.mp hi
        simp only [eliteIdx] at this
        simp only [POPULATION_SIZE]
        omega
      simp only [List.getElem?_eq_getElem hi2, Option.map_some', Option.getD_some]
      exact hcfg _ (List.getElem_mem hi2)
    · obtain ⟨i, _, rfl⟩ := List.mem_map.mp hmem
      obtain ⟨y, hy⟩ := Option.isSome_iff_exists.mp (hbreed i)
      exact ⟨y, by simp only [hy, Option.map_some', Option.getD_some]⟩

/-- The generation loop, when `arrange` yields the results sorted by time and every child
is built: it returns; generation `gen + k` contributes the arranged results of a pool of
`POPULATION_SIZE` configurations; and `best`, `bestTime` are a result of least time of
the last generation. -/
theorem gaLoop_spec (run : Nat → Nat → OptConfig → Int → Int × Option String)
    (arrange : Nat → List Result → List Result)
    (breed : Nat → Nat → List Result → Option Config)
    (harr : ∀ gen rs, (arrange gen rs).Sorted (fun a b => a.elapsed ≤ b.elapsed) ∧
      (arrange gen rs).Perm rs)
    (hbreed : ∀ gen i rs, (breed gen i rs).isSome = true) :
    ∀ (n gen : Nat) (configs : List OptConfig) (bestTime : Int) (best : Config),
      configs.length = POPULATION_SIZE → (∀ c ∈ configs, ∃ cfg, c = OptConfig.config cfg) →
      ∃ (best1 : Config) (bestTime1 : Int) (hist : List (List Result)),
        gaLoop run arrange breed n gen configs bestTime best = some (best1, bestTime1, hist) ∧
        hist.length = n ∧
        (∀ k, k < n → ∃ cfgs t, cfgs.length = POPULATION_SIZE ∧
          hist[k]? = some (arrange (gen + k) (runAll (run (gen + k)) cfgs t))) ∧
        (0 < n → ∃ results, hist.getLast? = some results ∧
          (⟨OptConfig.config best1, bestTime1⟩ : Result) ∈ results ∧
          ∀ r ∈ results, bestTime1 ≤ r.elapsed) := by
  intro n
  induction n with
  | zero =>
    intro gen configs bestTime best _ _
    exact ⟨best, bestTime, [], rfl, rfl, fun k hk => absurd hk (Nat.not_lt_zero k),
      fun h => absurd h (Nat.lt_irrefl 0)⟩
  | succ n ih =>
    intro gen configs bestTime best hlen hcfg
    have hsorted := (harr gen (runAll (run gen) configs (gaTimeout bestTime))).1
    have hperm := (harr gen (runAll (run gen) configs (gaTimeout bestTime))).2
    have hrlen : (arrange gen (runAll (run gen) configs (gaTimeout bestTime))).length
        = POPULATION_SIZE := by
      rw [hperm.length_eq, runAll, runAllFrom_length, hlen]
    have hrcfg : ∀ r ∈ arrange gen (runAll (run gen) configs (gaTimeout bestTime)),
        ∃ cfg, r.config = OptConfig.config cfg := fun r hr =>
      hcfg _ (runAllFrom_config _ _ _ _ r (hperm.subset hr))
    cases hres : arrange gen (runAll (run gen) configs (gaTimeout bestTime)) with
    | nil =>
      rw [hres] at hrlen
      exact absurd hrlen (by decide)
    | cons r rest =>
      rw [hres] at hsorted hrlen hrcfg
      obtain ⟨c, hc⟩ := hrcfg r (List.mem_cons_self _ _)
      obtain ⟨next, hnext, hnlen, hncfg⟩ :=
        nextPopulation_some (breed gen) (r :: rest) hrlen hrcfg (fun i => hbreed gen i _)
      obtain ⟨b1, t1, h1, hrun, hh1, hhist, hlast⟩ := ih (gen + 1) next r.elapsed c hnlen hncfg
      refine ⟨b1, t1, (r :: rest) :: h1, ?_, ?_, ?_, ?_⟩
      · simp only [gaLoop, hres, hc, hnext, hrun, Option.map_some']
      · simp only [List.length_cons, hh1]
      · intro k hk
        cases k with
        | zero =>
          exact ⟨configs, gaTimeout bestTime, hlen, by
            simp only [Nat.add_zero, List.getElem?_cons_zero, hres]⟩
        | succ k =>
          obtain ⟨cfgs, t, hl, hk1⟩ := hhist k (by omega)
          refine ⟨cfgs, t, hl, ?_⟩
          have hidx : gen + (k + 1) = gen + 1 + k := by omega
          rw [List.getElem?_cons_succ, hk1, hidx]
      · intro _
        by_cases hn : 0 < n
        · obtain ⟨results, hl, hmem, hmin⟩ := hlast hn
          refine ⟨results, ?_, hmem, hmin⟩
          cases h1 with
          | nil =>
            simp only [List.length_nil] at hh1
            omega
          | cons a as =>
            rw [List.getLast?_cons_cons]
            exact hl
        · have hn0 : n = 0 := by omega
          subst hn0
          simp only [gaLoop, Option.some.injEq, Prod.mk.injEq] at hrun
          obtain ⟨hb, ht, hh⟩ := hrun
          subst hb
          subst ht
          subst hh
          have hr : (⟨OptConfig.config c, r.elapsed⟩ : Result) = r := by
            rw [← hc]
          refine ⟨r :: rest, rfl, ?_, ?_⟩
          · rw [hr]
            exact List.mem_cons_self _ _
          · intro r1 hr1
            rcases List.mem_cons.mp hr1 with rfl | hm
            · exact le_refl _
            · exact List.rel_of_sorted_cons hsorted r1 hm

/-- The first loop of `run_ga` fills the pool when `Int31n` has a positive bound. -/
theorem initialPopulation_spec (nOpts : Int) (hn : 0 < int32 nOpts) :
    ∀ (n : Nat) (m : Mem) (g : Rng),
      ∃ cs m1 g1, initialPopulation nOpts n m g = some (cs, m1, g1) ∧ cs.length = n ∧
        ∀ c ∈ cs, ∃ cfg, c = OptConfig.config cfg := by
  intro n
  induction n with
  | zero =>
    intro m g
    exact ⟨[], m, g, rfl, rfl, fun c hc => absurd hc (List.not_mem_nil c)⟩
  | succ n ih =>
    intro m g
    obtain ⟨c, m1, g1, hc⟩ := randomConfig_total nOpts hn GA_MAXOPTS (by decide) m g
    obtain ⟨cs, m2, g2, hcs, hlen, hall⟩ := ih m1 g1
    refine ⟨OptConfig.config c :: cs, m2, g2, by simp only [initialPopulation, hc, hcs],
      by simp only [List.length_cons, hlen], ?_⟩
    intro x hx
    rcases List.mem_cons.mp hx with rfl | hx
    · exact ⟨c, rfl⟩
    · exact hall x hx

/-- What `run_ga` returns when `arrange` yields the results sorted by time and every
child is built. -/
theorem run_ga_spec (run : Nat → Nat → OptConfig → Int → Int × Option String)
    (arrange : Nat → List Result → List Result)
    (breed : Nat → Nat → List Result → Option Config)
    (nOpts : Int) (m : Mem) (g : Rng) (hn : 0 < int32 nOpts)
    (harr : ∀ gen rs, (arrange gen rs).Sorted (fun a b => a.elapsed ≤ b.elapsed) ∧
      (arrange gen rs).Perm rs)
    (hbreed : ∀ gen i rs, (breed gen i rs).isSome = true) :
    ∃ (best : Config) (bestTime : Int) (hist : List (List Result)),
      run_ga run arrange breed nOpts m g = some (best, bestTime, hist) ∧
      hist.length = MAX_GENERATION ∧
      (∀ k, k < MAX_GENERATION → ∃ cfgs t, cfgs.length = POPULATION_SIZE ∧
        hist[k]? = some (arrange k (runAll (run k) cfgs t))) ∧
      ∃ results, hist.getLast? = some results ∧
        (⟨OptConfig.config best, bestTime⟩ : Result) ∈ results ∧
        ∀ r ∈ results, bestTime ≤ r.elapsed := by
  obtain ⟨cs, m1, g1, hcs, hlen, hall⟩ := initialPopulation_spec nOpts hn POPULATION_SIZE m g
  obtain ⟨best, bestTime, hist, hrun, hhlen, hhist, hlast⟩ :=
    gaLoop_spec run arrange breed harr hbreed MAX_GENERATION 0 cs (-1) ⟨⟨0, 0, 0, 0⟩, 0⟩
      hlen hall
  refine ⟨best, bestTime, hist, by simp only [run_ga, hcs, hrun], hhlen, ?_,
    hlast (by decide)⟩
  intro k hk
  obtain ⟨cfgs, t, hl, hk1⟩ := hhist k hk
  exact ⟨cfgs, t, hl, by simpa only [Nat.zero_add] using hk1⟩

end Primary

/-- C12, as stated, fails: let every run of the generations 0 to 98 take the time 5 and
every run of the last generation the time 10. `run_ga` returns a configuration with the
time 10 of the last generation, although results with the time 5 were produced
before. -/
theorem run_ga_returns_slower_than_observed :
    ∃ (best : Autotune.Config) (bestTime : Int) (hist : List (List Primary.Result)),
      Primary.run_ga (fun gen _ _ _ => (if gen < 99 then 5 else 10, none))
        (fun _ => Primary.sortByTime) (fun _ _ _ => some ⟨⟨0, 0, 0, 0⟩, 325⟩)
        2 [] ⟨fun _ => 1 / 2, 0⟩ = some (best, bestTime, hist) ∧
      bestTime = 10 ∧ ∃ results ∈ hist, ∃ r ∈ results, r.elapsed = 5 := by
  obtain ⟨best, bestTime, hist, hrun, hlen, hhist, results, hlast, hmem, _⟩ :=
    Primary.run_ga_spec (fun gen _ _ _ => (if gen < 99 then 5 else 10, none))
      (fun _ => Primary.sortByTime) (fun _ _ _ => some ⟨⟨0, 0, 0, 0⟩, 325⟩)
      2 [] ⟨fun _ => 1 / 2, 0⟩ (by decide)
      (fun _ rs => ⟨Primary.sortByTime_sorted rs, Primary.sortByTime_perm rs⟩)
      (fun _ _ _ => rfl)
  refine ⟨best, bestTime, hist, hrun, ?_, ?_⟩
  · obtain ⟨cfgs, t, _, hk⟩ := hhist 99 (by decide)
    rw [List.getLast?_eq_getElem?, hlen] at hlast
    have h99 : Primary.MAX_GENERATION - 1 = 99 := rfl
    rw [h99, hk] at hlast
    simp only [Option.some.injEq] at hlast
    rw [← hlast] at hmem
    have hmem2 := (Primary.sortByTime_perm _).subset hmem
    exact Primary.runAllFrom_elapsed _ t 10 (fun _ _ => rfl) cfgs 0 _ hmem2
  · obtain ⟨cfgs, t, hl, hk⟩ := hhist 0 (by decide)
    refine ⟨_, List.mem_iff_getElem?.mpr ⟨0, hk⟩, ?_⟩
    cases cfgs with
    | nil => exact absurd hl (by decide)
    | cons c cs =>
      have hin : (⟨c, (Autotune.checkRun
          ((fun gen _ _ _ => (if gen < 99 then 5 else 10, none) :
            Nat → Nat → Primary.OptConfig → Int → Int × Option String) 0 0) c t []).1⟩ :
          Primary.Result) ∈ Primary.sortByTime (Primary.runAll
            ((fun gen _ _ _ => (if gen < 99 then 5 else 10, none) :
              Nat → Nat → Primary.OptConfig → Int → Int × Option String) 0) (c :: cs) t) :=
        (Primary.sortByTime_perm _).symm.subset (List.mem_cons_self _ _)
      exact ⟨_, hin, rfl⟩

/-- C12, amended: when the results of every generation come sorted by time and every
child is built, `run_ga` returns, and what it returns is a result of least time of the
last generation: `best` with `bestTime` is among the results of generation
`MAX_GENERATION - 1`, and no result of that generation has a smaller time. -/
theorem run_ga_best_of_last_generation
    (run : Nat → Nat → Primary.OptConfig → Int → Int × Option String)
    (arrange : Nat → List Primary.Result → List Primary.Result)
    (breed : Nat → Nat → List Primary.Result → Option Autotune.Config)
    (nOpts : Int) (m : Autotune.Mem) (g : Autotune.Rng) (hn : 0 < Autotune.int32 nOpts)
    (harr : ∀ gen rs, (arrange gen rs).Sorted (fun a b => a.elapsed ≤ b.elapsed) ∧
      (arrange gen rs).Perm rs)
    (hbreed : ∀ gen i rs, (breed gen i rs).isSome = true) :
    ∃ (best : Autotune.Config) (bestTime : Int) (hist : List (List Primary.Result)),
      Primary.run_ga run arrange breed nOpts m g = some (best, bestTime, hist) ∧
      hist.length = Primary.MAX_GENERATION ∧
      ∃ results, hist[Primary.MAX_GENERATION - 1]? = some results ∧
        (⟨Primary.OptConfig.config best, bestTime⟩ : Primary.Result) ∈ results ∧
        ∀ r ∈ results, bestTime ≤ r.elapsed := by
  obtain ⟨best, bestTime, hist, hrun, hlen, _, results, hlast, hmem, hmin⟩ :=
    Primary.run_ga_spec run arrange breed nOpts m g hn harr hbreed
  refine ⟨best, bestTime, hist, hrun, hlen, results, ?_, hmem, hmin⟩
  rw [List.getLast?_eq_getElem?, hlen] at hlast
  exact hlast

/-- C12, amended, at runs that take the time 5 in every generation but the last and 10 in
the last. -/
theorem run_ga_best_of_last_generation_witness :
    ∃ (best : Autotune.Config) (bestTime : Int) (hist : List (List Primary.Result)),
      Primary.run_ga (fun gen _ _ _ => (if gen < 99 then 5 else 10, none))
        (fun _ => Primary.sortByTime) (fun _ _ _ => some ⟨⟨0, 0, 0, 0⟩, 325⟩)
        2 [] ⟨fun _ => 1 / 2, 0⟩ = some (best, bestTime, hist) ∧
      hist.length = Primary.MAX_GENERATION ∧
      ∃ results, hist[Primary.MAX_GENERATION - 1]? = some results ∧
        (⟨Primary.OptConfig.config best, bestTime⟩ : Primary.Result) ∈ results ∧
        ∀ r ∈ results, bestTime ≤ r.elapsed :=
  run_ga_best_of_last_generation (fun gen _ _ _ => (if gen < 99 then 5 else 10, none))
    (fun _ => Primary.sortByTime) (fun _ _ _ => some ⟨⟨0, 0, 0, 0⟩, 325⟩)
    2 [] ⟨fun _ => 1 / 2, 0⟩ (by decide)
    (fun _ rs => ⟨Primary.sortByTime_sorted rs, Primary.sortByTime_perm rs⟩)
    (fun _ _ _ => rfl)
